import Mathlib

/-!
simplify_reshapes: a verification development.

A shallow embedding of the rewrite rules of `src/simplify_reshapes.cpp` over an
explicit instruction graph, with the properties the specification states about them.

Instructions are referred to by identifiers (`instruction_ref`); a module is the
ordered list of its instructions.  Walks over the graph that the source writes as
recursion or as a loop take a step bound: a result `error.out_of_steps` is not a
behaviour of the program, it only says that the bound given was too small.
-/

namespace migraphx

/-! ## Data model -/

/-- A reference to an instruction of a module. -/
abbrev instruction_ref := Nat

/-- The shape of a tensor: element type, lengths and strides. -/
structure shape where
  type : Nat
  lens : List Nat
  strides : List Nat
  deriving DecidableEq, Repr

/-- An operator: its name and its immutable parameters.  The parameter record has one
field per attribute the rules of `simplify_reshapes.cpp` read or write; `dims` is the
permutation of a `transpose` and the target lengths of a `reshape`, `alpha` the slope of
a `leaky_relu`. -/
structure operation where
  name : String
  dims : List Int := []
  out_lens : List Int := []
  axis : Int := 0
  axes : List Int := []
  starts : List Int := []
  ends : List Int := []
  steps : List Int := []
  alpha : Rat := 0
  deriving DecidableEq, Repr

/-- A node of the graph: operator, output shape, ordered inputs, consumers, and the
data of a literal (what `eval()` returns for a constant). -/
structure instruction where
  op : operation
  get_shape : shape
  inputs : List instruction_ref
  outputs : List instruction_ref
  lit : Option (List Int) := none
  deriving DecidableEq, Repr

/-- The owning container of the graph, in program order, with the designated returns
and the next unused identifier. -/
structure module where
  instructions : List (instruction_ref × instruction)
  returns : List instruction_ref
  next : instruction_ref
  deriving DecidableEq, Repr

/-- What a successful match hands to `apply`: the matched root and the bound names. -/
structure matcher_result where
  result : instruction_ref
  instructions : List (String × instruction_ref) := []
  deriving DecidableEq, Repr

/-- The ways an operation on the module can fail. -/
inductive error where
  | shape_mismatch
  | invariant_violation
  | out_of_steps
  | axis_out_of_range
  | exception (what : String)
  deriving DecidableEq, Repr

/-- The instruction a reference points to. -/
def module.get (m : module) (r : instruction_ref) : Option instruction :=
  m.instructions.lookup r

/-- Membership test `has_instruction`. -/
def module.has_instruction (m : module) (r : instruction_ref) : Bool :=
  (m.get r).isSome

/-- The operator name `ins->name()`. -/
def module.name (m : module) (r : instruction_ref) : String :=
  match m.get r with
  | some i => i.op.name
  | none => ""

/-- The operator `ins->get_operator()`. -/
def module.get_operator (m : module) (r : instruction_ref) : operation :=
  match m.get r with
  | some i => i.op
  | none => { name := "" }

/-- The inputs `ins->inputs()`. -/
def module.inputs (m : module) (r : instruction_ref) : List instruction_ref :=
  match m.get r with
  | some i => i.inputs
  | none => []

/-- The consumers `ins->outputs()`. -/
def module.outputs (m : module) (r : instruction_ref) : List instruction_ref :=
  match m.get r with
  | some i => i.outputs
  | none => []

/-- The output shape `ins->get_shape()`. -/
def module.get_shape (m : module) (r : instruction_ref) : shape :=
  match m.get r with
  | some i => i.get_shape
  | none => { type := 0, lens := [], strides := [] }

/-- The value of `ins->eval()`: the data of a literal, nothing for anything else. -/
def module.eval (m : module) (r : instruction_ref) : Option (List Int) :=
  match m.get r with
  | some i => i.lit
  | none => none

/-- The first element of a vector of references, `front()`; an empty vector has none. -/
def front (l : List instruction_ref) : Except error instruction_ref :=
  match l with
  | [] => .error .invariant_violation
  | r :: _ => .ok r

/-- The instruction bound to `name` in a match. -/
def matcher_result.at_name (mr : matcher_result) (name : String) :
    Except error instruction_ref :=
  match mr.instructions.lookup name with
  | some r => .ok r
  | none => .error .invariant_violation

/-- References identify instructions: no identifier occurs twice in the module. -/
def module.distinct (m : module) : Prop :=
  (m.instructions.map Prod.fst).Nodup

/-- Modelled from the spec: the graph is acyclic, stated with a rank that strictly
decreases along every input edge, as the position in a topologically valid order does. -/
def module.acyclic (m : module) : Prop :=
  ∃ rank : instruction_ref → Nat, ∀ r a, a ∈ m.inputs r → rank a < rank r

/-! ## Machine integers -/

/-- The value of an `int64_t` read as `std::size_t`. -/
def to_size (x : Int) : Nat :=
  (x % 2 ^ 64).toNat

/-- The value of a `std::size_t` read as `int64_t`. -/
def to_int64 (n : Nat) : Int :=
  if n % 2 ^ 64 < 2 ^ 63 then Int.ofNat (n % 2 ^ 64) else Int.ofNat (n % 2 ^ 64) - 2 ^ 64

/-- The value of a constant read into a `std::vector<int>`. -/
def to_int32 (x : Int) : Int :=
  (x + 2 ^ 31) % 2 ^ 32 - 2 ^ 31

/-- Addition of `std::size_t`. -/
def size_add (a b : Nat) : Nat :=
  (a + b) % 2 ^ 64

/-- Subtraction of `std::size_t`. -/
def size_sub (a b : Nat) : Nat :=
  (a % 2 ^ 64 + 2 ^ 64 - b % 2 ^ 64) % 2 ^ 64

/-! ## Shapes -/

/-- The canonical row-major strides of the lengths. -/
def standard_strides : List Nat → List Nat
  | [] => []
  | _ :: rest => rest.prod :: standard_strides rest

/-- The standard shape with the given element type and lengths. -/
def shape.from_lens (type : Nat) (lens : List Nat) : shape :=
  { type := type, lens := lens, strides := standard_strides lens }

/-- Modelled from the spec: a shape is standard iff its strides equal the canonical
strides derived from its lengths (shape.cpp is not among the sources). -/
def shape.standard (s : shape) : Bool :=
  decide (s.strides = standard_strides s.lens)

/-- The number of elements of a shape. -/
def shape.elements (s : shape) : Nat :=
  s.lens.prod

/-- The multi-index of the element with row-major position `idx` for the given lengths. -/
def multi_of : List Nat → Nat → List Nat
  | [], _ => []
  | _ :: rest, idx => idx / rest.prod :: multi_of rest (idx % rest.prod)

/-- Modelled from the spec: `multi_index(flat_index)`, the method `shape::multi` (shape.cpp
is not among the sources). -/
def shape.multi (s : shape) (idx : Nat) : List Nat :=
  multi_of s.lens idx

/-- Modelled from the spec: `flat_index(multi_index)`, the method `shape::index`,
consistent with the strides: the sum of index times stride (shape.cpp is not among the
sources). -/
def shape.index (s : shape) (idx : List Nat) : Nat :=
  (List.zipWith (· * ·) idx s.strides).sum

/-! ## Permutations -/

/-- Modelled from the spec: `reorder_dims(dims, permutation)` (permutation.hpp is not
among the sources): the result has the size of `dims` and `result[i] = dims[permutation[i]]`. -/
def reorder_dims {α : Type} [Inhabited α] (dims : List α) (permutation : List Int) : List α :=
  (List.range dims.length).map fun i => dims.getD (permutation.getD i 0).toNat default

/-- The vector `0, 1, ..., n-1` that `std::iota` writes. -/
def iota (n : Nat) : List Int :=
  (List.range n).map Int.ofNat

/-- The position `std::adjacent_find` returns: the first `i` with `p xs[i] xs[i+1]`. -/
def adjacent_find {α : Type} (p : α → α → Bool) : List α → Option Nat
  | x :: y :: rest =>
    if p x y then some 0 else (adjacent_find p (y :: rest)).map (· + 1)
  | _ => none

/-- Whether `p` lists each of `0 .. n-1` once. -/
def is_permutation (n : Nat) (p : List Int) : Bool :=
  decide (p.length = n) && (List.range n).all fun i => decide (p.count (Int.ofNat i) = 1)

/-- An index vector of rank `n`: `n` entries, each in `0 .. n-1`. -/
def index_vector (n : Nat) (p : List Int) : Prop :=
  p.length = n ∧ ∀ a ∈ p, 0 ≤ a ∧ a < n

/-- Modelled from the spec: `invert_permutation` (permutation.hpp is not among the
sources), the inverse under `reorder`: entry `k` is the position of `k` in the
permutation. -/
def invert_permutation (permutation : List Int) : List Int :=
  (List.range permutation.length).map fun k =>
    Int.ofNat (permutation.indexOf (Int.ofNat k))

/-- Whether axis `x` comes no later than axis `y` in the layout of the shape: by
decreasing stride, then by decreasing length. -/
def shape.axis_before (s : shape) (x y : Int) : Bool :=
  decide (s.strides.getD y.toNat 0 < s.strides.getD x.toNat 0) ||
    (decide (s.strides.getD y.toNat 0 = s.strides.getD x.toNat 0) &&
      decide (s.lens.getD y.toNat 0 ≤ s.lens.getD x.toNat 0))

/-- Modelled from the spec: `find_permutation(shape)` (permutation.hpp is not among the
sources), derived from the strides: the axes in the order of their layout, by a stable
sort, so that a standard shape gets the identity. -/
def find_permutation (s : shape) : List Int :=
  (iota s.lens.length).insertionSort fun x y => s.axis_before x y = true

/-- Modelled from the spec: `tune_axis(n_dim, axis)` (tune_axis.hpp is not among the
sources): the axis normalised into `[0, n_dim)`, a negative axis counting from the end; an
axis outside `[-n_dim, n_dim)` is an error. -/
def tune_axis (n_dim : Int) (axis : Int) : Except error Int :=
  if axis < -n_dim ∨ n_dim ≤ axis then .error .axis_out_of_range
  else .ok (if axis < 0 then axis + n_dim else axis)

/-! ## Module primitives -/

/-- Adds `c` to a set of consumers. -/
def add_output (outs : List instruction_ref) (c : instruction_ref) : List instruction_ref :=
  if c ∈ outs then outs else outs ++ [c]

/-- Inserts `entry` right before the instruction `pos`; at the end when `pos` is absent. -/
def insert_before (pos : instruction_ref) (entry : instruction_ref × instruction) :
    List (instruction_ref × instruction) → List (instruction_ref × instruction)
  | [] => [entry]
  | (r, i) :: rest =>
    if r = pos then entry :: (r, i) :: rest else (r, i) :: insert_before pos entry rest

/-- Modelled from the spec: `insert_instruction(position, operator, inputs)` of the module
(module.cpp is not among the sources).  Every input must exist in the module, the
operator's shape inference `compute_shape` must succeed on the inputs' shapes, and the
new instruction is registered as a consumer of each input; on failure nothing is
inserted. -/
def module.insert_instruction (compute_shape : operation → List shape → Option shape)
    (m : module) (pos : instruction_ref) (op : operation) (args : List instruction_ref) :
    Except error (module × instruction_ref) :=
  if args.all m.has_instruction then
    match compute_shape op (args.map m.get_shape) with
    | none => .error .shape_mismatch
    | some s =>
      let r := m.next
      let fresh : instruction := { op := op, get_shape := s, inputs := args, outputs := [] }
      let registered := m.instructions.map fun p =>
        if p.1 ∈ args then (p.1, { p.2 with outputs := add_output p.2.outputs r }) else p
      .ok ({ instructions := insert_before pos (r, fresh) registered,
             returns := m.returns, next := r + 1 }, r)
  else .error .invariant_violation

/-- Modelled from the spec: `replace_instruction(old, new)` of the module (module.cpp is
not among the sources).  Requires matching shapes, that is the element type and the
lengths, which is what `find_concat_transpose::apply` asserts before it replaces a concat
by a transpose of another layout; every consumer of `old` is rewired to reference `new`, a
return designation of `old` passes to `new`, and `old` is left without consumers, to be
collected by dead-code elimination. -/
def module.replace_instruction (m : module) (old new : instruction_ref) :
    Except error module :=
  match m.get old, m.get new with
  | some io, some inew =>
    if io.get_shape.type = inew.get_shape.type ∧ io.get_shape.lens = inew.get_shape.lens then
      .ok { instructions := m.instructions.map fun p =>
              let i1 : instruction :=
                if p.1 ∈ io.outputs then
                  { p.2 with inputs := p.2.inputs.map fun a => if a = old then new else a }
                else p.2
              let i2 : instruction :=
                if p.1 = new then { i1 with outputs := io.outputs.foldl add_output i1.outputs }
                else i1
              let i3 : instruction := if p.1 = old then { i2 with outputs := [] } else i2
              (p.1, i3),
            returns := m.returns.map fun a => if a = old then new else a,
            next := m.next }
    else .error .invariant_violation
  | _, _ => .error .invariant_violation

/-- Modelled from the spec: the operator form `replace_instruction(ins, op, inputs)` the
rules call (module.cpp is not among the sources), following the replace-then-collect
protocol: a new instruction is inserted before `ins` and `ins` is replaced by it. -/
def module.replace_instruction_op (compute_shape : operation → List shape → Option shape)
    (m : module) (ins : instruction_ref) (op : operation) (args : List instruction_ref) :
    Except error module :=
  match m.insert_instruction compute_shape ins op args with
  | .error e => .error e
  | .ok (m1, r) => m1.replace_instruction ins r

/-- Modelled from the spec: `make_op(name)` without parameter values (make_op.hpp is not
among the sources): the operator registered under `name` with every parameter at its
default. -/
def make_op (name : String) : operation :=
  { name := name }

/-- Whether dead-code elimination may remove the entry: no consumer, not a designated
return, not a parameter. -/
def module.is_dead (m : module) (p : instruction_ref × instruction) : Bool :=
  p.2.outputs.isEmpty && !(p.1 ∈ m.returns) && p.2.op.name != "@param"

/-- One pass of dead-code elimination: the dead instructions are removed and dropped from
the consumer sets of the instructions that remain. -/
def module.dce_pass (m : module) : module :=
  let dead := (m.instructions.filter m.is_dead).map Prod.fst
  { instructions := (m.instructions.filter fun p => !m.is_dead p).map fun p =>
      (p.1, { p.2 with outputs := p.2.outputs.filter fun c => !(c ∈ dead) }),
    returns := m.returns, next := m.next }

/-- Passes of dead-code elimination until one removes nothing, at most `n` of them. -/
def module.dce_loop : Nat → module → module
  | 0, m => m
  | n + 1, m =>
    let m1 := m.dce_pass
    if m1.instructions.length = m.instructions.length then m else module.dce_loop n m1

/-- Modelled from the spec: `dead_code_elimination` (dead_code_elimination.cpp is not
among the sources): instructions with no consumer that are neither returns nor parameters
are removed repeatedly until a pass removes nothing.  Every pass but the last removes an
instruction, so as many passes as there are instructions reach the fixed point. -/
def dead_code_elimination (m : module) : module :=
  module.dce_loop m.instructions.length m

/-! ## Matchers -/

/-- Modelled from the spec: `match::name(names)` matches when the operator name of the
instruction is in the set (matcher.hpp is not among the sources). -/
def match_name (names : List String) (m : module) (ins : instruction_ref) : Bool :=
  decide (m.name ins ∈ names)

/-- Modelled from the spec: `match::arg(i)` yields input `i` of the instruction when it
has one (matcher.hpp is not among the sources). -/
def match_arg (i : Nat) (m : module) (ins : instruction_ref) : Option instruction_ref :=
  (m.inputs ins)[i]?

/-- Modelled from the spec: `match::same_shape(sub)` matches when `sub` yields an
instruction whose shape equals the shape of the candidate (matcher.hpp is not among the
sources). -/
def match_same_shape (sub : module → instruction_ref → Option instruction_ref)
    (m : module) (ins : instruction_ref) : Bool :=
  match sub m ins with
  | some i => decide (m.get_shape i = m.get_shape ins)
  | none => false

/-- Modelled from the spec: `match::skip(names)` walks past a chain of single-input
instructions whose operator name is in `names` and yields the instruction it stops at
(matcher.hpp is not among the sources). -/
def match_skip (names : List String) (m : module) :
    Nat → instruction_ref → Except error instruction_ref
  | 0, _ => .error .out_of_steps
  | fuel + 1, ins =>
    match m.inputs ins with
    | [next] => if m.name ins ∈ names then match_skip names m fuel next else .ok ins
    | _ => .ok ins

/-- Modelled from the spec: `match::skip_output(names)`, the counterpart of `skip` on
output edges: from an instruction with exactly one consumer it yields that consumer, or
what the walk past the consumers named in `names` reaches beyond it (matcher.hpp is not
among the sources). -/
def match_skip_output (names : List String) (m : module) :
    Nat → instruction_ref → Except error (Option instruction_ref)
  | 0, _ => .error .out_of_steps
  | fuel + 1, ins =>
    match m.outputs ins with
    | [next] =>
      if m.name next ∈ names then
        match match_skip_output names m fuel next with
        | .error e => .error e
        | .ok (some r) => .ok (some r)
        | .ok none => .ok (some next)
      else .ok (some next)
    | _ => .ok none

/-! ## simplify_reshapes.cpp: helpers -/

/-- The names of `reshaper_names()`. -/
def reshaper_names : List String :=
  ["flatten", "reshape", "contiguous", "squeeze", "unsqueeze"]

/-- The test `is_reshaper`. -/
def is_reshaper (m : module) (ins : instruction_ref) : Bool :=
  decide (m.name ins ∈ reshaper_names)

/-- The walk `find_transpose_input`: past the contiguous instructions in front of `ins`
to a transpose, if there is one. -/
def find_transpose_input (m : module) : Nat → instruction_ref → Except error instruction_ref
  | 0, _ => .error .out_of_steps
  | fuel + 1, ins =>
    match m.inputs ins with
    | [i] =>
      if m.name i = "contiguous" then find_transpose_input m fuel i
      else if m.name i = "transpose" then .ok i
      else .ok ins
    | _ => .ok ins

/-- The permutation of a transpose, `get_transpose_dims`. -/
def get_transpose_dims (m : module) (ins : instruction_ref) : List Int :=
  (m.get_operator ins).dims

/-- The test `is_no_transpose`. -/
def is_no_transpose (dims : List Int) : Bool :=
  match dims with
  | [] => true
  | d :: _ =>
    if d ≠ 0 then false
    else (adjacent_find (fun x y => decide (y - x ≠ 1)) dims).isNone

/-! ## find_reshaper -/

/-- The matcher of `find_reshaper`: a reshaper none of whose consumers is a reshaper, whose
first input, behind contiguous instructions, is a reshaper; `x` is bound to the
instruction the walk from the match past reshapers stops at. -/
def find_reshaper.matcher (fuel : Nat) (m : module) (ins : instruction_ref) :
    Except error (Option matcher_result) :=
  let reshaper := match_name reshaper_names m
  if !reshaper ins then .ok none
  -- no_output_reshape
  else if (m.outputs ins).any reshaper then .ok none
  else
    -- input_reshape
    match match_arg 0 m ins with
    | none => .ok none
    | some a =>
      match match_skip ["contiguous"] m fuel a with
      | .error e => .error e
      | .ok r =>
        if !reshaper r then .ok none
        else
          -- input
          match match_skip (reshaper_names ++ ["contiguous"]) m fuel ins with
          | .error e => .error e
          | .ok x => .ok (some { result := ins, instructions := [("x", x)] })

/-- The rewrite `find_reshaper::apply`. -/
def find_reshaper.apply (compute_shape : operation → List shape → Option shape)
    (m : module) (mr : matcher_result) : Except error module :=
  let ins := mr.result
  match mr.at_name "x" with
  | .error e => .error e
  | .ok input =>
    let dims := (m.get_shape ins).lens.map Int.ofNat
    if !(m.get_shape input).standard then
      match m.insert_instruction compute_shape ins { name := "contiguous" } [input] with
      | .error e => .error e
      | .ok (m1, input1) =>
        m1.replace_instruction_op compute_shape ins { name := "reshape", dims := dims } [input1]
    else m.replace_instruction_op compute_shape ins { name := "reshape", dims := dims } [input]

/-! ## find_nop_reshapes -/

/-- The set `reshapes` that `find_nop_reshapes::matcher` builds. -/
def find_nop_reshapes.reshapes : List String :=
  reshaper_names ++
    ["as_shape", "broadcast", "concat", "convert", "multibroadcast", "pad", "slice", "transpose"]

/-- The matcher of `find_nop_reshapes`. -/
def find_nop_reshapes.matcher (m : module) (ins : instruction_ref) : Bool :=
  match_name find_nop_reshapes.reshapes m ins && match_same_shape (match_arg 0) m ins

/-- The rewrite `find_nop_reshapes::apply`. -/
def find_nop_reshapes.apply (m : module) (mr : matcher_result) : Except error module :=
  let ins := mr.result
  match front (m.inputs ins) with
  | .error e => .error e
  | .ok input => m.replace_instruction ins input

/-! ## find_transpose -/

/-- The matcher of `find_transpose`: a transpose with no transpose behind the contiguous
instructions on its output, whose only input is a transpose behind contiguous
instructions. -/
def find_transpose.matcher (fuel : Nat) (m : module) (ins : instruction_ref) :
    Except error Bool :=
  match match_skip_output ["contiguous"] m fuel ins with
  | .error e => .error e
  | .ok out =>
    let output_not_transpose : Bool :=
      match out with
      | some r => !match_name ["transpose"] m r
      | none => true
    match m.inputs ins with
    | [a] =>
      match match_skip ["contiguous"] m fuel a with
      | .error e => .error e
      | .ok r =>
        .ok (match_name ["transpose"] m ins && output_not_transpose &&
          match_name ["transpose"] m r)
    | _ => .ok false

/-- The do-while loop of `find_transpose::apply`: from the transpose `t` and the
permutation `dims` accumulated so far to the final `dims` and `t`. -/
def find_transpose.loop (m : module) :
    Nat → List Int → instruction_ref → Except error (List Int × instruction_ref)
  | 0, _, _ => .error .out_of_steps
  | fuel + 1, dims, t =>
    let dims1 := reorder_dims (get_transpose_dims m t) dims
    let x := t
    match find_transpose_input m fuel x with
    | .error e => .error e
    | .ok t1 =>
      if x ≠ t1 ∧ m.name t1 = "transpose" then find_transpose.loop m fuel dims1 t1
      else .ok (dims1, t1)

/-- The rewrite `find_transpose::apply`. -/
def find_transpose.apply (compute_shape : operation → List shape → Option shape)
    (fuel : Nat) (m : module) (mr : matcher_result) : Except error module :=
  let ins := mr.result
  match find_transpose.loop m fuel (iota (m.get_shape ins).lens.length) ins with
  | .error e => .error e
  | .ok (dims, t) =>
    if t = ins ∨ m.name t ≠ "transpose" then .ok m
    else
      match front (m.inputs t) with
      | .error e => .error e
      | .ok input =>
        if is_no_transpose dims then m.replace_instruction ins input
        else m.replace_instruction_op compute_shape ins
          { name := "transpose", dims := dims } [input]

/-- The permutation the loop of `find_transpose::apply` accumulates in `dims` over the
permutations of the transposes it visits, the root's first, for rank `n`. -/
def find_transpose.accumulate (n : Nat) (ps : List (List Int)) : List Int :=
  ps.foldl (fun dims p => reorder_dims p dims) (iota n)

/-! ## find_nested_convert -/

/-- The rewrite `find_nested_convert::apply`. -/
def find_nested_convert.apply (m : module) (mr : matcher_result) : Except error module :=
  let ins := mr.result
  match front (m.inputs ins) with
  | .error e => .error e
  | .ok x =>
    match front (m.inputs x) with
    | .error e => .error e
    | .ok input =>
      if m.get_shape ins ≠ m.get_shape input then .ok m
      else m.replace_instruction ins input

/-! ## find_nested_slice -/

/-- The type `axes_map`, a `std::map` from axis to `(start, end)`: its entries in
increasing key order. -/
abbrev axes_map := List (Nat × (Nat × Nat))

/-- The invariant of a `std::map`: keys strictly increasing. -/
def axes_map.ordered (m : axes_map) : Prop :=
  (m.map Prod.fst).Pairwise (· < ·)

/-- The lookup `m.at(k)`. -/
def axes_map.get (m : axes_map) (k : Nat) : Option (Nat × Nat) :=
  m.lookup k

/-- The test `contains(m, k)`. -/
def axes_map.contains (m : axes_map) (k : Nat) : Bool :=
  (axes_map.get m k).isSome

/-- The assignment `m[k] = v`. -/
def axes_map.set : axes_map → Nat → Nat × Nat → axes_map
  | [], k, v => [(k, v)]
  | (k0, v0) :: rest, k, v =>
    if k < k0 then (k, v) :: (k0, v0) :: rest
    else if k = k0 then (k, v) :: rest
    else (k0, v0) :: axes_map.set rest k v

/-- The step of a loop that assigns `result[p.first] = w` when `g p = some w`. -/
def axes_map.assign (g : Nat × (Nat × Nat) → Option (Nat × Nat)) (result : axes_map)
    (p : Nat × (Nat × Nat)) : axes_map :=
  match g p with
  | none => result
  | some w => axes_map.set result p.1 w

/-- The map `find_nested_slice::get_axes` builds from the attributes of a slice. -/
def find_nested_slice.get_axes (op : operation) : axes_map :=
  (List.range op.axes.length).foldl
    (fun result i =>
      axes_map.set result (to_size (op.axes.getD i 0))
        (to_size (op.starts.getD i 0), to_size (op.ends.getD i 0)))
    []

/-- The function `find_nested_slice::merge`. -/
def find_nested_slice.merge (m1 m2 : axes_map) : axes_map :=
  let result : axes_map := []
  -- Non overlapping
  let result := m1.foldl
    (fun result p => if axes_map.contains m2 p.1 then result else axes_map.set result p.1 p.2)
    result
  let result := m2.foldl
    (fun result p => if axes_map.contains m1 p.1 then result else axes_map.set result p.1 p.2)
    result
  -- Overlapping
  m1.foldl
    (fun result p1 =>
      if !axes_map.contains m2 p1.1 then result
      else
        match axes_map.get m2 p1.1 with
        | none => result
        | some v2 =>
          let v1 := p1.2
          let start := size_add v1.1 v2.1
          let end_ := size_add start (size_sub v2.2 v2.1)
          axes_map.set result p1.1 (start, end_))
    result

/-- The slice operator `find_nested_slice::apply` builds from the merged map. -/
def find_nested_slice.make_slice (axes : axes_map) : operation :=
  { name := "slice",
    axes := axes.map fun pp => to_int64 pp.1,
    starts := axes.map fun pp => to_int64 pp.2.1,
    ends := axes.map fun pp => to_int64 pp.2.2 }

/-- The rewrite `find_nested_slice::apply`. -/
def find_nested_slice.apply (compute_shape : operation → List shape → Option shape)
    (m : module) (mr : matcher_result) : Except error module :=
  let ins := mr.result
  match front (m.inputs ins) with
  | .error e => .error e
  | .ok slice =>
    match front (m.inputs slice) with
    | .error e => .error e
    | .ok input =>
      let a1 := find_nested_slice.get_axes (m.get_operator ins)
      let a2 := find_nested_slice.get_axes (m.get_operator slice)
      let axes := find_nested_slice.merge a2 a1
      m.replace_instruction_op compute_shape ins (find_nested_slice.make_slice axes) [input]

/-! ## find_concat_multibroadcasts -/

/-- The concat axis `find_concat_multibroadcasts::apply` gives the new concat: reduced by
the number of zero strides of the first operand in front of the axis when the first input
of the multibroadcasts has a lower rank than the output. -/
def find_concat_multibroadcasts.new_axis (axis : Int) (in_strides : List Nat)
    (in_rank out_rank : Nat) : Int :=
  if in_rank < out_rank then axis - Int.ofNat ((in_strides.take (to_size axis)).count 0)
  else axis

/-- The rewrite `find_concat_multibroadcasts::apply`. -/
def find_concat_multibroadcasts.apply (compute_shape : operation → List shape → Option shape)
    (m : module) (mr : matcher_result) : Except error module :=
  let ins := mr.result
  let op := m.get_operator ins
  let out_lens := (m.get_shape ins).lens
  let inputs := m.inputs ins
  match front inputs with
  | .error e => .error e
  | .ok first =>
    let in_strides := (m.get_shape first).strides
    -- Only apply when concat axis is not a broadcasted dimension
    if inputs.any (fun i => decide ((m.get_shape i).strides[to_size op.axis]? = some 0)) then
      .ok m
    else
      -- Use inputs of multibroadcast ops as inputs to new concat op
      match inputs.mapM (fun i => front (m.inputs i)) with
      | .error e => .error e
      | .ok inputs1 =>
        match front inputs1 with
        | .error e => .error e
        | .ok first1 =>
          -- Reduce axis by number of leading broadcasted dimensions
          let op1 := { op with axis := find_concat_multibroadcasts.new_axis op.axis in_strides
                                  (m.get_shape first1).lens.length out_lens.length }
          match m.insert_instruction compute_shape ins op1 inputs1 with
          | .error e => .error e
          | .ok (m1, concat) =>
            m1.replace_instruction_op compute_shape ins
              { name := "multibroadcast", out_lens := out_lens.map Int.ofNat } [concat]

/-! ## find_concat_transpose -/

/-- The instructions `insert_instruction(pos, op, i)` adds for each `i` of a list, in
order, as `std::transform` with a back inserter does. -/
def insert_each (compute_shape : operation → List shape → Option shape)
    (pos : instruction_ref) (op : operation) :
    module → List instruction_ref → Except error (module × List instruction_ref)
  | m, [] => .ok (m, [])
  | m, i :: rest =>
    match m.insert_instruction compute_shape pos op [i] with
    | .error e => .error e
    | .ok (m1, r) =>
      match insert_each compute_shape pos op m1 rest with
      | .error e => .error e
      | .ok (m2, rs) => .ok (m2, r :: rs)

/-- The statements of `find_concat_transpose::apply` after the axis is computed: the
operands are transposed by `permutation`, concatenated by `op`, and the transpose by
`ipermutation` of that concat replaces the matched concat. -/
def find_concat_transpose.rewrite (compute_shape : operation → List shape → Option shape)
    (m : module) (ins : instruction_ref) (permutation ipermutation : List Int)
    (op : operation) : Except error module :=
  match insert_each compute_shape ins { name := "transpose", dims := permutation } m
      (m.inputs ins) with
  | .error e => .error e
  | .ok (m1, inputs) =>
    match m1.insert_instruction compute_shape ins op inputs with
    | .error e => .error e
    | .ok (m2, concat) =>
      match m2.insert_instruction compute_shape ins
          { name := "transpose", dims := ipermutation } [concat] with
      | .error e => .error e
      | .ok (m3, t) => m3.replace_instruction ins t

/-- The rewrite `find_concat_transpose::apply`. -/
def find_concat_transpose.apply (compute_shape : operation → List shape → Option shape)
    (m : module) (mr : matcher_result) : Except error module :=
  let ins := mr.result
  let trans_inputs := m.inputs ins
  match front trans_inputs with
  | .error e => .error e
  | .ok first =>
    let s := m.get_shape first
    let op := m.get_operator ins
    let permutation := find_permutation s
    -- permutation should be the same for all inputs
    if !trans_inputs.all (fun i => decide (find_permutation (m.get_shape i) = permutation)) then
      .ok m
    else
      -- axis could be a negative value
      let n_dim := Int.ofNat s.lens.length
      match tune_axis n_dim op.axis with
      | .error e => .error e
      | .ok axis =>
        let ipermutation := invert_permutation permutation
        find_concat_transpose.rewrite compute_shape m ins permutation ipermutation
          { op with axis := ipermutation.getD axis.toNat 0 }

/-! ## find_nested_concat -/

/-- The axis `find_nested_concat::get_axis` reads, as `std::size_t`. -/
def find_nested_concat.get_axis (m : module) (ins : instruction_ref) : Nat :=
  to_size (m.get_operator ins).axis

/-- The recursive lambda of `find_nested_concat::apply`: the operands pushed to `args`
while walking `inputs`. -/
def find_nested_concat.walk (m : module) (axis : Nat) :
    Nat → List instruction_ref → List instruction_ref → Except error (List instruction_ref)
  | 0, _, _ => .error .out_of_steps
  | _ + 1, [], args => .ok args
  | fuel + 1, i :: rest, args =>
    if m.name i = "concat" ∧ find_nested_concat.get_axis m i = axis ∧
        (m.outputs i).length = 1 then
      match find_nested_concat.walk m axis fuel (m.inputs i) args with
      | .error e => .error e
      | .ok args1 => find_nested_concat.walk m axis fuel rest args1
    else find_nested_concat.walk m axis fuel rest (args ++ [i])

/-- The rewrite `find_nested_concat::apply`. -/
def find_nested_concat.apply (compute_shape : operation → List shape → Option shape)
    (fuel : Nat) (m : module) (mr : matcher_result) : Except error module :=
  let ins := mr.result
  let axis := find_nested_concat.get_axis m ins
  match find_nested_concat.walk m axis fuel (m.inputs ins) [] with
  | .error e => .error e
  | .ok args => m.replace_instruction_op compute_shape ins (m.get_operator ins) args

/-! ## find_resize -/

/-- The vector `is_multi` of `find_resize::apply`. -/
def find_resize.is_multi (in_lens out_lens : List Nat) : List Bool :=
  List.zipWith (fun x y => decide (y % x = 0)) in_lens out_lens

/-- The vector `scales` of `find_resize::apply`. -/
def find_resize.scales (in_lens out_lens : List Nat) : List Nat :=
  List.zipWith (fun x y => y / x) in_lens out_lens

/-- The index check of `find_resize::apply`: every index equals the index at the corner of
its scale block. -/
def find_resize.index_check (out_shape : shape) (scales : List Nat) (vec_ind : List Int) :
    Bool :=
  (List.range out_shape.elements).all fun i =>
    let out_idx := out_shape.multi i
    let in_idx := List.zipWith (fun io scale => io - io % scale) out_idx scales
    decide (vec_ind.getD i 0 = vec_ind.getD (out_shape.index in_idx) 0)

/-- The vector `dim_scales` of `find_resize::apply`. -/
def find_resize.dim_scales (in_lens out_lens : List Nat) : List (Nat × Nat) :=
  List.zipWith (fun x y => (x, y / x)) in_lens out_lens

/-- The vectors `in_dims` and `out_dims` that `find_resize::apply` builds from
`dim_scales`. -/
def find_resize.dims (dim_scales : List (Nat × Nat)) : List Nat × List Nat :=
  dim_scales.foldl
    (fun acc isp =>
      let in_dims := acc.1 ++ [isp.1]
      let out_dims := acc.2 ++ [isp.1 * isp.2]
      if isp.1 = 1 ∨ isp.2 = 1 then (in_dims, out_dims)
      else (in_dims ++ [1], out_dims.dropLast ++ [isp.1] ++ [isp.2]))
    ([], [])

/-- The rewrite `find_resize::apply`. -/
def find_resize.apply (compute_shape : operation → List shape → Option shape)
    (m : module) (r : matcher_result) : Except error module :=
  let ins := r.result
  match r.at_name "data", r.at_name "ind" with
  | .ok ins_rsp, .ok ins_ind =>
    -- resize input shape
    if (m.get_shape ins_rsp).lens.length ≠ 1 then .ok m
    else
      match front (m.inputs ins_rsp) with
      | .error e => .error e
      | .ok in_rsp =>
        -- resize output shape
        let in_shape := m.get_shape in_rsp
        let out_shape := m.get_shape ins
        let in_lens := in_shape.lens
        let out_lens := out_shape.lens
        if in_lens.length ≠ out_lens.length then .ok m
        -- output shape must be multiple of input shape
        else if !(find_resize.is_multi in_lens out_lens).all (fun b => b) then .ok m
        else
          let scales := find_resize.scales in_lens out_lens
          -- if ind is not constant, cannot optimize
          match m.eval ins_ind with
          | none => .ok m
          | some arg_ind =>
            let vec_ind := arg_ind.map to_int32
            if !find_resize.index_check out_shape scales vec_ind then .ok m
            else
              -- wrap up shapes for multibroadcast
              let dims := find_resize.dims (find_resize.dim_scales in_lens out_lens)
              let in_dims := dims.1.map Int.ofNat
              let out_dims := dims.2.map Int.ofNat
              match m.insert_instruction compute_shape ins_rsp
                  { name := "reshape", dims := in_dims } [in_rsp] with
              | .error e => .error e
              | .ok (m1, rsp_data) =>
                match m1.insert_instruction compute_shape ins_rsp
                    { name := "multibroadcast", out_lens := out_dims } [rsp_data] with
                | .error e => .error e
                | .ok (m2, mb_rsp) =>
                  match m2.insert_instruction compute_shape ins { name := "contiguous" }
                      [mb_rsp] with
                  | .error e => .error e
                  | .ok (m3, std_mb) =>
                    let rsp_dims := out_lens.map Int.ofNat
                    m3.replace_instruction_op compute_shape ins
                      { name := "reshape", dims := rsp_dims } [std_mb]
  | .error e, _ => .error e
  | _, .error e => .error e

/-- The entries one pair of `dim_scales` contributes to `in_dims`. -/
def find_resize.in_part (isp : Nat × Nat) : List Nat :=
  if isp.1 = 1 ∨ isp.2 = 1 then [isp.1] else [isp.1, 1]

/-- The entries one pair of `dim_scales` contributes to `out_dims`. -/
def find_resize.out_part (isp : Nat × Nat) : List Nat :=
  if isp.1 = 1 ∨ isp.2 = 1 then [isp.1 * isp.2] else [isp.1, isp.2]

/-! ## find_where_op -/

/-- The rewrite `find_where_op::apply`. -/
def find_where_op.apply (m : module) (r : matcher_result) : Except error module :=
  let ins := r.result
  match r.at_name "data", r.at_name "ind" with
  | .ok concat, .ok ins_ind =>
    let vec_ind : List Bool := ((m.eval ins_ind).getD []).map fun v => decide (v ≠ 0)
    -- ind has to be the same value
    match vec_ind with
    | [] => .error .invariant_violation
    | val :: _ =>
      if !vec_ind.all (fun v => v == val) then .ok m
      -- concat axis must be 0
      else if (m.get_operator concat).axis ≠ 0 then .ok m
      -- check concat inputs, it has to be 2 and have the same shape
      else
        match m.inputs concat with
        | [input0, input1] =>
          if m.get_shape input0 ≠ m.get_shape input1 then .ok m
          else if (m.get_shape input0).lens ≠ (m.get_shape ins_ind).lens then .ok m
          else if val then m.replace_instruction ins input0
          else m.replace_instruction ins input1
        | _ => .ok m
  | .error e, _ => .error e
  | _, .error e => .error e

/-! ## find_reshape_cont -/

/-- The loop of `find_reshape_cont::apply` over the operands of the pointwise instruction:
the operand `in_ins` gives `cont_input`, every other operand a reshape to `dims` inserted
before `ins`. -/
def find_reshape_cont.collect (compute_shape : operation → List shape → Option shape)
    (ins in_ins cont_input : instruction_ref) (dims : List Int) :
    module → List instruction_ref → Except error (module × List instruction_ref)
  | m, [] => .ok (m, [])
  | m, i :: rest =>
    if i = in_ins then
      match find_reshape_cont.collect compute_shape ins in_ins cont_input dims m rest with
      | .error e => .error e
      | .ok (m1, inputs) => .ok (m1, cont_input :: inputs)
    else
      match m.insert_instruction compute_shape ins { name := "reshape", dims := dims } [i] with
      | .error e => .error e
      | .ok (m1, r) =>
        match find_reshape_cont.collect compute_shape ins in_ins cont_input dims m1 rest with
        | .error e => .error e
        | .ok (m2, inputs) => .ok (m2, r :: inputs)

/-- The statements of `find_reshape_cont::apply` after its two checks. -/
def find_reshape_cont.rewrite (compute_shape : operation → List shape → Option shape)
    (m : module) (ins in_ins cont_input : instruction_ref) : Except error module :=
  let dims := (m.get_shape cont_input).lens.map Int.ofNat
  let out_dims := (m.get_shape ins).lens.map Int.ofNat
  match find_reshape_cont.collect compute_shape ins in_ins cont_input dims m (m.inputs ins) with
  | .error e => .error e
  | .ok (m1, inputs) =>
    match m1.insert_instruction compute_shape ins (m.get_operator ins) inputs with
    | .error e => .error e
    | .ok (m2, out) =>
      m2.replace_instruction_op compute_shape ins { name := "reshape", dims := out_dims } [out]

/-- The rewrite `find_reshape_cont::apply`. -/
def find_reshape_cont.apply (compute_shape : operation → List shape → Option shape)
    (m : module) (r : matcher_result) : Except error module :=
  let ins := r.result
  match r.at_name "cont", r.at_name "rsp" with
  | .ok ins_cont, .ok in_ins =>
    match front (m.inputs ins_cont) with
    | .error e => .error e
    | .ok cont_input =>
      if m.get_shape in_ins ≠ m.get_shape ins then .ok m
      else if !(m.inputs ins).all (fun i => (m.get_shape i).standard) then .ok m
      else find_reshape_cont.rewrite compute_shape m ins in_ins cont_input
  | .error e, _ => .error e
  | _, .error e => .error e

/-! ## find_transpose_contiguous_reshaper_unary -/

/-- The rewrite `find_transpose_contiguous_reshaper_unary::apply`. -/
def find_transpose_contiguous_reshaper_unary.apply
    (compute_shape : operation → List shape → Option shape)
    (m : module) (r : matcher_result) : Except error module :=
  let ins := r.result
  match r.at_name "reshaper_ins", r.at_name "trans_ins", r.at_name "cont_ins" with
  | .ok reshaper_ins, .ok trans_ins, .ok cont_ins =>
    let unary_op_name := (m.get_operator ins).name
    match m.insert_instruction compute_shape cont_ins (make_op unary_op_name) [trans_ins] with
    | .error e => .error e
    | .ok (m1, unary_ins) =>
      match m1.insert_instruction compute_shape cont_ins (make_op "contiguous")
          [unary_ins] with
      | .error e => .error e
      | .ok (m2, new_cont_ins) =>
        -- older cont and reshape are removed by deadcode elimination
        m2.replace_instruction_op compute_shape ins (m2.get_operator reshaper_ins)
          [new_cont_ins]
  | .error e, _, _ => .error e
  | _, .error e, _ => .error e
  | _, _, .error e => .error e

/-! ## find_slice_transpose -/

/-- The order of `std::vector<int64_t>` keys in a `std::map`: lexicographic. -/
def vector_less : List Int → List Int → Bool
  | [], [] => false
  | [], _ :: _ => true
  | _ :: _, [] => false
  | x :: xs, y :: ys => if x < y then true else if y < x then false else vector_less xs ys

/-- The statement `count[perm]++` on a `std::map` kept as a key-ordered association list. -/
def increment_count (perm : List Int) : List (List Int × Int) → List (List Int × Int)
  | [] => [(perm, 1)]
  | (k, c) :: rest =>
    if k = perm then (k, c + 1) :: rest
    else if vector_less perm k then (perm, 1) :: (k, c) :: rest
    else (k, c) :: increment_count perm rest

/-- The entry `std::max_element` returns when comparing by the count: the first entry
with the greatest count; nothing on an empty map. -/
def max_element_by_count : List (List Int × Int) → Option (List Int × Int)
  | [] => none
  | p :: rest => some (rest.foldl (fun best q => if best.2 < q.2 then q else best) p)

/-- The invariant of the `std::map`: the keys are strictly increasing. -/
def count_sorted (cnt : List (List Int × Int)) : Prop :=
  cnt.Pairwise fun x y => vector_less x.1 y.1 = true

/-- The function `find_slice_transpose::find_common_perm`. -/
def find_slice_transpose.find_common_perm (m : module) (transposes : List instruction_ref) :
    Except error (List Int) :=
  let count := transposes.foldl (fun count t => increment_count (m.get_operator t).dims count) []
  match max_element_by_count count with
  | some p => .ok p.1
  | none => .error .invariant_violation

/-- The test of the `copy_if` in `find_slice_transpose::apply`: a slice with exactly one
consumer, which is a transpose. -/
def find_slice_transpose.is_split (m : module) (out : instruction_ref) : Bool :=
  decide (m.name out = "slice") && decide ((m.outputs out).length = 1) &&
    match m.outputs out with
    | t :: _ => decide (m.name t = "transpose")
    | [] => false

/-- The position `std::next(ins)`: the instruction after `ins` in program order, or the
end of the module, for which the unused identifier `m.next` stands. -/
def module.next_of (m : module) (ins : instruction_ref) : instruction_ref :=
  match m.instructions.dropWhile fun p => p.1 ≠ ins with
  | _ :: (r, _) :: _ => r
  | _ => m.next

/-- The loop of `find_slice_transpose::apply` over the pairs of a split and its
transpose. -/
def find_slice_transpose.rewrite_splits (compute_shape : operation → List shape → Option shape)
    (pre : instruction_ref) (iperm : List Int) :
    module → List (instruction_ref × instruction_ref) → Except error module
  | m, [] => .ok m
  | m, (split, t) :: rest =>
    let op := m.get_operator split
    let op1 := { op with axes := op.axes.map fun axis => iperm.getD (to_size axis) 0 }
    match m.insert_instruction compute_shape t op1 [pre] with
    | .error e => .error e
    | .ok (m1, new_ins) =>
      let inserted : Except error (module × instruction_ref) :=
        if m1.get_operator t ≠ m1.get_operator pre then
          let curr := (m1.get_operator t).dims
          m1.insert_instruction compute_shape t
            { name := "transpose", dims := reorder_dims iperm curr } [new_ins]
        else .ok (m1, new_ins)
      match inserted with
      | .error e => .error e
      | .ok (m2, new_ins1) =>
        match m2.replace_instruction t new_ins1 with
        | .error e => .error e
        | .ok m3 => find_slice_transpose.rewrite_splits compute_shape pre iperm m3 rest

/-- The statements of `find_slice_transpose::apply` after its check: the common
permutation of the transposes behind the splits is hoisted in front of the slices. -/
def find_slice_transpose.rewrite (compute_shape : operation → List shape → Option shape)
    (m : module) (ins : instruction_ref) (splits : List instruction_ref) :
    Except error module :=
  match splits.mapM (fun split => front (m.outputs split)) with
  | .error e => .error e
  | .ok transposes =>
    match find_slice_transpose.find_common_perm m transposes with
    | .error e => .error e
    | .ok perm =>
      let iperm := invert_permutation perm
      match m.insert_instruction compute_shape (m.next_of ins)
          { name := "transpose", dims := perm } [ins] with
      | .error e => .error e
      | .ok (m1, pre) =>
        find_slice_transpose.rewrite_splits compute_shape pre iperm m1
          (List.zip splits transposes)

/-- The rewrite `find_slice_transpose::apply`. -/
def find_slice_transpose.apply (compute_shape : operation → List shape → Option shape)
    (m : module) (r : matcher_result) : Except error module :=
  let ins := r.result
  let splits := (m.outputs ins).filter (find_slice_transpose.is_split m)
  if splits.length < 2 then .ok m
  else find_slice_transpose.rewrite compute_shape m ins splits

/-! ## find_transpose_slice -/

/-- The vector `find_transpose_slice::slice_distance(op)`: `ends - starts`, entry by
entry. -/
def find_transpose_slice.slice_distance (op : operation) : List Int :=
  List.zipWith (fun e s => e - s) op.ends op.starts

/-- The lambda `mod_by_distance` of `find_transpose_slice::apply`: the inner product of `v`
and `sdistance` that `std::inner_product` accumulates in an `int` starting at 0, each
term being the `uint64_t` value 1 when the distance is 0 and `term x d`, the value of
`f(x) % d`, otherwise. -/
def find_transpose_slice.mod_by_distance (sdistance : List Int) (v : List Int)
    (term : Int → Int → Nat) : Int :=
  (List.zip v sdistance).foldl
    (fun acc p =>
      to_int32 (Int.ofNat (size_add (to_size acc) (if p.2 = 0 then 1 else term p.1 p.2))))
    0

/-- The term `ins->get_shape().lens()[x] % d` on `std::size_t`. -/
def find_transpose_slice.lens_term (lens : List Nat) (x d : Int) : Nat :=
  lens.getD (to_size x) 0 % to_size d

/-- The term `x % d` on `int64_t`, returned as `uint64_t`. -/
def find_transpose_slice.id_term (x d : Int) : Nat :=
  to_size (Int.tmod x d)

/-- The operator of a rewritten slice in `find_transpose_slice::apply`: the slice `op`
with first start `st` and first end `en`, turned into a slice of axis 0 whose start and
end are the `int64_t` quotients by the distance `d`. -/
def find_transpose_slice.slice_op (op : operation) (st en d : Int) : operation :=
  { op with axes := [0], starts := [Int.tdiv st d], ends := [Int.tdiv en d] }

/-- The vector `steps` of `find_transpose_slice::apply`: for each sliced axis the
`std::size_t` quotient of its length by the distance, stored as `int64_t`. -/
def find_transpose_slice.steps (lens : List Nat) (axes sdistance : List Int) : List Int :=
  List.zipWith (fun ax sdis => to_int64 (lens.getD (to_size ax) 0 / to_size sdis)) axes
    sdistance

/-- The loop of `find_transpose_slice::apply` over the slices: each is replaced by the
squeeze of a slice of axis 0 of the new transpose. -/
def find_transpose_slice.rewrite_slices (compute_shape : operation → List shape → Option shape)
    (ins transpose : instruction_ref) (d : Int) :
    module → List instruction_ref → Except error module
  | m, [] => .ok m
  | m, s :: rest =>
    let op := m.get_operator s
    match op.starts, op.ends with
    | st :: _, en :: _ =>
      let op1 := find_transpose_slice.slice_op op st en d
      match m.insert_instruction compute_shape ins op1 [transpose] with
      | .error e => .error e
      | .ok (m1, slice_ins) =>
        match m1.insert_instruction compute_shape ins { name := "squeeze", axes := [0] }
            [slice_ins] with
        | .error e => .error e
        | .ok (m2, squeeze) =>
          match m2.replace_instruction s squeeze with
          | .error e => .error e
          | .ok m3 =>
            find_transpose_slice.rewrite_slices compute_shape ins transpose d m3 rest
    | _, _ => .error .invariant_violation

/-- The permutation of the new transpose in `find_transpose_slice::apply`: every entry of
`perm` that is not below `preaxis` is incremented by one, then `preaxis` is inserted at the
front. -/
def find_transpose_slice.new_perm (perm : List Int) (preaxis : Int) : List Int :=
  preaxis :: perm.map fun i => if i ≥ preaxis then i + 1 else i

/-- The statements of `find_transpose_slice::apply` after its checks: the unsqueeze of the
axis before the transpose, the transpose that brings the new axis to the front, and the
slices of axis 0 with their squeezes. -/
def find_transpose_slice.rewrite (compute_shape : operation → List shape → Option shape)
    (m : module) (ins : instruction_ref) (slices : List instruction_ref) (slice : operation)
    (sdistance : List Int) (axis : Int) : Except error module :=
  let lens := (m.get_shape ins).lens
  -- Compute axis before transpose to use for unsqueeze
  let perm := (m.get_operator ins).dims
  let preaxis := perm.getD (to_size axis) 0
  -- Make unsqueeze
  if !slice.axes.all (fun ax => decide (to_size ax < lens.length)) then
    .error .axis_out_of_range
  else
    let steps := find_transpose_slice.steps lens slice.axes sdistance
    match m.insert_instruction compute_shape ins
        { name := "unsqueeze", axes := [preaxis], steps := steps } (m.inputs ins) with
    | .error e => .error e
    | .ok (m1, unsqueeze) =>
      -- Make transpose
      let perm1 := find_transpose_slice.new_perm perm preaxis
      match m1.insert_instruction compute_shape ins { name := "transpose", dims := perm1 }
          [unsqueeze] with
      | .error e => .error e
      | .ok (m2, transpose) =>
        -- Slice and squeeze
        find_transpose_slice.rewrite_slices compute_shape ins transpose (sdistance.headD 0) m2
          slices

/-- The rewrite `find_transpose_slice::apply`.  Reads the source leaves undefined (an
index outside a vector, a negative iterator offset) give 0 or an empty range here. -/
def find_transpose_slice.apply (compute_shape : operation → List shape → Option shape)
    (m : module) (r : matcher_result) : Except error module :=
  let ins := r.result
  let slices := m.outputs ins
  match slices with
  | [] => .ok m
  | first :: _ =>
    let slice := m.get_operator first
    let sdistance := find_transpose_slice.slice_distance slice
    let lens := (m.get_shape ins).lens
    -- Check all distances and axes are the same
    if slices.any (fun sins =>
        let s := m.get_operator sins
        decide (s.axes ≠ slice.axes) ||
          decide (find_transpose_slice.slice_distance s ≠ sdistance)) then .ok m
    -- Check distances are divisible by lens of corresponding axes
    else if
        find_transpose_slice.mod_by_distance sdistance slice.axes
            (find_transpose_slice.lens_term lens) ≠ 0 ∨
          find_transpose_slice.mod_by_distance sdistance slice.starts
            find_transpose_slice.id_term ≠ 0 ∨
          find_transpose_slice.mod_by_distance sdistance slice.ends
            find_transpose_slice.id_term ≠ 0 then .ok m
    else if sdistance.length ≠ 1 then .ok m
    else
      match slice.axes with
      | [] => .error .invariant_violation
      | axis :: _ =>
        -- Skip if axis would be packed
        if (lens.take axis.toNat).all (fun x => decide (x = 1)) then .ok m
        else find_transpose_slice.rewrite compute_shape m ins slices slice sdistance axis

/-! ## simplify_reshapes::apply -/

/-- The rules of the pass. -/
inductive rule where
  | find_where_op
  | find_resize
  | find_nop_reshapes
  | find_reshaper
  | find_reshape_cont
  | find_transpose
  | find_concat_transpose
  | find_concat_multibroadcasts
  | find_nested_convert
  | find_nested_slice
  | find_nested_concat
  | find_transpose_slice
  | find_slice_transpose
  | find_transpose_contiguous_reshaper_unary
  deriving DecidableEq, Repr

/-- The rules in the order `simplify_reshapes::apply` hands them to `find_matches`. -/
def simplify_reshapes.rules : List rule :=
  [.find_where_op, .find_resize, .find_nop_reshapes, .find_reshaper, .find_reshape_cont,
   .find_transpose, .find_concat_transpose, .find_concat_multibroadcasts,
   .find_nested_convert, .find_nested_slice, .find_nested_concat, .find_transpose_slice,
   .find_slice_transpose, .find_transpose_contiguous_reshaper_unary]

/-- The body of the loop of `simplify_reshapes::apply`: one `find_matches` with the rules,
then one dead-code elimination.  The scan `find_matches` of the matching engine
(matcher.hpp is not among the sources) is a parameter. -/
def simplify_reshapes.round (find_matches : List rule → module → Except error module)
    (m : module) : Except error module :=
  match find_matches simplify_reshapes.rules m with
  | .error e => .error e
  | .ok m1 => .ok (dead_code_elimination m1)

/-- The loop `for(int i = 0; i < depth; i++)` of `simplify_reshapes::apply` from the
counter `i`, with a bound on its steps; it gives the counter it ends with and the
module.  The member `depth` (simplify_reshapes.hpp is not among the sources) is a
parameter. -/
def simplify_reshapes.loop (find_matches : List rule → module → Except error module)
    (depth : Int) : Nat → Int → module → Except error (Int × module)
  | 0, _, _ => .error .out_of_steps
  | fuel + 1, i, m =>
    if i < depth then
      match simplify_reshapes.round find_matches m with
      | .error e => .error e
      | .ok m1 => simplify_reshapes.loop find_matches depth fuel (to_int32 (i + 1)) m1
    else .ok (i, m)

/-- The pass `simplify_reshapes::apply`. -/
def simplify_reshapes.apply (find_matches : List rule → module → Except error module)
    (depth : Int) (fuel : Nat) (m : module) : Except error (Int × module) :=
  simplify_reshapes.loop find_matches depth fuel 0 m

/-- The pass as the specification describes it: `k` rounds, one after the other. -/
def simplify_reshapes.rounds (find_matches : List rule → module → Except error module) :
    Nat → module → Except error module
  | 0, m => .ok m
  | k + 1, m =>
    match simplify_reshapes.round find_matches m with
    | .error e => .error e
    | .ok m1 => simplify_reshapes.rounds find_matches k m1

/-! ## onnx/parse_reshape.cpp -/

/-- Modelled from the spec: `add_instruction(op, args)` (module.cpp and onnx_parser.hpp are
not among the sources): the insertion of the instruction at the end of the module. -/
def module.add_instruction (compute_shape : operation → List shape → Option shape)
    (m : module) (op : operation) (args : List instruction_ref) :
    Except error (module × instruction_ref) :=
  m.insert_instruction compute_shape m.next op args

/-- The vector `dims` that `parse_reshape::parse` fills: from the attribute `shape` of the
node for one argument, from the constant value of the second argument for two.
`attributes` holds the values of the attributes of the node, `at` throwing for a missing
one. -/
def parse_reshape.dims (attributes : List (String × List Int)) (m : module)
    (args : List instruction_ref) : Except error (List Int) :=
  match args with
  | [_] =>
    match attributes.lookup "shape" with
    | some s => .ok s
    | none => .error .invariant_violation
  | [_, shape_arg] =>
    match m.eval shape_arg with
    | none => .error (.exception "Reshape: non-constant shape input is not supported")
    | some s => .ok s
  | _ => .ok []

/-- The parser `parse_reshape::parse`: the module after the call, and the instruction the
call returns or the error it throws. -/
def parse_reshape.parse (compute_shape : operation → List shape → Option shape)
    (attributes : List (String × List Int)) (m : module) (args : List instruction_ref) :
    module × Except error instruction_ref :=
  match parse_reshape.dims attributes m args with
  | .error e => (m, .error e)
  | .ok dims =>
    match args with
    | [] => (m, .error .invariant_violation)
    | arg0 :: _ =>
      match m.add_instruction compute_shape { name := "contiguous" } [arg0] with
      | .error e => (m, .error e)
      | .ok (m1, cont) =>
        match m1.add_instruction compute_shape { name := "reshape", dims := dims } [cont] with
        | .error e => (m1, .error e)
        | .ok (m2, r) => (m2, .ok r)

/-! ## compile_src.cpp -/

/-- A file system path by its parts: the parent directory, the stem of the file name and
its extension, the part of the file name from its last period on (the period of a file
name that starts with one does not start an extension). -/
structure path where
  parent : String
  stem : String
  extension : String
  deriving DecidableEq, Repr

/-- The file name `path::filename()`. -/
def path.filename (p : path) : String :=
  p.stem ++ p.extension

/-- The path as text, `path::string()`, relative to the build directory. -/
def path.string (p : path) : String :=
  if p.parent = "" then p.filename else p.parent ++ "/" ++ p.filename

/-- A source file `src_file`: its path and its bytes. -/
structure src_file where
  path : path
  content : List Nat
  deriving DecidableEq, Repr

/-- The configuration `src_compiler`. -/
structure src_compiler where
  compiler : String
  flags : String
  output : String
  out_ext : String
  launcher : String
  deriving DecidableEq, Repr

/-- The temporary build directory `tmp_dir`: its files by their path relative to it, with
their bytes. -/
abbrev tmp_dir := List (String × List Nat)

/-- Modelled from the spec: `write_buffer` (file_buffer.hpp is not among the sources): the
file of that name holds the bytes afterwards. -/
def write_buffer (td : tmp_dir) (name : String) (content : List Nat) : tmp_dir :=
  (name, content) :: td.filter fun f => f.1 ≠ name

/-- Modelled from the spec: `fs::exists` on a path of the build directory. -/
def tmp_dir.file_exists (td : tmp_dir) (name : String) : Bool :=
  (td.lookup name).isSome

/-- Modelled from the spec: `read_buffer` (file_buffer.hpp is not among the sources): the
bytes of the file. -/
def read_buffer (td : tmp_dir) (name : String) : List Nat :=
  (td.lookup name).getD []

/-- The loop of `src_compiler::compile` over the sources: each is written to the build
directory, and a `.cpp` source is added to the parameters and names the output while none
is set. -/
def src_compiler.add_sources (c : src_compiler) :
    List src_file → tmp_dir × String × String → tmp_dir × String × String
  | [], state => state
  | src :: rest, (td, params, out) =>
    let td1 := write_buffer td src.path.string src.content
    if src.path.extension = ".cpp" then
      let params1 := params ++ " " ++ src.path.filename
      let out1 := if out = "" then src.path.stem ++ c.out_ext else out
      src_compiler.add_sources c rest (td1, params1, out1)
    else src_compiler.add_sources c rest (td1, params, out)

/-- The function `src_compiler::compile`.  The command `tmp_dir::execute` runs (tmp_dir.hpp
is not among the sources) is a parameter: it gives the build directory after the command,
or the error it throws; `MIGRAPHX_THROW(message)` is the error `exception message`. -/
def src_compiler.compile (execute : tmp_dir → String → String → Except error tmp_dir)
    (c : src_compiler) (srcs : List src_file) : Except error (List Nat) :=
  let state := c.add_sources srcs ([], c.flags ++ " -I.", c.output)
  let td := state.1
  let out := state.2.2
  let params := state.2.1 ++ " -o " ++ out
  let executed :=
    if c.launcher ≠ "" then execute td c.launcher (c.compiler ++ " " ++ params)
    else execute td c.compiler params
  match executed with
  | .error e => .error e
  | .ok td1 =>
    if !td1.file_exists out then .error (.exception ("Output file missing: " ++ out))
    else .ok (read_buffer td1 out)

/-- The output name as the specification describes it: the configured output when it is
not empty, otherwise the stem of the first source with the extension `.cpp` followed by
`out_ext`. -/
def src_compiler.output_name (c : src_compiler) (srcs : List src_file) : String :=
  if c.output ≠ "" then c.output
  else
    match srcs.find? fun src => src.path.extension = ".cpp" with
    | some src => src.path.stem ++ c.out_ext
    | none => ""

/-! ## targets/gpu/include/migraphx/gpu/gemm.hpp -/

/-- The operator `rocblas_gemm<Op>`: the name and the shape inference of the wrapped
operator `op`, and `trans_batch`. -/
structure rocblas_gemm where
  op_name : String
  op_compute_shape : List shape → Except error shape
  trans_batch : Nat

/-- The functions `rocblas_gemm::compute_shape` calls that are declared and not defined in
the sources: `blas_shape`, which throws for a shape the library does not take,
`transpose_batch`, the layout tests `transposed` and `broadcasted` behind
`check_shapes::not_transposed` and `not_broadcasted`, and the printing of lengths and
types in the messages. -/
structure gemm_env where
  blas_shape : shape → Except error Unit
  transpose_batch : shape → Nat → shape
  transposed : shape → Bool
  broadcasted : shape → Bool
  to_string_range : List Nat → String
  to_string : Nat → String

/-- The name `rocblas_gemm::name()`. -/
def rocblas_gemm.name (g : rocblas_gemm) : String :=
  if (g.op_name.splitOn "quant_").length ≠ 1 then "gpu::quant_gemm" else "gpu::gemm"

/-- The statements of `rocblas_gemm::compute_shape` for a fused operand C, after the check
of its layout. -/
def rocblas_gemm.fused_shape (env : gemm_env) (g : rocblas_gemm) (a b cmat_shape : shape) :
    Except error shape :=
  match env.blas_shape cmat_shape with
  | .error e => .error e
  | .ok _ =>
    match g.op_compute_shape [a, b] with
    | .error e => .error e
    | .ok op_out_shape =>
      if cmat_shape.lens ≠ op_out_shape.lens then
        .error (.exception (g.name ++ " : dimension mismatch, operand C: \x7b" ++
          env.to_string_range cmat_shape.lens ++ "\x7d, cannot add to operand A * B: \x7b" ++
          env.to_string_range op_out_shape.lens ++ "\x7d"))
      else if cmat_shape.type ≠ op_out_shape.type then
        .error (.exception (g.name ++ " : operand C type mismatch, operand C is of type: " ++
          env.to_string cmat_shape.type ++ ", it must be: " ++
          env.to_string op_out_shape.type))
      else .ok (env.transpose_batch op_out_shape g.trans_batch)

/-- The function `rocblas_gemm::compute_shape`; a failed `check_shapes` is the error
`shape_mismatch`. -/
def rocblas_gemm.compute_shape (env : gemm_env) (g : rocblas_gemm) (inputs : List shape) :
    Except error shape :=
  let in_shapes := inputs.dropLast
  if in_shapes.length ≠ 2 ∧ in_shapes.length ≠ 3 then .error .shape_mismatch
  else
    match in_shapes with
    | a :: b :: rest =>
      match env.blas_shape a with
      | .error e => .error e
      | .ok _ =>
        match env.blas_shape b with
        | .error e => .error e
        | .ok _ =>
          -- if gemm and add are fused
          match rest with
          | [cmat_shape] =>
            if env.transposed cmat_shape ∨ env.broadcasted cmat_shape then
              .error .shape_mismatch
            else g.fused_shape env a b cmat_shape
          | _ =>
            match g.op_compute_shape in_shapes with
            | .error e => .error e
            | .ok s => .ok (env.transpose_batch s g.trans_batch)
    | _ => .error .shape_mismatch

/-! ## The operator fmod -/

/-- Modelled from the spec: the value of `fmod` on integers (the operator is not among the
sources, only its test is): the remainder of the C function of that name, which has the
sign of the dividend. -/
def fmod (a b : Int) : Int :=
  Int.tmod a b

/-- The elementwise `fmod` of two tensors of the same lengths. -/
def eval_fmod (xs ys : List Int) : List Int :=
  List.zipWith fmod xs ys

/-- The integer part of a rational number, rounding toward zero. -/
def trunc (q : Rat) : Int :=
  if 0 ≤ q then ⌊q⌋ else ⌈q⌉

/-! ## The graph shapes the specification describes -/

/-- The flattening the specification describes: `nested_concat_leaves m axis ops leaves`
holds when `leaves` is the left-to-right sequence obtained from `ops` by replacing, to any
depth, every operand that is a concat on `axis` with exactly one consumer by its own
operands, and keeping every other operand in place. -/
inductive nested_concat_leaves (m : module) (axis : Nat) :
    List instruction_ref → List instruction_ref → Prop where
  | nil : nested_concat_leaves m axis [] []
  | flatten (i : instruction_ref) (rest inner tail : List instruction_ref) :
      m.name i = "concat" → find_nested_concat.get_axis m i = axis →
      (m.outputs i).length = 1 →
      nested_concat_leaves m axis (m.inputs i) inner →
      nested_concat_leaves m axis rest tail →
      nested_concat_leaves m axis (i :: rest) (inner ++ tail)
  | keep (i : instruction_ref) (rest tail : List instruction_ref) :
      ¬ (m.name i = "concat" ∧ find_nested_concat.get_axis m i = axis ∧
        (m.outputs i).length = 1) →
      nested_concat_leaves m axis rest tail →
      nested_concat_leaves m axis (i :: rest) (i :: tail)

/-- The instruction `b` is the input of `a`, or is reached from it by walking past
contiguous instructions. -/
inductive skips_contiguous (m : module) : instruction_ref → instruction_ref → Prop where
  | input (a b : instruction_ref) : m.inputs a = [b] → skips_contiguous m a b
  | skip (a c b : instruction_ref) :
      m.inputs a = [c] → m.name c = "contiguous" → skips_contiguous m c b →
      skips_contiguous m a b

/-- A chain of transposes from `t` back to `last`, each the input of the one before or
behind contiguous instructions, with their permutations listed from `t` on. -/
inductive transpose_chain (m : module) :
    instruction_ref → List (List Int) → instruction_ref → Prop where
  | last (t : instruction_ref) :
      m.name t = "transpose" → transpose_chain m t [get_transpose_dims m t] t
  | link (t t1 last : instruction_ref) (ps : List (List Int)) :
      m.name t = "transpose" → skips_contiguous m t t1 → m.name t1 = "transpose" → t ≠ t1 →
      transpose_chain m t1 ps last →
      transpose_chain m t (get_transpose_dims m t :: ps) last

/-- The input of `a` is a contiguous, and walking past contiguous instructions from there
ends at the contiguous `c`, whose input is neither a contiguous nor a transpose. -/
inductive ends_in_contiguous (m : module) : instruction_ref → instruction_ref → Prop where
  | stop (a c y : instruction_ref) :
      m.inputs a = [c] → m.name c = "contiguous" → m.inputs c = [y] →
      m.name y ≠ "contiguous" → m.name y ≠ "transpose" → ends_in_contiguous m a c
  | skip (a c c1 : instruction_ref) :
      m.inputs a = [c] → m.name c = "contiguous" → ends_in_contiguous m c c1 →
      ends_in_contiguous m a c1

/-- The walk past instructions the specification describes: `skip_walk names m ins x`
holds when `x` is reached from `ins` by going back through single-input instructions whose
operator name is in `names`, and is the first instruction that is not one of them. -/
inductive skip_walk (names : List String) (m : module) :
    instruction_ref → instruction_ref → Prop where
  | stop (x : instruction_ref) :
      ¬ (m.name x ∈ names ∧ ∃ a, m.inputs x = [a]) → skip_walk names m x x
  | step (ins a x : instruction_ref) :
      m.name ins ∈ names → m.inputs ins = [a] → skip_walk names m a x →
      skip_walk names m ins x

/-- Modelled from the spec: what a `slice` selects along one axis, the elements `[s, e)`
of the sequence (the operator headers are not among the sources). -/
def slice_range {α : Type} (xs : List α) (s e : Nat) : List α :=
  (xs.drop s).take (e - s)

/-- The nearest-neighbour index vector for a resize from `in_lens` to `out_lens`: entry `i`
is the flat index in the input of the multi-index of output element `i` divided by the
scales. -/
def nearest_indices (in_lens out_lens : List Nat) : List Int :=
  (List.range out_lens.prod).map fun i =>
    Int.ofNat ((shape.from_lens 0 in_lens).index
      (List.zipWith (· / ·) ((shape.from_lens 0 out_lens).multi i)
        (find_resize.scales in_lens out_lens)))

/-! ## Tensors and the values of the operators -/

/-- A tensor value: a shape and the buffer its strides index. -/
structure argument (α : Type) where
  get_shape : shape
  data : List α
  deriving DecidableEq, Repr

/-- The element of a tensor at row-major position `i`. -/
def argument.element {α : Type} [Inhabited α] (x : argument α) (i : Nat) : α :=
  x.data.getD (x.get_shape.index (x.get_shape.multi i)) default

/-- The elements of a tensor in row-major order. -/
def argument.elements {α : Type} [Inhabited α] (x : argument α) : List α :=
  (List.range x.get_shape.elements).map x.element

/-- Modelled from the spec: the value of `reshape` on a standard input (the operator
headers are not among the sources): the buffer is kept and read with the standard shape of
the new lengths. -/
def eval_reshape {α : Type} (dims : List Nat) (x : argument α) : argument α :=
  { get_shape := shape.from_lens x.get_shape.type dims, data := x.data }

/-- The strides of a `multibroadcast` to `out_lens`: the stride of the input where the
lengths agree and zero on a broadcast axis, added leading axes included. -/
def broadcast_strides (out_lens : List Nat) (s : shape) : List Nat :=
  let offset := out_lens.length - s.lens.length
  List.replicate offset 0 ++
    List.zipWith (fun (o : Nat) (ls : Nat × Nat) => if o = ls.1 then ls.2 else 0)
      (out_lens.drop offset) (s.lens.zip s.strides)

/-- Modelled from the spec: the value of `multibroadcast` (the operator headers are not
among the sources): the buffer is kept, and a broadcast axis, logically repeated and not
materialized, gets stride zero. -/
def eval_multibroadcast {α : Type} (out_lens : List Nat) (x : argument α) : argument α :=
  { get_shape := { type := x.get_shape.type, lens := out_lens,
                   strides := broadcast_strides out_lens x.get_shape },
    data := x.data }

/-- Modelled from the spec: the value of `contiguous` (the operator headers are not among
the sources): the elements laid out in row-major order, a standard shape. -/
def eval_contiguous {α : Type} [Inhabited α] (x : argument α) : argument α :=
  { get_shape := shape.from_lens x.get_shape.type x.get_shape.lens, data := x.elements }

/-- Modelled from the spec: the value of `gather` along the only axis of rank-1 data (the
operator headers are not among the sources): the output has the lengths of the indices
and element `i` is the data element at index `ind[i]`, a negative index counting from the
end. -/
def eval_gather {α : Type} [Inhabited α] (data : argument α) (ind_lens : List Nat)
    (ind : List Int) : argument α :=
  { get_shape := shape.from_lens data.get_shape.type ind_lens,
    data := (List.range ind_lens.prod).map fun i =>
      let k := ind.getD i 0
      data.element (if k < 0 then k + Int.ofNat data.get_shape.elements else k).toNat }

/-- Modelled from the spec: the value of `concat` along axis 0 (the operator headers are
not among the sources): the elements of the operands one after the other. -/
def eval_concat0 {α : Type} [Inhabited α] (xs : List (argument α)) : argument α :=
  match xs with
  | [] => { get_shape := shape.from_lens 0 [], data := [] }
  | x :: rest =>
    { get_shape := shape.from_lens x.get_shape.type
        (((x :: rest).map fun a => a.get_shape.lens.headD 0).sum :: x.get_shape.lens.tail),
      data := ((x :: rest).map argument.elements).flatten }

/-- The operand of a concat that holds position `k` of the concat axis, and its element at
the multi-index `idx` with `k` counted from the start of that operand. -/
def concat_select {α : Type} [Inhabited α] (axis : Nat) (idx : List Nat) :
    List (argument α) → Nat → α
  | [], _ => default
  | x :: rest, k =>
    if k < x.get_shape.lens.getD axis 0 then
      x.data.getD (x.get_shape.index (idx.set axis k)) default
    else concat_select axis idx rest (k - x.get_shape.lens.getD axis 0)

/-- The lengths of a concat along `axis` of operands with the given lengths: those of the
first operand with the lengths of the axis summed. -/
def concat_lens (axis : Nat) : List (List Nat) → List Nat
  | [] => []
  | l :: rest => l.set axis ((l :: rest).foldl (fun n r => n + r.getD axis 0) 0)

/-- Modelled from the spec: the value of `concat` along any axis (the operator headers are
not among the sources): a standard tensor whose element at a multi-index is the element of
the operand that holds the index of the concat axis. -/
def eval_concat {α : Type} [Inhabited α] (axis : Nat) (xs : List (argument α)) :
    argument α :=
  let lens := concat_lens axis (xs.map fun x => x.get_shape.lens)
  { get_shape := shape.from_lens ((xs.map fun x => x.get_shape.type).headD 0) lens,
    data := (List.range lens.prod).map fun i =>
      concat_select axis (multi_of lens i) xs ((multi_of lens i).getD axis 0) }

/-- Modelled from the spec: the value of a conversion to the element type `type`, with the
integer types tagged by their bit width and 0 for a type that holds every value:
reduction modulo `2^type` into the signed range. -/
def convert_value (type : Nat) (v : Int) : Int :=
  if type = 0 then v else (v + 2 ^ (type - 1)) % 2 ^ type - 2 ^ (type - 1)

/-- Modelled from the spec: the value of `convert` (the operator headers are not among the
sources): every element converted to the target type. -/
def eval_convert (type : Nat) (x : argument Int) : argument Int :=
  { get_shape := { x.get_shape with type := type }, data := x.data.map (convert_value type) }

/-- Modelled from the spec: the value of an instruction from the values of its inputs, for
the operators the resize and select patterns involve (the operator headers are not among
the sources). -/
def eval_operator (i : instruction) (args : List (argument Int)) : Option (argument Int) :=
  match i.op.name, args with
  | "reshape", [x] => some (eval_reshape (i.op.dims.map Int.toNat) x)
  | "multibroadcast", [x] => some (eval_multibroadcast (i.op.out_lens.map Int.toNat) x)
  | "contiguous", [x] => some (eval_contiguous x)
  | "gather", [data, ind] => some (eval_gather data ind.get_shape.lens ind.elements)
  | "concat", xs =>
    if i.op.axis = 0 then some (eval_concat0 xs)
    else if 0 < i.op.axis then some (eval_concat i.op.axis.toNat xs)
    else none
  | "convert", [x] => some (eval_convert i.get_shape.type x)
  | _, _ => none

/-- The value of an instruction of the graph for the given values of the parameters. -/
def module.run (m : module) (params : instruction_ref → argument Int) :
    Nat → instruction_ref → Option (argument Int)
  | 0, _ => none
  | fuel + 1, r =>
    match m.get r with
    | none => none
    | some i =>
      if i.op.name = "@param" then some (params r)
      else
        match i.lit with
        | some d => some { get_shape := i.get_shape, data := d }
        | none =>
          match i.inputs.mapM (fun a => module.run m params fuel a) with
          | none => none
          | some args => eval_operator i args

/-! ## Reference shape inference -/

/-- The output shape of a concat along `axis`: the operands agree in type, in rank and in
every length but the one of `axis`, which is summed. -/
def concat_shape (axis : Int) (s : shape) (rest : List shape) : Option shape :=
  let a := axis.toNat
  if 0 ≤ axis ∧ a < s.lens.length ∧
      rest.all (fun r => decide (r.type = s.type ∧ r.lens.length = s.lens.length ∧
        r.lens.set a 0 = s.lens.set a 0)) then
    some (shape.from_lens s.type (concat_lens a ((s :: rest).map fun r => r.lens)))
  else none

/-- Modelled from the spec: the shape inference of the operators the rules insert (the
operator headers are not among the sources).  A transpose reorders lengths and strides by
its permutation, contiguous gives the standard shape of the same lengths, reshape gives
the standard shape of its target lengths when the element count is kept, a slice
shortens each sliced axis to `end - start` and keeps the strides, a concat sums the
lengths of its axis, a multibroadcast takes the target lengths with stride zero on the
broadcast axes, a gather on rank-1 data takes the lengths of the indices, an add of two
operands of equal type and lengths gives the standard shape of those lengths, a
leaky_relu keeps the shape of its operand. -/
def op_compute_shape (op : operation) (inputs : List shape) : Option shape :=
  match inputs with
  | [] => none
  | [s] =>
    if op.name = "transpose" then
      if is_permutation s.lens.length op.dims then
        some { type := s.type, lens := reorder_dims s.lens op.dims,
               strides := reorder_dims s.strides op.dims }
      else none
    else if op.name = "contiguous" then some (shape.from_lens s.type s.lens)
    else if op.name = "leaky_relu" then some s
    else if op.name = "slice" then
      if op.starts.length = op.axes.length ∧ op.ends.length = op.axes.length ∧
          (List.range op.axes.length).all (fun i =>
            decide (0 ≤ op.axes.getD i 0 ∧ (op.axes.getD i 0).toNat < s.lens.length ∧
              0 ≤ op.starts.getD i 0 ∧ op.starts.getD i 0 ≤ op.ends.getD i 0 ∧
              (op.ends.getD i 0).toNat ≤ s.lens.getD (op.axes.getD i 0).toNat 0)) then
        some { type := s.type,
               lens := (List.range op.axes.length).foldl
                 (fun lens i => lens.set (op.axes.getD i 0).toNat
                   ((op.ends.getD i 0).toNat - (op.starts.getD i 0).toNat)) s.lens,
               strides := s.strides }
      else none
    else if op.name = "reshape" then
      if (op.dims.map Int.toNat).prod = s.elements ∧ op.dims.all (fun d => decide (0 < d)) then
        some (shape.from_lens s.type (op.dims.map Int.toNat))
      else none
    else if op.name = "concat" then concat_shape op.axis s []
    else if op.name = "multibroadcast" then
      if s.lens.length ≤ op.out_lens.length ∧ op.out_lens.all (fun d => decide (0 < d)) ∧
          (List.zipWith (fun (o : Int) (l : Nat) => decide (o.toNat = l ∨ l = 1))
            (op.out_lens.drop (op.out_lens.length - s.lens.length)) s.lens).all (fun b => b) then
        some { type := s.type, lens := op.out_lens.map Int.toNat,
               strides := broadcast_strides (op.out_lens.map Int.toNat) s }
      else none
    else none
  | [data, ind] =>
    if op.name = "gather" then
      if data.lens.length = 1 then some (shape.from_lens data.type ind.lens) else none
    else if op.name = "concat" then concat_shape op.axis data [ind]
    else if op.name = "add" then
      if data.type = ind.type ∧ data.lens = ind.lens then
        some (shape.from_lens data.type data.lens)
      else none
    else none
  | s :: rest => if op.name = "concat" then concat_shape op.axis s rest else none

/-! ## Example graphs -/

/-- A parameter instruction of the given lengths. -/
def param_ins (lens : List Nat) (outputs : List instruction_ref) : instruction :=
  { op := { name := "@param" }, get_shape := shape.from_lens 0 lens, inputs := [],
    outputs := outputs }

/-- The graph `x -> transpose[1,0,2] -> transpose[0,2,1] -> neg`, returning the last. -/
def transpose_chain_module : module :=
  { instructions :=
      [(0, param_ins [2, 3, 4] [1]),
       (1, { op := { name := "transpose", dims := [1, 0, 2] },
             get_shape := { type := 0, lens := [3, 2, 4], strides := [4, 12, 1] },
             inputs := [0], outputs := [2] }),
       (2, { op := { name := "transpose", dims := [0, 2, 1] },
             get_shape := { type := 0, lens := [3, 4, 2], strides := [4, 1, 12] },
             inputs := [1], outputs := [3] }),
       (3, { op := { name := "neg" },
             get_shape := { type := 0, lens := [3, 4, 2], strides := [4, 1, 12] },
             inputs := [2], outputs := [] })],
    returns := [3], next := 4 }

/-- The graph `x -> transpose[1,0,2] -> transpose[1,0,2] -> neg`, returning the last: the
two transposes cancel. -/
def cancelling_transpose_module : module :=
  { instructions :=
      [(0, param_ins [2, 3, 4] [1]),
       (1, { op := { name := "transpose", dims := [1, 0, 2] },
             get_shape := { type := 0, lens := [3, 2, 4], strides := [4, 12, 1] },
             inputs := [0], outputs := [2] }),
       (2, { op := { name := "transpose", dims := [1, 0, 2] },
             get_shape := { type := 0, lens := [2, 3, 4], strides := [12, 4, 1] },
             inputs := [1], outputs := [3] }),
       (3, { op := { name := "neg" },
             get_shape := { type := 0, lens := [2, 3, 4], strides := [12, 4, 1] },
             inputs := [2], outputs := [] })],
    returns := [3], next := 4 }

/-- The graph `x -> contiguous -> transpose[1,0,2] -> transpose[0,2,1] -> neg`, returning
the last: the innermost transpose is fed by a contiguous whose input is no transpose. -/
def contiguous_transpose_module : module :=
  { instructions :=
      [(0, param_ins [2, 3, 4] [1]),
       (1, { op := { name := "contiguous" },
             get_shape := shape.from_lens 0 [2, 3, 4], inputs := [0], outputs := [2] }),
       (2, { op := { name := "transpose", dims := [1, 0, 2] },
             get_shape := { type := 0, lens := [3, 2, 4], strides := [4, 12, 1] },
             inputs := [1], outputs := [3] }),
       (3, { op := { name := "transpose", dims := [0, 2, 1] },
             get_shape := { type := 0, lens := [3, 4, 2], strides := [4, 1, 12] },
             inputs := [2], outputs := [4] }),
       (4, { op := { name := "neg" },
             get_shape := { type := 0, lens := [3, 4, 2], strides := [4, 1, 12] },
             inputs := [3], outputs := [] })],
    returns := [4], next := 5 }

/-- The graph `x -> reshape[2,3] -> neg` where the reshape keeps the lengths `[2,3]` of
`x`, returning the last. -/
def nop_reshape_module : module :=
  { instructions :=
      [(0, param_ins [2, 3] [1]),
       (1, { op := { name := "reshape", dims := [2, 3] },
             get_shape := shape.from_lens 0 [2, 3], inputs := [0], outputs := [2] }),
       (2, { op := { name := "neg" },
             get_shape := shape.from_lens 0 [2, 3], inputs := [1], outputs := [] })],
    returns := [2], next := 3 }

/-- The graph `x -> slice(axis 0, 1, 10) -> slice(axis 0, 2, 8) -> neg` on a length-12
input, returning the last. -/
def nested_slice_module : module :=
  { instructions :=
      [(0, param_ins [12] [1]),
       (1, { op := { name := "slice", axes := [0], starts := [1], ends := [10] },
             get_shape := { type := 0, lens := [9], strides := [1] },
             inputs := [0], outputs := [2] }),
       (2, { op := { name := "slice", axes := [0], starts := [2], ends := [8] },
             get_shape := { type := 0, lens := [6], strides := [1] },
             inputs := [1], outputs := [3] }),
       (3, { op := { name := "neg" },
             get_shape := { type := 0, lens := [6], strides := [1] },
             inputs := [2], outputs := [] })],
    returns := [3], next := 4 }

/-- The graph `concat(axis 1)(a, concat(axis 1)(b, c), d) -> neg`, returning the last;
the inner concat has one consumer. -/
def nested_concat_module : module :=
  { instructions :=
      [(0, param_ins [2, 1] [5]),
       (1, param_ins [2, 2] [4]),
       (2, param_ins [2, 3] [4]),
       (3, param_ins [2, 4] [5]),
       (4, { op := { name := "concat", axis := 1 },
             get_shape := shape.from_lens 0 [2, 5], inputs := [1, 2], outputs := [5] }),
       (5, { op := { name := "concat", axis := 1 },
             get_shape := shape.from_lens 0 [2, 10], inputs := [0, 4, 3], outputs := [6] }),
       (6, { op := { name := "neg" },
             get_shape := shape.from_lens 0 [2, 10], inputs := [5], outputs := [] })],
    returns := [6], next := 7 }

/-- The graph `gather(reshape[2](x), [0,0,0,0])` on `x` of length 2, returning the gather. -/
def resize_module : module :=
  { instructions :=
      [(0, param_ins [2] [1]),
       (1, { op := { name := "reshape", dims := [2] },
             get_shape := shape.from_lens 0 [2], inputs := [0], outputs := [3] }),
       (2, { op := { name := "@literal" }, get_shape := shape.from_lens 0 [4], inputs := [],
             outputs := [3], lit := some [0, 0, 0, 0] }),
       (3, { op := { name := "gather", axis := 0 },
             get_shape := shape.from_lens 0 [4], inputs := [1, 2], outputs := [] })],
    returns := [3], next := 4 }

/-- The graph `gather(reshape[6](x), ind)` on `x` of lengths `[2,3]` with the
nearest-neighbour indices of a resize to `[4,3]`, returning the gather. -/
def nearest_resize_module : module :=
  { instructions :=
      [(0, param_ins [2, 3] [1]),
       (1, { op := { name := "reshape", dims := [6] },
             get_shape := shape.from_lens 0 [6], inputs := [0], outputs := [3] }),
       (2, { op := { name := "@literal" }, get_shape := shape.from_lens 0 [4, 3], inputs := [],
             outputs := [3], lit := some (nearest_indices [2, 3] [4, 3]) }),
       (3, { op := { name := "gather", axis := 0 },
             get_shape := shape.from_lens 0 [4, 3], inputs := [1, 2], outputs := [] })],
    returns := [3], next := 4 }

/-- The graph `gather(reshape[4](concat(a, b)), [0,0])` on `a` and `b` of length 2,
returning the gather. -/
def where_module : module :=
  { instructions :=
      [(0, param_ins [2] [2]),
       (1, param_ins [2] [2]),
       (2, { op := { name := "concat", axis := 0 },
             get_shape := shape.from_lens 0 [4], inputs := [0, 1], outputs := [3] }),
       (3, { op := { name := "reshape", dims := [4] },
             get_shape := shape.from_lens 0 [4], inputs := [2], outputs := [5] }),
       (4, { op := { name := "@literal" }, get_shape := shape.from_lens 0 [2], inputs := [],
             outputs := [5], lit := some [0, 0] }),
       (5, { op := { name := "gather", axis := 0 },
             get_shape := shape.from_lens 0 [2], inputs := [3, 4], outputs := [] })],
    returns := [5], next := 6 }

/-- Values for the parameters of the example graphs: `[1, 2]` for instruction 0 and
`[3, 4]` for every other. -/
def example_params (r : instruction_ref) : argument Int :=
  if r = 0 then { get_shape := shape.from_lens 0 [2], data := [1, 2] }
  else { get_shape := shape.from_lens 0 [2], data := [3, 4] }

/-- The value `[[1,2,3],[4,5,6]]` for every parameter. -/
def resize_params (_ : instruction_ref) : argument Int :=
  { get_shape := shape.from_lens 0 [2, 3], data := [1, 2, 3, 4, 5, 6] }

/-- Values for the instructions of `nested_concat_module`, each concat the append of its
operands. -/
def nested_concat_values (r : instruction_ref) : List Int :=
  if r = 0 then [1]
  else if r = 1 then [2, 3]
  else if r = 2 then [4]
  else if r = 3 then [5]
  else if r = 4 then [2, 3, 4]
  else if r = 5 then [1, 2, 3, 4, 5]
  else []

/-- The graph `convert(convert(x))` from a 32-bit `x` through an 8-bit type back to 32
bits, returning the outer convert. -/
def nested_convert_module : module :=
  { instructions :=
      [(0, { op := { name := "@param" }, get_shape := shape.from_lens 32 [1], inputs := [],
             outputs := [1] }),
       (1, { op := { name := "convert" }, get_shape := shape.from_lens 8 [1], inputs := [0],
             outputs := [2] }),
       (2, { op := { name := "convert" }, get_shape := shape.from_lens 32 [1], inputs := [1],
             outputs := [] })],
    returns := [2], next := 3 }

/-- The 32-bit value `[300]` for every parameter. -/
def convert_params (_ : instruction_ref) : argument Int :=
  { get_shape := shape.from_lens 32 [1], data := [300] }

/-- The graph `concat(axis 2)(multibroadcast[2,2,1](a), multibroadcast[2,2,1](b))` on `a`
and `b` of lengths `[1,1]`, returning the concat: the broadcast adds one leading axis and
broadcasts the first axis of its input in place. -/
def concat_broadcast_module : module :=
  { instructions :=
      [(0, param_ins [1, 1] [2]),
       (1, param_ins [1, 1] [3]),
       (2, { op := { name := "multibroadcast", out_lens := [2, 2, 1] },
             get_shape := { type := 0, lens := [2, 2, 1], strides := [0, 0, 1] },
             inputs := [0], outputs := [4] }),
       (3, { op := { name := "multibroadcast", out_lens := [2, 2, 1] },
             get_shape := { type := 0, lens := [2, 2, 1], strides := [0, 0, 1] },
             inputs := [1], outputs := [4] }),
       (4, { op := { name := "concat", axis := 2 },
             get_shape := shape.from_lens 0 [2, 2, 2], inputs := [2, 3], outputs := [] })],
    returns := [4], next := 5 }

/-- The value `[1]` for instruction 0 and `[2]` for every other parameter, of lengths
`[1,1]`. -/
def broadcast_params (r : instruction_ref) : argument Int :=
  if r = 0 then { get_shape := shape.from_lens 0 [1, 1], data := [1] }
  else { get_shape := shape.from_lens 0 [1, 1], data := [2] }

/-- The graph `concat(axis 1)(multibroadcast[2,3](a), multibroadcast[2,3](b))` with `a` of
lengths `[3]` and `b` of lengths `[1,3]`, returning the concat. -/
def concat_mismatch_module : module :=
  { instructions :=
      [(0, param_ins [3] [2]),
       (1, param_ins [1, 3] [3]),
       (2, { op := { name := "multibroadcast", out_lens := [2, 3] },
             get_shape := { type := 0, lens := [2, 3], strides := [0, 1] },
             inputs := [0], outputs := [4] }),
       (3, { op := { name := "multibroadcast", out_lens := [2, 3] },
             get_shape := { type := 0, lens := [2, 3], strides := [0, 1] },
             inputs := [1], outputs := [4] }),
       (4, { op := { name := "concat", axis := 1 },
             get_shape := shape.from_lens 0 [2, 6], inputs := [2, 3], outputs := [] })],
    returns := [4], next := 5 }

/-- The graph `concat(axis 0)(multibroadcast[2,3](a), multibroadcast[2,3](b))` on `a` and
`b` of lengths `[1,3]`, returning the concat: the concat axis is a broadcast axis. -/
def concat_broadcast_axis_module : module :=
  { instructions :=
      [(0, param_ins [1, 3] [2]),
       (1, param_ins [1, 3] [3]),
       (2, { op := { name := "multibroadcast", out_lens := [2, 3] },
             get_shape := { type := 0, lens := [2, 3], strides := [0, 1] },
             inputs := [0], outputs := [4] }),
       (3, { op := { name := "multibroadcast", out_lens := [2, 3] },
             get_shape := { type := 0, lens := [2, 3], strides := [0, 1] },
             inputs := [1], outputs := [4] }),
       (4, { op := { name := "concat", axis := 0 },
             get_shape := shape.from_lens 0 [4, 3], inputs := [2, 3], outputs := [] })],
    returns := [4], next := 5 }

/-- The graph `concat(axis 2)(transpose[0,2,1](a), transpose[0,2,1](b))` on `a` and `b` of
lengths `[2,3,4]`, returning the concat. -/
def concat_transpose_module : module :=
  { instructions :=
      [(0, param_ins [2, 3, 4] [2]),
       (1, param_ins [2, 3, 4] [3]),
       (2, { op := { name := "transpose", dims := [0, 2, 1] },
             get_shape := { type := 0, lens := [2, 4, 3], strides := [12, 1, 4] },
             inputs := [0], outputs := [4] }),
       (3, { op := { name := "transpose", dims := [0, 2, 1] },
             get_shape := { type := 0, lens := [2, 4, 3], strides := [12, 1, 4] },
             inputs := [1], outputs := [4] }),
       (4, { op := { name := "concat", axis := -1 },
             get_shape := shape.from_lens 0 [2, 4, 6], inputs := [2, 3], outputs := [] })],
    returns := [4], next := 5 }

/-- The graph `concat(axis 0)(transpose[0,2,1](a), transpose[1,0,2](b))` with `a` of lengths
`[2,3,4]` and `b` of lengths `[4,2,3]`, returning the concat: the operands have different
permutations. -/
def concat_mixed_transpose_module : module :=
  { instructions :=
      [(0, param_ins [2, 3, 4] [2]),
       (1, param_ins [4, 2, 3] [3]),
       (2, { op := { name := "transpose", dims := [0, 2, 1] },
             get_shape := { type := 0, lens := [2, 4, 3], strides := [12, 1, 4] },
             inputs := [0], outputs := [4] }),
       (3, { op := { name := "transpose", dims := [1, 0, 2] },
             get_shape := { type := 0, lens := [2, 4, 3], strides := [3, 6, 1] },
             inputs := [1], outputs := [4] }),
       (4, { op := { name := "concat", axis := 0 },
             get_shape := shape.from_lens 0 [4, 4, 3], inputs := [2, 3], outputs := [] })],
    returns := [4], next := 5 }

/-- The graph `add(reshape[6](contiguous(x)), y)` on `x` of lengths `[2,3]` and `y` of
lengths `[6]`, returning the add. -/
def reshape_cont_module : module :=
  { instructions :=
      [(0, param_ins [2, 3] [1]),
       (1, { op := { name := "contiguous" },
             get_shape := shape.from_lens 0 [2, 3], inputs := [0], outputs := [2] }),
       (2, { op := { name := "reshape", dims := [6] },
             get_shape := shape.from_lens 0 [6], inputs := [1], outputs := [4] }),
       (3, param_ins [6] [4]),
       (4, { op := { name := "add" },
             get_shape := shape.from_lens 0 [6], inputs := [2, 3], outputs := [] })],
    returns := [4], next := 5 }

/-- The graph `add(reshape[3,2](contiguous(x)), transpose[1,0](z))` on `x` and `z` of
lengths `[2,3]`, returning the add: the second operand of the add is not standard. -/
def reshape_cont_layout_module : module :=
  { instructions :=
      [(0, param_ins [2, 3] [1]),
       (1, { op := { name := "contiguous" },
             get_shape := shape.from_lens 0 [2, 3], inputs := [0], outputs := [2] }),
       (2, { op := { name := "reshape", dims := [3, 2] },
             get_shape := shape.from_lens 0 [3, 2], inputs := [1], outputs := [5] }),
       (3, param_ins [2, 3] [4]),
       (4, { op := { name := "transpose", dims := [1, 0] },
             get_shape := { type := 0, lens := [3, 2], strides := [1, 3] },
             inputs := [3], outputs := [5] }),
       (5, { op := { name := "add" },
             get_shape := shape.from_lens 0 [3, 2], inputs := [2, 4], outputs := [] })],
    returns := [5], next := 6 }

/-- The match of `find_reshape_cont` on the example graphs: the root and the bindings
`cont` and `rsp`. -/
def reshape_cont_match (root : instruction_ref) : matcher_result :=
  { result := root, instructions := [("cont", 1), ("rsp", 2)] }

/-- The graph `add(transpose[1,0](slice(0,2)(x)), transpose[1,0](slice(2,4)(x)))` on `x` of
lengths `[4,3]`, the slices along axis 0, returning the add. -/
def slice_transpose_module : module :=
  { instructions :=
      [(0, param_ins [4, 3] [1, 2]),
       (1, { op := { name := "slice", axes := [0], starts := [0], ends := [2] },
             get_shape := { type := 0, lens := [2, 3], strides := [3, 1] },
             inputs := [0], outputs := [3] }),
       (2, { op := { name := "slice", axes := [0], starts := [2], ends := [4] },
             get_shape := { type := 0, lens := [2, 3], strides := [3, 1] },
             inputs := [0], outputs := [4] }),
       (3, { op := { name := "transpose", dims := [1, 0] },
             get_shape := { type := 0, lens := [3, 2], strides := [1, 3] },
             inputs := [1], outputs := [5] }),
       (4, { op := { name := "transpose", dims := [1, 0] },
             get_shape := { type := 0, lens := [3, 2], strides := [1, 3] },
             inputs := [2], outputs := [5] }),
       (5, { op := { name := "add" },
             get_shape := shape.from_lens 0 [3, 2], inputs := [3, 4], outputs := [] })],
    returns := [5], next := 6 }

/-- The graph `transpose[1,0](slice(0,2)(x))` on `x` of lengths `[4,3]`, returning the
transpose: `x` has one slice only. -/
def single_slice_transpose_module : module :=
  { instructions :=
      [(0, param_ins [4, 3] [1]),
       (1, { op := { name := "slice", axes := [0], starts := [0], ends := [2] },
             get_shape := { type := 0, lens := [2, 3], strides := [3, 1] },
             inputs := [0], outputs := [2] }),
       (2, { op := { name := "transpose", dims := [1, 0] },
             get_shape := { type := 0, lens := [3, 2], strides := [1, 3] },
             inputs := [1], outputs := [] })],
    returns := [2], next := 3 }

/-- The graph of the two slices `(0,2)` and `(2,4)` along axis 0 of `transpose[1,0](x)` on
`x` of lengths `[2,4]`, returning both slices. -/
def transpose_slice_module : module :=
  { instructions :=
      [(0, param_ins [2, 4] [1]),
       (1, { op := { name := "transpose", dims := [1, 0] },
             get_shape := { type := 0, lens := [4, 2], strides := [1, 4] },
             inputs := [0], outputs := [2, 3] }),
       (2, { op := { name := "slice", axes := [0], starts := [0], ends := [2] },
             get_shape := { type := 0, lens := [2, 2], strides := [1, 4] },
             inputs := [1], outputs := [] }),
       (3, { op := { name := "slice", axes := [0], starts := [2], ends := [4] },
             get_shape := { type := 0, lens := [2, 2], strides := [1, 4] },
             inputs := [1], outputs := [] })],
    returns := [2, 3], next := 4 }

/-- The graph of the slice `(0,2)` along axis 1 of `transpose[1,0](x)` on `x` of lengths
`[3,4]`, returning the slice: the distance 2 does not divide the length 3 of the axis. -/
def transpose_slice_odd_module : module :=
  { instructions :=
      [(0, param_ins [3, 4] [1]),
       (1, { op := { name := "transpose", dims := [1, 0] },
             get_shape := { type := 0, lens := [4, 3], strides := [1, 4] },
             inputs := [0], outputs := [2] }),
       (2, { op := { name := "slice", axes := [1], starts := [0], ends := [2] },
             get_shape := { type := 0, lens := [4, 2], strides := [1, 4] },
             inputs := [1], outputs := [] })],
    returns := [2], next := 3 }

/-- The graph of the slice `(0,2)` by `(0,1)` along the axes 0 and 1 of `transpose[1,0](x)`
on `x` of lengths `[2,4]`, returning the slice: two axes are sliced. -/
def transpose_slice_axes_module : module :=
  { instructions :=
      [(0, param_ins [2, 4] [1]),
       (1, { op := { name := "transpose", dims := [1, 0] },
             get_shape := { type := 0, lens := [4, 2], strides := [1, 4] },
             inputs := [0], outputs := [2] }),
       (2, { op := { name := "slice", axes := [0, 1], starts := [0, 0], ends := [2, 1] },
             get_shape := { type := 0, lens := [2, 1], strides := [1, 4] },
             inputs := [1], outputs := [] })],
    returns := [2], next := 3 }

/-- The graph of the slices `(0,2)` and `(2,4)` along axis 0 of `x` of lengths `[5,3]`, each
followed by `transpose[1,0]`, returning the two transposes: the distance 2 of the slices
does not divide the length 5 of the sliced axis. -/
def slice_transpose_odd_module : module :=
  { instructions :=
      [(0, param_ins [5, 3] [1, 2]),
       (1, { op := { name := "slice", axes := [0], starts := [0], ends := [2] },
             get_shape := { type := 0, lens := [2, 3], strides := [3, 1] },
             inputs := [0], outputs := [3] }),
       (2, { op := { name := "slice", axes := [0], starts := [2], ends := [4] },
             get_shape := { type := 0, lens := [2, 3], strides := [3, 1] },
             inputs := [0], outputs := [4] }),
       (3, { op := { name := "transpose", dims := [1, 0] },
             get_shape := { type := 0, lens := [3, 2], strides := [1, 3] },
             inputs := [1], outputs := [] }),
       (4, { op := { name := "transpose", dims := [1, 0] },
             get_shape := { type := 0, lens := [3, 2], strides := [1, 3] },
             inputs := [2], outputs := [] })],
    returns := [3, 4], next := 5 }

/-- The graph of the slices `(0,2)`, `(2,4)` and `(4,6)` along axis 0 of `x` of lengths
`[6,2,3]`, the first two followed by `transpose[1,2,0]` and the third by
`transpose[2,0,1]`, returning the three transposes. -/
def slice_mixed_transpose_module : module :=
  { instructions :=
      [(0, param_ins [6, 2, 3] [1, 2, 3]),
       (1, { op := { name := "slice", axes := [0], starts := [0], ends := [2] },
             get_shape := { type := 0, lens := [2, 2, 3], strides := [6, 3, 1] },
             inputs := [0], outputs := [4] }),
       (2, { op := { name := "slice", axes := [0], starts := [2], ends := [4] },
             get_shape := { type := 0, lens := [2, 2, 3], strides := [6, 3, 1] },
             inputs := [0], outputs := [5] }),
       (3, { op := { name := "slice", axes := [0], starts := [4], ends := [6] },
             get_shape := { type := 0, lens := [2, 2, 3], strides := [6, 3, 1] },
             inputs := [0], outputs := [6] }),
       (4, { op := { name := "transpose", dims := [1, 2, 0] },
             get_shape := { type := 0, lens := [2, 3, 2], strides := [3, 1, 6] },
             inputs := [1], outputs := [] }),
       (5, { op := { name := "transpose", dims := [1, 2, 0] },
             get_shape := { type := 0, lens := [2, 3, 2], strides := [3, 1, 6] },
             inputs := [2], outputs := [] }),
       (6, { op := { name := "transpose", dims := [2, 0, 1] },
             get_shape := { type := 0, lens := [3, 2, 2], strides := [1, 6, 3] },
             inputs := [3], outputs := [] })],
    returns := [4, 5, 6], next := 7 }


/-- The graph `x -> reshape[6] -> reshape[3,2] -> neg` on `x` of lengths `[2,3]`, returning
the last. -/
def reshape_chain_module : module :=
  { instructions :=
      [(0, param_ins [2, 3] [1]),
       (1, { op := { name := "reshape", dims := [6] },
             get_shape := shape.from_lens 0 [6], inputs := [0], outputs := [2] }),
       (2, { op := { name := "reshape", dims := [3, 2] },
             get_shape := shape.from_lens 0 [3, 2], inputs := [1], outputs := [3] }),
       (3, { op := { name := "neg" },
             get_shape := shape.from_lens 0 [3, 2], inputs := [2], outputs := [] })],
    returns := [3], next := 4 }

/-- The graph `z -> transpose[1,0] -> contiguous -> flatten -> reshape[3,2] -> neg` on `z` of
lengths `[3,2]`, returning the last: the walk back from the reshape stops at the
transpose, whose shape is not standard. -/
def reshape_transposed_module : module :=
  { instructions :=
      [(0, param_ins [3, 2] [1]),
       (1, { op := { name := "transpose", dims := [1, 0] },
             get_shape := { type := 0, lens := [2, 3], strides := [1, 2] },
             inputs := [0], outputs := [2] }),
       (2, { op := { name := "contiguous" },
             get_shape := shape.from_lens 0 [2, 3], inputs := [1], outputs := [3] }),
       (3, { op := { name := "flatten", axis := 0 },
             get_shape := shape.from_lens 0 [1, 6], inputs := [2], outputs := [4] }),
       (4, { op := { name := "reshape", dims := [3, 2] },
             get_shape := shape.from_lens 0 [3, 2], inputs := [3], outputs := [5] }),
       (5, { op := { name := "neg" },
             get_shape := shape.from_lens 0 [3, 2], inputs := [4], outputs := [] })],
    returns := [5], next := 6 }

/-- The graph `x -> transpose[1,0] -> contiguous -> reshape[6] -> leaky_relu(alpha = 0.2)`
on `x` of lengths `[2,3]`, returning the last. -/
def unary_reshaper_module : module :=
  { instructions :=
      [(0, param_ins [2, 3] [1]),
       (1, { op := { name := "transpose", dims := [1, 0] },
             get_shape := { type := 0, lens := [3, 2], strides := [1, 3] },
             inputs := [0], outputs := [2] }),
       (2, { op := { name := "contiguous" },
             get_shape := shape.from_lens 0 [3, 2], inputs := [1], outputs := [3] }),
       (3, { op := { name := "reshape", dims := [6] },
             get_shape := shape.from_lens 0 [6], inputs := [2], outputs := [4] }),
       (4, { op := { name := "leaky_relu", alpha := 1 / 5 },
             get_shape := shape.from_lens 0 [6], inputs := [3], outputs := [] })],
    returns := [4], next := 5 }

/-- The match of `find_transpose_contiguous_reshaper_unary` on `unary_reshaper_module`. -/
def unary_reshaper_match : matcher_result :=
  { result := 4,
    instructions := [("reshaper_ins", 3), ("trans_ins", 1), ("cont_ins", 2)] }

/-- The graph of a parameter `x` of lengths `[2,3]` and the constant `[3,2]`, returning
`x`. -/
def parse_reshape_module : module :=
  { instructions :=
      [(0, param_ins [2, 3] []),
       (1, { op := { name := "@literal" }, get_shape := shape.from_lens 0 [2], inputs := [],
             outputs := [], lit := some [3, 2] })],
    returns := [0], next := 2 }

/-- A compiler configuration with no output name set. -/
def example_compiler : src_compiler :=
  { compiler := "clang++", flags := "-O3", output := "", out_ext := ".o", launcher := "" }

/-- The sources `include/kernel.hpp`, `main.cpp` and `other.cpp`. -/
def example_sources : List src_file :=
  [{ path := { parent := "include", stem := "kernel", extension := ".hpp" }, content := [1] },
   { path := { parent := "", stem := "main", extension := ".cpp" }, content := [2, 3] },
   { path := { parent := "", stem := "other", extension := ".cpp" }, content := [4] }]

/-- A compiler command that writes nothing. -/
def execute_nothing (td : tmp_dir) (_ _ : String) : Except error tmp_dir :=
  .ok td

/-- A compiler command that writes the file `main.o` with the bytes `[7, 8]`. -/
def execute_object (td : tmp_dir) (_ _ : String) : Except error tmp_dir :=
  .ok (write_buffer td "main.o" [7, 8])

/-- An environment for `rocblas_gemm::compute_shape`: `blas_shape` takes shapes of rank 2 and
more, `transpose_batch` keeps the shape for `trans_batch = 0`, a shape is broadcast when it
has a stride 0 and transposed when its strides are not decreasing. -/
def example_gemm_env : gemm_env :=
  { blas_shape := fun s => if s.lens.length < 2 then .error .shape_mismatch else .ok (),
    transpose_batch := fun s _ => s,
    transposed := fun s => !(s.strides.Pairwise (· ≥ ·) : Bool),
    broadcasted := fun s => s.strides.any (· == 0),
    to_string_range := fun l => ", ".intercalate (l.map toString),
    to_string := fun t => toString t }

/-- A wrapped `dot` on two matrices: lengths `[m, k]` and `[k, n]` give `[m, n]`. -/
def example_gemm : rocblas_gemm :=
  { op_name := "dot",
    op_compute_shape := fun inputs =>
      match inputs with
      | [a, b] =>
        match a.lens, b.lens with
        | [m, k], [k1, n] =>
          if k = k1 ∧ a.type = b.type then .ok (shape.from_lens a.type [m, n])
          else .error .shape_mismatch
        | _, _ => .error .shape_mismatch
      | _ => .error .shape_mismatch,
    trans_batch := 0 }


/-- The graph `add(y, reshape[6](contiguous(x)))` on `x` of lengths `[2,3]` and `y` of
lengths `[6]`, returning the add: the reshape is the second operand. -/
def reshape_cont_second_module : module :=
  { instructions :=
      [(0, param_ins [2, 3] [1]),
       (1, { op := { name := "contiguous" },
             get_shape := shape.from_lens 0 [2, 3], inputs := [0], outputs := [2] }),
       (2, { op := { name := "reshape", dims := [6] },
             get_shape := shape.from_lens 0 [6], inputs := [1], outputs := [4] }),
       (3, param_ins [6] [4]),
       (4, { op := { name := "add" },
             get_shape := shape.from_lens 0 [6], inputs := [3, 2], outputs := [] })],
    returns := [4], next := 5 }
/-! ## Theorems -/

/-! ### Permutation reordering -/

theorem reorder_dims_length {α : Type} [Inhabited α] (dims : List α) (p : List Int) :
    (reorder_dims dims p).length = dims.length := by
  simp [reorder_dims]

theorem reorder_dims_getD {α : Type} [Inhabited α] (dims : List α) (p : List Int) (i : Nat)
    (h : i < dims.length) :
    (reorder_dims dims p).getD i default = dims.getD (p.getD i 0).toNat default := by
  simp [reorder_dims, List.getD_eq_getElem?_getD, h]

theorem reorder_dims_iota (p : List Int) (n : Nat) (h : p.length = n) :
    reorder_dims p (iota n) = p := by
  apply List.ext_getElem
  · simp [reorder_dims]
  · intro i h1 h2
    have hi : i < n := by simpa [reorder_dims, h] using h1
    simp [reorder_dims, iota, List.getD_eq_getElem?_getD, hi, h ▸ hi]

/-! ### C1 -/

/-- C1: for a root transpose with permutation `p2` whose input is a transpose with
permutation `p1`, whose own input `x` is neither a transpose nor a contiguous,
`find_transpose::apply` replaces the root by one transpose of `x` with the permutation
`q`, `q[i] = p1[p2[i]]`, whenever `q` is not the identity; for `p1 = [1,0,2]` and
`p2 = [0,2,1]` this is `[1,2,0]`. -/
theorem C1_find_transpose_composes (compute_shape : operation → List shape → Option shape)
    (m : module) (ins t1 x : instruction_ref) (p1 p2 : List Int) (fuel : Nat)
    (h_ins_in : m.inputs ins = [t1]) (h_p2 : get_transpose_dims m ins = p2)
    (h_t1 : m.name t1 = "transpose") (h_t1_in : m.inputs t1 = [x])
    (h_p1 : get_transpose_dims m t1 = p1)
    (h_x : m.name x ≠ "transpose" ∧ m.name x ≠ "contiguous")
    (h_rank : (m.get_shape ins).lens.length = p2.length)
    (h_q : is_no_transpose (reorder_dims p1 p2) = false) :
    find_transpose.apply compute_shape (fuel + 3) m { result := ins } =
        m.replace_instruction_op compute_shape ins
          { name := "transpose", dims := reorder_dims p1 p2 } [x]
      ∧ (∀ i, i < p1.length →
          (reorder_dims p1 p2).getD i 0 = p1.getD (p2.getD i 0).toNat 0)
      ∧ reorder_dims ([1, 0, 2] : List Int) [0, 2, 1] = [1, 2, 0] := by
  have h_ne : ins ≠ t1 := by
    intro h
    rw [← h, h_ins_in] at h_t1_in
    have : t1 = x := by simpa using h_t1_in
    rw [← this] at h_x
    exact h_x.1 h_t1
  refine ⟨?_, ?_, by decide⟩
  · simp [find_transpose.apply, find_transpose.loop, find_transpose_input, h_ins_in, h_t1,
      h_t1_in, h_x.1, h_x.2, h_p2, h_p1, h_rank, reorder_dims_iota, h_ne, Ne.symm h_ne, front, h_q]
  · intro i hi
    exact reorder_dims_getD p1 p2 i hi

/-- C1 at the graph `x -> transpose[1,0,2] -> transpose[0,2,1] -> neg`: the root is
replaced by `transpose[1,2,0]` of `x`. -/
theorem C1_find_transpose_composes_witness :
    find_transpose.apply op_compute_shape 3 transpose_chain_module { result := 2 } =
        transpose_chain_module.replace_instruction_op op_compute_shape 2
          { name := "transpose", dims := reorder_dims [1, 0, 2] [0, 2, 1] } [0]
      ∧ (∀ i, i < ([1, 0, 2] : List Int).length →
          (reorder_dims ([1, 0, 2] : List Int) [0, 2, 1]).getD i 0
            = ([1, 0, 2] : List Int).getD (([0, 2, 1] : List Int).getD i 0).toNat 0)
      ∧ reorder_dims ([1, 0, 2] : List Int) [0, 2, 1] = [1, 2, 0] :=
  C1_find_transpose_composes op_compute_shape transpose_chain_module 2 1 0 [1, 0, 2] [0, 2, 1] 0
    (by decide) (by decide) (by decide) (by decide) (by decide) (by decide) (by decide)
    (by decide)

/-! ### Axis maps -/

theorem lookup_cons_ite {β : Type} (k : Nat) (p : Nat × β) (rest : List (Nat × β)) :
    List.lookup k (p :: rest) = if k = p.1 then some p.2 else List.lookup k rest := by
  obtain ⟨k0, v0⟩ := p
  by_cases h : k = k0
  · subst h
    simp [List.lookup]
  · have : (k == k0) = false := by simpa using h
    simp [List.lookup, this, h]

theorem axes_map.get_nil (k : Nat) : axes_map.get [] k = none := rfl

theorem axes_map.get_cons (k : Nat) (p : Nat × (Nat × Nat)) (rest : axes_map) :
    axes_map.get (p :: rest) k = if k = p.1 then some p.2 else axes_map.get rest k :=
  lookup_cons_ite k p rest

theorem axes_map.get_set (m : axes_map) (k k1 : Nat) (v : Nat × Nat) :
    axes_map.get (axes_map.set m k v) k1 = if k1 = k then some v else axes_map.get m k1 := by
  induction m with
  | nil =>
    simp [axes_map.set, axes_map.get_cons]
  | cons p rest ih =>
    obtain ⟨k0, v0⟩ := p
    simp only [axes_map.set]
    by_cases h1 : k < k0
    · simp [axes_map.get_cons, h1]
    · by_cases h2 : k = k0
      · subst h2
        by_cases h : k1 = k <;> simp [axes_map.get_cons, h]
      · simp only [h1, h2, if_false]
        rw [axes_map.get_cons, axes_map.get_cons, ih]
        by_cases h3 : k1 = k0
        · subst h3
          have : ¬ k1 = k := fun h => h2 h.symm
          simp [this]
        · simp [h3]

theorem axes_map.get_none_of_not_mem (m : axes_map) (k : Nat) (h : k ∉ m.map Prod.fst) :
    axes_map.get m k = none := by
  induction m with
  | nil => rfl
  | cons p rest ih =>
    simp only [List.map_cons, List.mem_cons, not_or] at h
    rw [axes_map.get_cons, if_neg h.1]
    exact ih h.2

theorem axes_map.get_foldl_assign (g : Nat × (Nat × Nat) → Option (Nat × Nat))
    (l : axes_map) (hl : (l.map Prod.fst).Nodup) (acc : axes_map) (k : Nat) :
    axes_map.get (l.foldl (axes_map.assign g) acc) k =
      match axes_map.get l k with
      | some v => (match g (k, v) with
          | some w => some w
          | none => axes_map.get acc k)
      | none => axes_map.get acc k := by
  induction l generalizing acc with
  | nil => rfl
  | cons p rest ih =>
    simp only [List.map_cons, List.nodup_cons] at hl
    rw [List.foldl_cons, ih hl.2]
    by_cases hk : k = p.1
    · subst hk
      have h1 : axes_map.get rest p.1 = none := axes_map.get_none_of_not_mem rest p.1 hl.1
      have h2 : axes_map.get (p :: rest) p.1 = some p.2 := by
        simp [axes_map.get_cons]
      rw [h1, h2]
      simp only [axes_map.assign]
      cases hg : g p with
      | none => simp [hg]
      | some w => simp [hg, axes_map.get_set]
    · have h2 : axes_map.get (p :: rest) k = axes_map.get rest k := by
        simp [axes_map.get_cons, hk]
      have h3 : axes_map.get (axes_map.assign g acc p) k = axes_map.get acc k := by
        simp only [axes_map.assign]
        cases hg : g p with
        | none => rfl
        | some w => simp [axes_map.get_set, hk]
      rw [h2, h3]

theorem axes_map.nodup_of_ordered (m : axes_map) (h : m.ordered) : (m.map Prod.fst).Nodup :=
  List.Pairwise.imp (fun h => Nat.ne_of_lt h) h

theorem find_nested_slice.get_merge (m1 m2 : axes_map) (h1 : (m1.map Prod.fst).Nodup)
    (h2 : (m2.map Prod.fst).Nodup) (k : Nat) :
    axes_map.get (find_nested_slice.merge m1 m2) k =
      match axes_map.get m1 k, axes_map.get m2 k with
      | some v1, some v2 =>
        some (size_add v1.1 v2.1, size_add (size_add v1.1 v2.1) (size_sub v2.2 v2.1))
      | some v1, none => some v1
      | none, some v2 => some v2
      | none, none => none := by
  have e1 : (fun (result : axes_map) (p : Nat × (Nat × Nat)) =>
      if axes_map.contains m2 p.1 then result else axes_map.set result p.1 p.2)
      = axes_map.assign (fun p => if axes_map.contains m2 p.1 then none else some p.2) := by
    funext result p
    simp only [axes_map.assign]
    split <;> rfl
  have e2 : (fun (result : axes_map) (p : Nat × (Nat × Nat)) =>
      if axes_map.contains m1 p.1 then result else axes_map.set result p.1 p.2)
      = axes_map.assign (fun p => if axes_map.contains m1 p.1 then none else some p.2) := by
    funext result p
    simp only [axes_map.assign]
    split <;> rfl
  have e3 : (fun (result : axes_map) (p1 : Nat × (Nat × Nat)) =>
      if !axes_map.contains m2 p1.1 then result
      else
        match axes_map.get m2 p1.1 with
        | none => result
        | some v2 =>
          let v1 := p1.2
          let start := size_add v1.1 v2.1
          let end_ := size_add start (size_sub v2.2 v2.1)
          axes_map.set result p1.1 (start, end_))
      = axes_map.assign (fun p1 => (axes_map.get m2 p1.1).map fun v2 =>
          (size_add p1.2.1 v2.1, size_add (size_add p1.2.1 v2.1) (size_sub v2.2 v2.1))) := by
    funext result p
    simp only [axes_map.assign, axes_map.contains]
    cases axes_map.get m2 p.1 <;> simp
  simp only [find_nested_slice.merge, e1, e2, e3]
  rw [axes_map.get_foldl_assign _ m1 h1, axes_map.get_foldl_assign _ m2 h2,
    axes_map.get_foldl_assign _ m1 h1]
  cases hm1 : axes_map.get m1 k <;> cases hm2 : axes_map.get m2 k <;>
    simp [axes_map.contains, hm1, hm2, axes_map.get_nil]

theorem size_add_sub_exact (s1 s2 e2 : Nat) (h1 : s2 ≤ e2) (h2 : s1 + e2 < 2 ^ 64) :
    size_add s1 s2 = s1 + s2 ∧
      size_add (size_add s1 s2) (size_sub e2 s2) = s1 + s2 + (e2 - s2) := by
  have hs2 : s2 < 2 ^ 64 := by omega
  have he2 : e2 < 2 ^ 64 := by omega
  have a : size_add s1 s2 = s1 + s2 := by
    unfold size_add
    exact Nat.mod_eq_of_lt (by omega)
  have b : size_sub e2 s2 = e2 - s2 := by
    unfold size_sub
    rw [Nat.mod_eq_of_lt hs2, Nat.mod_eq_of_lt he2]
    have : e2 + 2 ^ 64 - s2 = (e2 - s2) + 2 ^ 64 := by omega
    rw [this, Nat.add_mod_right]
    exact Nat.mod_eq_of_lt (by omega)
  refine ⟨a, ?_⟩
  rw [a, b]
  unfold size_add
  exact Nat.mod_eq_of_lt (by omega)

/-! ### C2 -/

/-- C2: `find_nested_slice::merge(m1, m2)` has the union of both key sets; an axis in only
one map keeps its `(start, end)`; an axis in both, `(s1, e1)` in `m1` and `(s2, e2)` in
`m2`, maps to `(s1 + s2, s1 + s2 + (e2 - s2))` in `std::size_t` arithmetic, which is the
exact sum when nothing wraps.  For `slice(0, 2, 8)` applied to `slice(0, 1, 10)` the
merged slice is `(axis 0, start 3, end 9)`. -/
theorem C2_nested_slice_merge (m1 m2 : axes_map) (h1 : m1.ordered) (h2 : m2.ordered) :
    (∀ k, axes_map.contains (find_nested_slice.merge m1 m2) k
        = (axes_map.contains m1 k || axes_map.contains m2 k))
    ∧ (∀ k v, axes_map.get m1 k = some v → axes_map.get m2 k = none →
        axes_map.get (find_nested_slice.merge m1 m2) k = some v)
    ∧ (∀ k v, axes_map.get m1 k = none → axes_map.get m2 k = some v →
        axes_map.get (find_nested_slice.merge m1 m2) k = some v)
    ∧ (∀ k s1 e1 s2 e2, axes_map.get m1 k = some (s1, e1) → axes_map.get m2 k = some (s2, e2) →
        axes_map.get (find_nested_slice.merge m1 m2) k
          = some (size_add s1 s2, size_add (size_add s1 s2) (size_sub e2 s2)))
    ∧ (∀ s1 s2 e2 : Nat, s2 ≤ e2 → s1 + e2 < 2 ^ 64 →
        size_add s1 s2 = s1 + s2 ∧
          size_add (size_add s1 s2) (size_sub e2 s2) = s1 + s2 + (e2 - s2))
    ∧ find_nested_slice.make_slice (find_nested_slice.merge
          (find_nested_slice.get_axes { name := "slice", axes := [0], starts := [1], ends := [10] })
          (find_nested_slice.get_axes { name := "slice", axes := [0], starts := [2], ends := [8] }))
        = { name := "slice", axes := [0], starts := [3], ends := [9] }
    ∧ find_nested_slice.apply op_compute_shape nested_slice_module { result := 2 }
        = nested_slice_module.replace_instruction_op op_compute_shape 2
            { name := "slice", axes := [0], starts := [3], ends := [9] } [0] := by
  have n1 := axes_map.nodup_of_ordered m1 h1
  have n2 := axes_map.nodup_of_ordered m2 h2
  refine ⟨?_, ?_, ?_, ?_, size_add_sub_exact, by decide, by rfl⟩
  · intro k
    simp only [axes_map.contains, find_nested_slice.get_merge m1 m2 n1 n2 k]
    cases axes_map.get m1 k <;> cases axes_map.get m2 k <;> rfl
  · intro k v hm1 hm2
    rw [find_nested_slice.get_merge m1 m2 n1 n2 k, hm1, hm2]
  · intro k v hm1 hm2
    rw [find_nested_slice.get_merge m1 m2 n1 n2 k, hm1, hm2]
  · intro k s1 e1 s2 e2 hm1 hm2
    rw [find_nested_slice.get_merge m1 m2 n1 n2 k, hm1, hm2]

/-- C2 at the maps `{0: (1, 10), 2: (3, 4)}` and `{0: (2, 8), 1: (5, 6)}`. -/
theorem C2_nested_slice_merge_witness :
    find_nested_slice.merge [(0, (1, 10)), (2, (3, 4))] [(0, (2, 8)), (1, (5, 6))]
        = [(0, (3, 9)), (1, (5, 6)), (2, (3, 4))]
      ∧ axes_map.get (find_nested_slice.merge [(0, (1, 10)), (2, (3, 4))]
          [(0, (2, 8)), (1, (5, 6))]) 0 = some (size_add 1 2, size_add (size_add 1 2) (size_sub 8 2)) :=
  ⟨by decide,
   (C2_nested_slice_merge [(0, (1, 10)), (2, (3, 4))] [(0, (2, 8)), (1, (5, 6))]
      (by simp [axes_map.ordered]) (by simp [axes_map.ordered])).2.2.2.1 0 1 10 2 8 (by decide)
      (by decide)⟩

/-! ### C10 -/

theorem slice_range_nested {α : Type} (xs : List α) (s1 e1 s2 e2 : Nat)
    (h2 : s2 ≤ e2) (h3 : e2 ≤ e1 - s1) :
    slice_range (slice_range xs s1 e1) s2 e2 = slice_range xs (s1 + s2) (s1 + s2 + (e2 - s2)) := by
  unfold slice_range
  rw [List.drop_take, List.take_take, List.drop_drop]
  congr 1
  omega

/-- C10: on one axis with ranges `s1 <= e1` and `s2 <= e2 <= e1 - s1`, held as
`std::size_t` values, and any sequence `xs` (of length at least `e1` or not), the elements `[s2, e2)` of the elements `[s1, e1)` of `xs` are the
elements `[s, e)` of `xs` for the range `(s, e)` that `find_nested_slice::merge` computes
for the axis, and `e - s = e2 - s2`. -/
theorem C10_nested_slice_sound {α : Type} (xs : List α) (m1 m2 : axes_map) (k s1 e1 s2 e2 : Nat)
    (h_m1 : m1.ordered) (h_m2 : m2.ordered)
    (h_k1 : axes_map.get m1 k = some (s1, e1)) (h_k2 : axes_map.get m2 k = some (s2, e2))
    (h1 : s1 ≤ e1) (h2 : s2 ≤ e2) (h3 : e2 ≤ e1 - s1) (h_size : e1 < 2 ^ 64) :
    ∃ s e, axes_map.get (find_nested_slice.merge m1 m2) k = some (s, e)
      ∧ slice_range (slice_range xs s1 e1) s2 e2 = slice_range xs s e
      ∧ e - s = e2 - s2 := by
  have hm := find_nested_slice.get_merge m1 m2 (axes_map.nodup_of_ordered m1 h_m1)
    (axes_map.nodup_of_ordered m2 h_m2) k
  rw [h_k1, h_k2] at hm
  obtain ⟨ha, hb⟩ := size_add_sub_exact s1 s2 e2 h2 (by omega)
  refine ⟨_, _, hm, ?_, ?_⟩
  · rw [hb, ha]
    exact slice_range_nested xs s1 e1 s2 e2 h2 h3
  · rw [hb, ha]
    omega

/-- C10 at `xs = [0, ..., 11]` with the ranges `[1, 10)` and then `[2, 8)`. -/
theorem C10_nested_slice_sound_witness :
    ∃ s e, axes_map.get (find_nested_slice.merge [(0, (1, 10))] [(0, (2, 8))]) 0 = some (s, e)
      ∧ slice_range (slice_range (List.range 12) 1 10) 2 8 = slice_range (List.range 12) s e
      ∧ e - s = 8 - 2 :=
  C10_nested_slice_sound (List.range 12) [(0, (1, 10))] [(0, (2, 8))] 0 1 10 2 8
    (by simp [axes_map.ordered]) (by simp [axes_map.ordered]) (by decide) (by decide)
    (by decide) (by decide) (by decide) (by decide)

/-! ### C3 -/

theorem find_nested_concat.walk_of_leaves (m : module) (axis : Nat)
    (ops leaves : List instruction_ref) (h : nested_concat_leaves m axis ops leaves) :
    ∃ n, ∀ fuel, n ≤ fuel → ∀ args,
      find_nested_concat.walk m axis fuel ops args = .ok (args ++ leaves) := by
  induction h with
  | nil =>
    refine ⟨1, ?_⟩
    intro fuel hf args
    obtain ⟨f, rfl⟩ : ∃ f, fuel = f + 1 := ⟨fuel - 1, by omega⟩
    simp [find_nested_concat.walk]
  | flatten i rest inner tail hn ha ho _ _ ih1 ih2 =>
    obtain ⟨n1, h1⟩ := ih1
    obtain ⟨n2, h2⟩ := ih2
    refine ⟨max n1 n2 + 1, ?_⟩
    intro fuel hf args
    obtain ⟨f, rfl⟩ : ∃ f, fuel = f + 1 := ⟨fuel - 1, by omega⟩
    have hf1 : n1 ≤ f := by omega
    have hf2 : n2 ≤ f := by omega
    simp only [find_nested_concat.walk, hn, ha, ho, and_self, if_true]
    rw [h1 f hf1 args]
    simp only
    rw [h2 f hf2 (args ++ inner), List.append_assoc]
  | keep i rest tail hq _ ih =>
    obtain ⟨n, h1⟩ := ih
    refine ⟨n + 1, ?_⟩
    intro fuel hf args
    obtain ⟨f, rfl⟩ : ∃ f, fuel = f + 1 := ⟨fuel - 1, by omega⟩
    simp only [find_nested_concat.walk, hq, if_false]
    rw [h1 f (by omega) (args ++ [i])]
    simp

/-- C3: `find_nested_concat::apply` replaces the root concat, keeping its operator, with
the operand list of leaves obtained by recursively replacing every operand that is a
concat on the root's axis with exactly one consumer by its own operands and keeping every
other operand in place; for `concat(axis 1)(a, concat(axis 1)(b, c), d)` with a
single-consumer inner concat the new operand list is `[a, b, c, d]`. -/
theorem C3_nested_concat_flattens (compute_shape : operation → List shape → Option shape)
    (m : module) (ins : instruction_ref) (leaves : List instruction_ref)
    (h : nested_concat_leaves m (find_nested_concat.get_axis m ins) (m.inputs ins) leaves) :
    (∃ n, ∀ fuel, n ≤ fuel →
      find_nested_concat.apply compute_shape fuel m { result := ins } =
        m.replace_instruction_op compute_shape ins (m.get_operator ins) leaves)
    ∧ find_nested_concat.apply op_compute_shape 5 nested_concat_module { result := 5 } =
        nested_concat_module.replace_instruction_op op_compute_shape 5
          { name := "concat", axis := 1 } [0, 1, 2, 3] := by
  refine ⟨?_, by rfl⟩
  obtain ⟨n, hn⟩ := find_nested_concat.walk_of_leaves m _ _ _ h
  refine ⟨n, ?_⟩
  intro fuel hf
  simp [find_nested_concat.apply, hn fuel hf []]

/-- C3 at the graph `concat(axis 1)(a, concat(axis 1)(b, c), d)`: the leaves are
`[a, b, c, d]`. -/
theorem C3_nested_concat_flattens_witness :
    (∃ n, ∀ fuel, n ≤ fuel →
      find_nested_concat.apply op_compute_shape fuel nested_concat_module { result := 5 } =
        nested_concat_module.replace_instruction_op op_compute_shape 5
          (nested_concat_module.get_operator 5) [0, 1, 2, 3])
    ∧ find_nested_concat.apply op_compute_shape 5 nested_concat_module { result := 5 } =
        nested_concat_module.replace_instruction_op op_compute_shape 5
          { name := "concat", axis := 1 } [0, 1, 2, 3] :=
  C3_nested_concat_flattens op_compute_shape nested_concat_module 5 [0, 1, 2, 3]
    (nested_concat_leaves.keep 0 [4, 3] [1, 2, 3] (by decide)
      (nested_concat_leaves.flatten 4 [3] [1, 2] [3] (by decide) (by decide) (by decide)
        (nested_concat_leaves.keep 1 [2] [2] (by decide)
          (nested_concat_leaves.keep 2 [] [] (by decide) nested_concat_leaves.nil))
        (nested_concat_leaves.keep 3 [] [] (by decide) nested_concat_leaves.nil)))

/-! ### Module lemmas -/

theorem lookup_map_entry {β : Type} (f : Nat × β → β) (l : List (Nat × β)) (k : Nat) :
    List.lookup k (l.map fun p => (p.1, f p)) = (List.lookup k l).map fun v => f (k, v) := by
  induction l with
  | nil => rfl
  | cons p rest ih =>
    rw [List.map_cons, lookup_cons_ite, lookup_cons_ite, ih]
    by_cases h : k = p.1
    · subst h
      simp
    · simp [h]

theorem lookup_isSome_iff_mem {β : Type} (l : List (Nat × β)) (k : Nat) :
    (List.lookup k l).isSome = true ↔ k ∈ l.map Prod.fst := by
  induction l with
  | nil => simp
  | cons p rest ih =>
    rw [lookup_cons_ite, List.map_cons, List.mem_cons]
    by_cases h : k = p.1
    · simp [h]
    · simp [h, ih]

theorem eq_of_mem_of_nodup_fst {β : Type} (l : List (Nat × β)) (h : (l.map Prod.fst).Nodup)
    (k : Nat) (v w : β) (hv : (k, v) ∈ l) (hw : (k, w) ∈ l) : v = w := by
  induction l with
  | nil => cases hv
  | cons p rest ih =>
    simp only [List.map_cons, List.nodup_cons] at h
    rcases List.mem_cons.mp hv with hv | hv <;> rcases List.mem_cons.mp hw with hw | hw
    · rw [← hv] at hw
      exact (Prod.mk.inj hw).2.symm
    · exact absurd (List.mem_map.mpr ⟨(k, w), hw, by rw [← hv]⟩) h.1
    · exact absurd (List.mem_map.mpr ⟨(k, v), hv, by rw [← hw]⟩) h.1
    · exact ih h.2 hv hw

theorem lookup_of_mem_of_nodup_fst {β : Type} (l : List (Nat × β)) (h : (l.map Prod.fst).Nodup)
    (k : Nat) (v : β) (hv : (k, v) ∈ l) : List.lookup k l = some v := by
  induction l with
  | nil => cases hv
  | cons p rest ih =>
    simp only [List.map_cons, List.nodup_cons] at h
    rw [lookup_cons_ite]
    rcases List.mem_cons.mp hv with hv | hv
    · rw [← hv]
      simp
    · have : k ≠ p.1 := by
        intro hk
        exact h.1 (List.mem_map.mpr ⟨(k, v), hv, hk⟩)
      rw [if_neg this]
      exact ih h.2 hv

theorem mem_of_lookup {β : Type} (l : List (Nat × β)) (k : Nat) (v : β)
    (h : List.lookup k l = some v) : (k, v) ∈ l := by
  induction l with
  | nil => cases h
  | cons p rest ih =>
    rw [lookup_cons_ite] at h
    by_cases hk : k = p.1
    · rw [if_pos hk] at h
      have : p = (k, v) := by
        cases p
        simp only [Option.some.injEq] at h
        simp at hk
        simp [hk, h]
      rw [this]
      exact List.mem_cons_self _ _
    · rw [if_neg hk] at h
      exact List.mem_cons_of_mem _ (ih h)

theorem module.has_instruction_iff (m : module) (r : instruction_ref) :
    m.has_instruction r = true ↔ r ∈ m.instructions.map Prod.fst :=
  lookup_isSome_iff_mem m.instructions r

theorem module.dce_pass_ids (m : module) (r : instruction_ref)
    (h : r ∈ m.dce_pass.instructions.map Prod.fst) :
    r ∈ m.instructions.map Prod.fst ∧ ∃ i, (r, i) ∈ m.instructions ∧ m.is_dead (r, i) = false := by
  simp only [module.dce_pass, List.map_map, List.mem_map, List.mem_filter, Function.comp] at h
  obtain ⟨p, ⟨hp, hd⟩, rfl⟩ := h
  refine ⟨List.mem_map.mpr ⟨p, hp, rfl⟩, p.2, hp, ?_⟩
  simpa using hd

theorem module.dce_pass_length_le (m : module) :
    m.dce_pass.instructions.length ≤ m.instructions.length := by
  simp only [module.dce_pass, List.length_map]
  exact List.length_filter_le _ _

theorem module.dce_loop_ids (n : Nat) (m : module) (r : instruction_ref)
    (h : r ∈ (module.dce_loop n m).instructions.map Prod.fst) :
    r ∈ m.instructions.map Prod.fst := by
  induction n generalizing m with
  | zero => exact h
  | succ n ih =>
    simp only [module.dce_loop] at h
    split at h
    · exact h
    · exact (module.dce_pass_ids m r (ih _ h)).1

theorem module.dce_removes_dead (m : module) (r : instruction_ref) (h_ids : m.distinct)
    (i : instruction) (h_mem : (r, i) ∈ m.instructions) (h_dead : m.is_dead (r, i) = true) :
    (dead_code_elimination m).has_instruction r = false := by
  have h_not : r ∉ m.dce_pass.instructions.map Prod.fst := by
    intro h
    obtain ⟨_, j, hj, hjd⟩ := module.dce_pass_ids m r h
    have : i = j := eq_of_mem_of_nodup_fst m.instructions h_ids r i j h_mem hj
    rw [this, hjd] at h_dead
    exact absurd h_dead (by simp)
  have h_len : m.dce_pass.instructions.length ≠ m.instructions.length := by
    intro h
    have hfilter : (m.instructions.filter fun p => !m.is_dead p) = m.instructions := by
      apply List.Sublist.eq_of_length (List.filter_sublist _)
      simpa [module.dce_pass] using h
    have := List.filter_eq_self.mp hfilter (r, i) h_mem
    simp [h_dead] at this
  have h_pos : 0 < m.instructions.length := List.length_pos_of_mem h_mem
  obtain ⟨n, hn⟩ : ∃ n, m.instructions.length = n + 1 := ⟨_, (Nat.succ_pred_eq_of_pos h_pos).symm⟩
  by_contra hc
  have hc1 : (dead_code_elimination m).has_instruction r = true := by simpa using hc
  rw [module.has_instruction_iff] at hc1
  simp only [dead_code_elimination, hn, module.dce_loop] at hc1
  rw [if_neg (by rw [← hn]; exact h_len)] at hc1
  exact h_not (module.dce_loop_ids n _ r hc1)
/-! ### C4 -/

theorem module.replace_instruction_ok (m : module) (old new : instruction_ref)
    (io inew : instruction) (h_old : m.get old = some io) (h_new : m.get new = some inew)
    (h_shape : io.get_shape.type = inew.get_shape.type ∧
      io.get_shape.lens = inew.get_shape.lens) :
    ∃ m1, m.replace_instruction old new = .ok m1
      ∧ m1.instructions.map Prod.fst = m.instructions.map Prod.fst
      ∧ m1.returns = m.returns.map (fun a => if a = old then new else a)
      ∧ (∀ c, c ∈ io.outputs → m1.inputs c = (m.inputs c).map fun a => if a = old then new else a)
      ∧ (∀ c, c ∉ io.outputs → m1.inputs c = m.inputs c)
      ∧ (∀ c, m1.name c = m.name c)
      ∧ m1.outputs old = [] := by
  simp only [module.replace_instruction, h_old, h_new, h_shape, and_self, if_true]
  refine ⟨_, rfl, ?_, rfl, ?_, ?_, ?_, ?_⟩
  · simp [Function.comp]
  · intro c hc
    simp only [module.inputs, module.get, lookup_map_entry]
    cases List.lookup c m.instructions with
    | none => rfl
    | some i =>
      simp only [Option.map_some', hc, if_true]
      split <;> split <;> rfl
  · intro c hc
    simp only [module.inputs, module.get, lookup_map_entry]
    cases List.lookup c m.instructions with
    | none => rfl
    | some i =>
      simp only [Option.map_some', hc, if_false]
      split <;> split <;> rfl
  · intro c
    simp only [module.name, module.get, lookup_map_entry]
    cases List.lookup c m.instructions with
    | none => rfl
    | some i =>
      simp only [Option.map_some']
      split <;> split <;> split <;> rfl
  · simp only [module.outputs, module.get, lookup_map_entry]
    simp only [module.get] at h_old
    rw [h_old]
    simp

/-- C4: `find_nop_reshapes` matches an instruction exactly when its operator name is one
of the thirteen layout, broadcast and shape operators and its output shape equals the
shape of its first input; `apply` then redirects every consumer of the instruction to that
first input, the instruction is left with no output edge, and the following dead-code
elimination removes it. -/
theorem C4_nop_reshapes (m : module) (ins i : instruction_ref) (rest : List instruction_ref)
    (h_match : find_nop_reshapes.matcher m ins = true) (h_ids : m.distinct)
    (h_in : m.inputs ins = i :: rest) (h_i : m.has_instruction i = true) (h_ne : i ≠ ins) :
    (∀ (m0 : module) (r : instruction_ref), find_nop_reshapes.matcher m0 r = true ↔
      (m0.name r ∈ ["flatten", "reshape", "contiguous", "squeeze", "unsqueeze", "as_shape",
          "broadcast", "concat", "convert", "multibroadcast", "pad", "slice", "transpose"]
        ∧ ∃ a tail, m0.inputs r = a :: tail ∧ m0.get_shape r = m0.get_shape a))
    ∧ ∃ m1, find_nop_reshapes.apply m { result := ins } = .ok m1
      ∧ (∀ c, c ∈ m.outputs ins →
          m1.inputs c = (m.inputs c).map fun a => if a = ins then i else a)
      ∧ m1.outputs ins = []
      ∧ (dead_code_elimination m1).has_instruction ins = false := by
  have h_iff : ∀ (m0 : module) (r : instruction_ref), find_nop_reshapes.matcher m0 r = true ↔
      (m0.name r ∈ ["flatten", "reshape", "contiguous", "squeeze", "unsqueeze", "as_shape",
          "broadcast", "concat", "convert", "multibroadcast", "pad", "slice", "transpose"]
        ∧ ∃ a tail, m0.inputs r = a :: tail ∧ m0.get_shape r = m0.get_shape a) := by
    intro m0 r
    simp only [find_nop_reshapes.matcher, match_name, match_same_shape, match_arg,
      find_nop_reshapes.reshapes, reshaper_names, Bool.and_eq_true, decide_eq_true_eq,
      List.cons_append, List.nil_append]
    apply and_congr Iff.rfl
    cases hr : m0.inputs r with
    | nil => simp
    | cons a tail =>
      simp only [List.getElem?_cons_zero, decide_eq_true_eq]
      constructor
      · intro h
        exact ⟨a, tail, rfl, h.symm⟩
      · rintro ⟨a1, tail1, h1, h2⟩
        obtain ⟨rfl, _⟩ := List.cons.inj h1
        exact h2.symm
  refine ⟨h_iff, ?_⟩
  obtain ⟨h_name, a, tail, h_a, h_shape⟩ := (h_iff m ins).mp h_match
  rw [h_in] at h_a
  obtain ⟨rfl, _⟩ := List.cons.inj h_a
  obtain ⟨io, h_io⟩ : ∃ io, m.get ins = some io := by
    cases hg : m.get ins with
    | none =>
      simp only [module.name, hg] at h_name
      exact absurd h_name (by decide)
    | some io => exact ⟨io, rfl⟩
  obtain ⟨inew, h_inew⟩ : ∃ inew, m.get i = some inew := by
    simpa [module.has_instruction, Option.isSome_iff_exists] using h_i
  have h_shape1 : io.get_shape = inew.get_shape := by
    simpa [module.get_shape, h_io, h_inew] using h_shape
  obtain ⟨m1, h_ok, h_fst, h_ret, h_cons, -, h_nm, h_out⟩ :=
    module.replace_instruction_ok m ins i io inew h_io h_inew (by rw [h_shape1]; exact ⟨rfl, rfl⟩)
  have h_outs : m.outputs ins = io.outputs := by simp [module.outputs, h_io]
  refine ⟨m1, ?_, ?_, h_out, ?_⟩
  · simp [find_nop_reshapes.apply, h_in, front, h_ok]
  · intro c hc
    exact h_cons c (h_outs ▸ hc)
  · have h_has : m1.has_instruction ins = true := by
      rw [module.has_instruction_iff, h_fst, ← module.has_instruction_iff]
      simp [module.has_instruction, h_io]
    obtain ⟨i1, h_i1⟩ : ∃ i1, m1.get ins = some i1 := by
      simpa [module.has_instruction, Option.isSome_iff_exists] using h_has
    have h_mem : (ins, i1) ∈ m1.instructions := mem_of_lookup _ _ _ h_i1
    have h_ids1 : m1.distinct := by
      unfold module.distinct
      rw [h_fst]
      exact h_ids
    apply module.dce_removes_dead m1 ins h_ids1 i1 h_mem
    have e1 : i1.outputs = [] := by simpa [module.outputs, h_i1] using h_out
    have e2 : ins ∉ m1.returns := by
      rw [h_ret]
      intro h
      obtain ⟨a, _, ha⟩ := List.mem_map.mp h
      by_cases hc : a = ins
      · rw [if_pos hc] at ha
        exact h_ne ha
      · rw [if_neg hc] at ha
        exact hc ha
    have e3 : i1.op.name ≠ "@param" := by
      have h1 : m1.name ins = i1.op.name := by simp [module.name, h_i1]
      rw [← h1, h_nm]
      intro h
      rw [h] at h_name
      exact absurd h_name (by decide)
    simp [module.is_dead, e1, e2, e3]

/-- C4 at the graph `x -> reshape[2,3] -> neg` with `x` of lengths `[2,3]`. -/
theorem C4_nop_reshapes_witness :
    find_nop_reshapes.matcher nop_reshape_module 1 = true
      ∧ ∃ m1, find_nop_reshapes.apply nop_reshape_module { result := 1 } = .ok m1
        ∧ (∀ c, c ∈ nop_reshape_module.outputs 1 →
            m1.inputs c = (nop_reshape_module.inputs c).map fun a => if a = 1 then 0 else a)
        ∧ m1.outputs 1 = []
        ∧ (dead_code_elimination m1).has_instruction 1 = false :=
  ⟨by decide,
   (C4_nop_reshapes nop_reshape_module 1 0 [] (by decide)
      (by unfold module.distinct; decide) (by decide) (by decide) (by decide)).2⟩

/-! ### Transpose chains -/

theorem find_transpose_input_of_skips (m : module) (a b : instruction_ref)
    (h : skips_contiguous m a b) (hb : m.name b = "transpose") :
    ∃ n, ∀ fuel, n ≤ fuel → find_transpose_input m fuel a = .ok b := by
  induction h with
  | input a b hin =>
    refine ⟨1, ?_⟩
    intro fuel hf
    obtain ⟨f, rfl⟩ : ∃ f, fuel = f + 1 := ⟨fuel - 1, by omega⟩
    simp [find_transpose_input, hin, hb]
  | skip a c b hin hc _ ih =>
    obtain ⟨n, hn⟩ := ih hb
    refine ⟨n + 1, ?_⟩
    intro fuel hf
    obtain ⟨f, rfl⟩ : ∃ f, fuel = f + 1 := ⟨fuel - 1, by omega⟩
    simp [find_transpose_input, hin, hc, hn f (by omega)]

theorem find_transpose_input_of_ends (m : module) (a c : instruction_ref)
    (h : ends_in_contiguous m a c) :
    m.name c = "contiguous" ∧ ∃ n, ∀ fuel, n ≤ fuel → find_transpose_input m fuel a = .ok c := by
  induction h with
  | stop a c y hin hc hcin hy1 hy2 =>
    refine ⟨hc, 2, ?_⟩
    intro fuel hf
    obtain ⟨f, rfl⟩ : ∃ f, fuel = f + 2 := ⟨fuel - 2, by omega⟩
    simp [find_transpose_input, hin, hc, hcin, hy1, hy2]
  | skip a c c1 hin hc _ ih =>
    obtain ⟨hc1, n, hn⟩ := ih
    refine ⟨hc1, n + 1, ?_⟩
    intro fuel hf
    obtain ⟨f, rfl⟩ : ∃ f, fuel = f + 1 := ⟨fuel - 1, by omega⟩
    simp [find_transpose_input, hin, hc, hn f (by omega)]

theorem find_transpose_input_of_plain (m : module) (t x : instruction_ref)
    (hin : m.inputs t = [x]) (hx1 : m.name x ≠ "transpose") (hx2 : m.name x ≠ "contiguous") :
    ∀ fuel, 1 ≤ fuel → find_transpose_input m fuel t = .ok t := by
  intro fuel hf
  obtain ⟨f, rfl⟩ : ∃ f, fuel = f + 1 := ⟨fuel - 1, by omega⟩
  simp [find_transpose_input, hin, hx1, hx2]

theorem find_transpose.loop_of_chain (m : module) (t last : instruction_ref)
    (ps : List (List Int)) (h : transpose_chain m t ps last) (e : instruction_ref)
    (he : ∃ n, ∀ fuel, n ≤ fuel → find_transpose_input m fuel last = .ok e)
    (hstop : e = last ∨ m.name e ≠ "transpose") :
    ∃ n, ∀ fuel, n ≤ fuel → ∀ dims,
      find_transpose.loop m fuel dims t =
        .ok (ps.foldl (fun d p => reorder_dims p d) dims, e) := by
  induction h with
  | last t _ =>
    obtain ⟨n0, h0⟩ := he
    refine ⟨n0 + 1, ?_⟩
    intro fuel hf dims
    obtain ⟨f, rfl⟩ : ∃ f, fuel = f + 1 := ⟨fuel - 1, by omega⟩
    simp only [find_transpose.loop, h0 f (by omega)]
    have : ¬ (t ≠ e ∧ m.name e = "transpose") := by
      rcases hstop with h1 | h1
      · simp [h1]
      · simp [h1]
    simp [this]
  | link t t1 last ps _ hskip ht1 hne _ ih =>
    obtain ⟨n1, h1⟩ := find_transpose_input_of_skips m t t1 hskip ht1
    obtain ⟨n2, h2⟩ := ih he hstop
    refine ⟨max n1 n2 + 1, ?_⟩
    intro fuel hf dims
    obtain ⟨f, rfl⟩ : ∃ f, fuel = f + 1 := ⟨fuel - 1, by omega⟩
    simp only [find_transpose.loop, h1 f (by omega)]
    simp [hne, ht1, h2 f (by omega)]
/-! ### C8 -/

/-- C8, refuted as stated: in `x -> contiguous -> transpose[1,0,2] -> transpose[0,2,1] -> neg`
the root transpose is accepted by the matcher of `find_transpose`, yet `apply` leaves the
module as it is, while replacing the root by `transpose[1,2,0]` of `x` would change it. -/
theorem C8_declines_behind_contiguous :
    find_transpose.matcher 5 contiguous_transpose_module 3 = .ok true
      ∧ find_transpose.apply op_compute_shape 5 contiguous_transpose_module { result := 3 }
          = .ok contiguous_transpose_module
      ∧ find_transpose.apply op_compute_shape 50 contiguous_transpose_module { result := 3 }
          = .ok contiguous_transpose_module
      ∧ contiguous_transpose_module.replace_instruction_op op_compute_shape 3
          { name := "transpose", dims := [1, 2, 0] } [0] ≠ .ok contiguous_transpose_module := by
  refine ⟨by rfl, by rfl, by rfl, ?_⟩
  intro h
  have h1 := congrArg (fun r => match r with
    | Except.ok m1 => m1.next
    | Except.error _ => 0) h
  revert h1
  decide

/-- C8, amended: along a chain of transposes from the matched root back to the innermost
one, linked directly or through contiguous instructions, `find_transpose::apply` replaces
the root by the input `x` of the innermost transpose when the accumulated permutation is
the identity and otherwise by one transpose of `x` with the accumulated permutation,
provided `x` is neither a transpose nor a contiguous; when the innermost transpose is fed
by contiguous instructions that end at something that is no transpose, `apply` leaves the
module unchanged. -/
theorem C8_find_transpose_folds_or_declines
    (compute_shape : operation → List shape → Option shape) (m : module)
    (ins last : instruction_ref) (ps : List (List Int))
    (h_chain : transpose_chain m ins ps last) :
    (∀ x, m.inputs last = [x] → m.name x ≠ "transpose" → m.name x ≠ "contiguous" →
      last ≠ ins →
      ∃ n, ∀ fuel, n ≤ fuel →
        find_transpose.apply compute_shape fuel m { result := ins } =
          if is_no_transpose (find_transpose.accumulate (m.get_shape ins).lens.length ps)
          then m.replace_instruction ins x
          else m.replace_instruction_op compute_shape ins
            { name := "transpose",
              dims := find_transpose.accumulate (m.get_shape ins).lens.length ps } [x])
    ∧ (∀ c, ends_in_contiguous m last c →
      ∃ n, ∀ fuel, n ≤ fuel →
        find_transpose.apply compute_shape fuel m { result := ins } = .ok m) := by
  have h_last : m.name last = "transpose" := by
    induction h_chain with
    | last t ht => exact ht
    | link _ _ _ _ _ _ _ _ _ ih => exact ih
  constructor
  · intro x hin hx1 hx2 hne
    obtain ⟨n, hn⟩ := find_transpose.loop_of_chain m ins last ps h_chain last
      ⟨1, find_transpose_input_of_plain m last x hin hx1 hx2⟩ (Or.inl rfl)
    refine ⟨n, ?_⟩
    intro fuel hf
    simp only [find_transpose.apply, hn fuel hf, find_transpose.accumulate]
    simp only [hne, h_last, ne_eq, not_true_eq_false, or_self, if_false, hin, front]
  · intro c hc
    obtain ⟨hname, he⟩ := find_transpose_input_of_ends m last c hc
    have hc1 : m.name c ≠ "transpose" := by
      rw [hname]
      decide
    obtain ⟨n, hn⟩ := find_transpose.loop_of_chain m ins last ps h_chain c he (Or.inr hc1)
    refine ⟨n, ?_⟩
    intro fuel hf
    simp [find_transpose.apply, hn fuel hf, hc1]

/-- C8 (amended) at `x -> transpose[1,0,2] -> transpose[0,2,1] -> neg`, which folds, at
`x -> transpose[1,0,2] -> transpose[1,0,2] -> neg`, which collapses to `x`, and at
`x -> contiguous -> transpose[1,0,2] -> transpose[0,2,1] -> neg`, which is left alone. -/
theorem C8_find_transpose_folds_or_declines_witness :
    (∃ n, ∀ fuel, n ≤ fuel →
        find_transpose.apply op_compute_shape fuel transpose_chain_module { result := 2 } =
          if is_no_transpose (find_transpose.accumulate
            (transpose_chain_module.get_shape 2).lens.length [[0, 2, 1], [1, 0, 2]])
          then transpose_chain_module.replace_instruction 2 0
          else transpose_chain_module.replace_instruction_op op_compute_shape 2
            { name := "transpose",
              dims := find_transpose.accumulate
                (transpose_chain_module.get_shape 2).lens.length [[0, 2, 1], [1, 0, 2]] } [0])
      ∧ (∃ n, ∀ fuel, n ≤ fuel →
        find_transpose.apply op_compute_shape fuel cancelling_transpose_module { result := 2 } =
          if is_no_transpose (find_transpose.accumulate
            (cancelling_transpose_module.get_shape 2).lens.length [[1, 0, 2], [1, 0, 2]])
          then cancelling_transpose_module.replace_instruction 2 0
          else cancelling_transpose_module.replace_instruction_op op_compute_shape 2
            { name := "transpose",
              dims := find_transpose.accumulate
                (cancelling_transpose_module.get_shape 2).lens.length [[1, 0, 2], [1, 0, 2]] } [0])
      ∧ (∃ n, ∀ fuel, n ≤ fuel →
        find_transpose.apply op_compute_shape fuel contiguous_transpose_module { result := 3 }
          = .ok contiguous_transpose_module) :=
  ⟨(C8_find_transpose_folds_or_declines op_compute_shape transpose_chain_module 2 1
      [[0, 2, 1], [1, 0, 2]]
      (transpose_chain.link 2 1 1 [[1, 0, 2]] (by decide)
        (skips_contiguous.input 2 1 (by decide)) (by decide) (by decide)
        (transpose_chain.last 1 (by decide)))).1 0 (by decide) (by decide) (by decide)
      (by decide),
   (C8_find_transpose_folds_or_declines op_compute_shape cancelling_transpose_module 2 1
      [[1, 0, 2], [1, 0, 2]]
      (transpose_chain.link 2 1 1 [[1, 0, 2]] (by decide)
        (skips_contiguous.input 2 1 (by decide)) (by decide) (by decide)
        (transpose_chain.last 1 (by decide)))).1 0 (by decide) (by decide) (by decide)
      (by decide),
   (C8_find_transpose_folds_or_declines op_compute_shape contiguous_transpose_module 3 2
      [[0, 2, 1], [1, 0, 2]]
      (transpose_chain.link 3 2 2 [[1, 0, 2]] (by decide)
        (skips_contiguous.input 3 2 (by decide)) (by decide) (by decide)
        (transpose_chain.last 2 (by decide)))).2 1
      (ends_in_contiguous.stop 2 1 0 (by decide) (by decide) (by decide) (by decide)
        (by decide))⟩

/-! ### C9 -/

theorem index_vector_getD (n : Nat) (p : List Int) (h : index_vector n p) (i : Nat)
    (hi : i < n) : (p.getD i 0).toNat < n := by
  have hmem : p.getD i 0 ∈ p := by
    rw [List.getD_eq_getElem _ _ (h.1 ▸ hi)]
    exact List.getElem_mem _
  have := h.2 _ hmem
  omega

theorem reorder_dims_eq_map {α : Type} [Inhabited α] (dims : List α) (p : List Int)
    (h : p.length = dims.length) :
    reorder_dims dims p = p.map fun a => dims.getD a.toNat default := by
  apply List.ext_getElem
  · simp [reorder_dims, h]
  · intro i h1 h2
    have hi : i < p.length := by simpa using h2
    simp [reorder_dims, List.getD_eq_getElem?_getD, hi]

theorem reorder_dims_index_vector (n : Nat) (p d : List Int) (hp : index_vector n p)
    (hd : index_vector n d) : index_vector n (reorder_dims p d) := by
  refine ⟨by rw [reorder_dims_length, hp.1], ?_⟩
  intro a ha
  rw [reorder_dims_eq_map p d (by rw [hd.1, hp.1])] at ha
  obtain ⟨b, hb, rfl⟩ := List.mem_map.mp ha
  have hb1 := hd.2 b hb
  apply hp.2
  rw [List.getD_eq_getElem _ _ (by rw [hp.1]; omega)]
  exact List.getElem_mem _

theorem reorder_dims_assoc {α : Type} [Inhabited α] (n : Nat) (w : List α) (p d : List Int)
    (hw : w.length = n) (hp : index_vector n p) (hd : index_vector n d) :
    reorder_dims (reorder_dims w p) d = reorder_dims w (reorder_dims p d) := by
  rw [reorder_dims_eq_map (reorder_dims w p) d (by rw [reorder_dims_length, hd.1, hw]),
    reorder_dims_eq_map w (reorder_dims p d) (by rw [reorder_dims_length, hp.1, hw]),
    reorder_dims_eq_map p d (by rw [hd.1, hp.1]), List.map_map]
  apply List.map_congr_left
  intro a ha
  have ha1 := hd.2 a ha
  have ha2 : a.toNat < w.length := by omega
  simp only [Function.comp]
  rw [reorder_dims_getD w p a.toNat ha2]
  rfl

theorem iota_index_vector (n : Nat) : index_vector n (iota n) := by
  refine ⟨by simp [iota], ?_⟩
  intro a ha
  simp only [iota, List.mem_map, List.mem_range] at ha
  obtain ⟨i, hi, rfl⟩ := ha
  simp only [Int.ofNat_eq_coe]
  omega

theorem reorder_dims_by_iota {α : Type} [Inhabited α] (w : List α) (n : Nat)
    (h : w.length = n) : reorder_dims w (iota n) = w := by
  apply List.ext_getElem
  · simp [reorder_dims]
  · intro i h1 h2
    have hi : i < n := by rw [← h]; exact h2
    simp [reorder_dims, iota, List.getD_eq_getElem?_getD, hi, h2]

theorem reorder_chain_length {α : Type} [Inhabited α] (ps : List (List Int)) (v : List α) :
    (ps.foldr (fun p w => reorder_dims w p) v).length = v.length := by
  induction ps with
  | nil => rfl
  | cons p rest ih => simp [List.foldr_cons, reorder_dims_length, ih]

theorem reorder_chain_fold {α : Type} [Inhabited α] (n : Nat) (ps : List (List Int))
    (v : List α) (h_perm : ∀ p ∈ ps, index_vector n p) (h_v : v.length = n) (d : List Int)
    (hd : index_vector n d) :
    reorder_dims (ps.foldr (fun p w => reorder_dims w p) v) d =
      reorder_dims v (ps.foldl (fun d p => reorder_dims p d) d) := by
  induction ps generalizing d with
  | nil => rfl
  | cons p rest ih =>
    have hp := h_perm p (List.mem_cons_self _ _)
    have hrest : ∀ q ∈ rest, index_vector n q := fun q hq => h_perm q (List.mem_cons_of_mem _ hq)
    rw [List.foldr_cons, List.foldl_cons, ← ih hrest (reorder_dims p d)
      (reorder_dims_index_vector n p d hp hd)]
    exact reorder_dims_assoc n _ p d (by rw [reorder_chain_length, h_v]) hp hd

/-- C9: for a chain of permutations of `0 .. n-1`, listed from the root `pk` back to the
innermost `p1`, and a length-`n` vector `v`, reordering `v` by `p1`, then `p2`, ..., then
`pk` equals reordering `v` once by the permutation `find_transpose::apply` accumulates in
`dims`, which is what its loop returns on a chain of transposes with these permutations;
so the replacement has the output lengths of the root transpose. -/
theorem C9_transpose_fold_sound {α : Type} [Inhabited α] (n : Nat) (ps : List (List Int))
    (v : List α) (h_perm : ∀ p ∈ ps, index_vector n p) (h_v : v.length = n) :
    ps.foldr (fun p w => reorder_dims w p) v
        = reorder_dims v (find_transpose.accumulate n ps)
      ∧ (∀ (m : module) (t last e : instruction_ref), transpose_chain m t ps last →
          (∃ k, ∀ fuel, k ≤ fuel → find_transpose_input m fuel last = .ok e) →
          (e = last ∨ m.name e ≠ "transpose") →
          ∃ k, ∀ fuel, k ≤ fuel →
            find_transpose.loop m fuel (iota n) t = .ok (find_transpose.accumulate n ps, e)) := by
  constructor
  · rw [find_transpose.accumulate, ← reorder_chain_fold n ps v h_perm h_v (iota n)
      (iota_index_vector n)]
    exact (reorder_dims_by_iota _ n (by rw [reorder_chain_length, h_v])).symm
  · intro m t last e hc he hstop
    obtain ⟨k, hk⟩ := find_transpose.loop_of_chain m t last ps hc e he hstop
    exact ⟨k, fun fuel hf => hk fuel hf (iota n)⟩

/-- C9 at the chain `p1 = [1,0,2]`, `p2 = [0,2,1]` and the lengths `[2,3,4]`. -/
theorem C9_transpose_fold_sound_witness :
    reorder_dims (reorder_dims ([2, 3, 4] : List Nat) [1, 0, 2]) [0, 2, 1]
      = reorder_dims [2, 3, 4] (find_transpose.accumulate 3 [[0, 2, 1], [1, 0, 2]]) :=
  (C9_transpose_fold_sound 3 [[0, 2, 1], [1, 0, 2]] ([2, 3, 4] : List Nat)
    (by
      intro p hp
      simp only [List.mem_cons, List.mem_singleton, List.not_mem_nil, or_false] at hp
      rcases hp with rfl | rfl <;> exact ⟨rfl, by decide⟩)
    rfl).1

/-! ### C5 and C6 -/

/-- C5 fails on `gather(reshape[2](x), [0,0,0,0])` with `x = [1, 2]`: the data is a rank-1
reshape of `x`, the output length 4 is a multiple of the length 2 of `x`, and the constant
index vector passes the index check of `find_resize::apply`, which rewrites the gather;
the gather evaluates to `[1,1,1,1]` and its replacement to `[1,1,2,2]`. -/
theorem C5_resize_changes_output :
    find_resize.index_check (shape.from_lens 0 [4]) (find_resize.scales [2] [4])
        ([0, 0, 0, 0].map to_int32) = true
      ∧ resize_module.returns = [3]
      ∧ resize_module.run example_params 10 3
          = some { get_shape := shape.from_lens 0 [4], data := [1, 1, 1, 1] }
      ∧ (find_resize.apply op_compute_shape resize_module
            { result := 3, instructions := [("data", 1), ("ind", 2)] }).map
          (fun m1 => (m1.returns, m1.get_operator 7, m1.inputs 7, m1.run example_params 10 7))
          = .ok ([7], { name := "reshape", dims := [4] }, [6],
              some { get_shape := shape.from_lens 0 [4], data := [1, 1, 2, 2] }) := by
  refine ⟨by decide, by decide, by rfl, by rfl⟩

/-- C6 fails on `gather(reshape[4](concat(a, b)), [0,0])` with `a = [1, 2]` and
`b = [3, 4]`: all indices agree, the concat axis is 0 and the operands have the lengths of
the index tensor, so `find_where_op::apply` replaces the gather by `b`; the gather
evaluates to `[1,1]` and `b` to `[3,4]`. -/
theorem C6_where_changes_output :
    where_module.returns = [5]
      ∧ where_module.run example_params 10 5
          = some { get_shape := shape.from_lens 0 [2], data := [1, 1] }
      ∧ (find_where_op.apply where_module
            { result := 5, instructions := [("data", 2), ("ind", 4)] }).map
          (fun m1 => (m1.returns, m1.run example_params 10 1))
          = .ok ([1], some { get_shape := shape.from_lens 0 [2], data := [3, 4] }) := by
  refine ⟨by decide, by rfl, by rfl⟩

/-! ### Resize: the dimension vectors -/

theorem find_resize.dims_foldl (l : List (Nat × Nat)) (a b : List Nat) :
    l.foldl
      (fun acc isp =>
        let in_dims := acc.1 ++ [isp.1]
        let out_dims := acc.2 ++ [isp.1 * isp.2]
        if isp.1 = 1 ∨ isp.2 = 1 then (in_dims, out_dims)
        else (in_dims ++ [1], out_dims.dropLast ++ [isp.1] ++ [isp.2]))
      (a, b)
    = (a ++ l.flatMap find_resize.in_part, b ++ l.flatMap find_resize.out_part) := by
  induction l generalizing a b with
  | nil => simp
  | cons p rest ih =>
    rw [List.foldl_cons]
    by_cases h : p.1 = 1 ∨ p.2 = 1
    · simp only [h, if_true]
      rw [ih]
      simp [List.flatMap_cons, find_resize.in_part, find_resize.out_part, h]
    · simp only [h, if_false]
      rw [ih]
      simp [List.flatMap_cons, find_resize.in_part, find_resize.out_part, h]

theorem find_resize.dims_eq (l : List (Nat × Nat)) :
    find_resize.dims l = (l.flatMap find_resize.in_part, l.flatMap find_resize.out_part) := by
  have := find_resize.dims_foldl l [] []
  simpa [find_resize.dims] using this

theorem find_resize.in_part_prod (l : List (Nat × Nat)) :
    (l.flatMap find_resize.in_part).prod = (l.map Prod.fst).prod := by
  induction l with
  | nil => rfl
  | cons p rest ih =>
    rw [List.flatMap_cons, List.prod_append, ih, List.map_cons, List.prod_cons]
    congr 1
    unfold find_resize.in_part
    split <;> simp

theorem find_resize.out_part_prod (l : List (Nat × Nat)) :
    (l.flatMap find_resize.out_part).prod = (l.map fun p => p.1 * p.2).prod := by
  induction l with
  | nil => rfl
  | cons p rest ih =>
    rw [List.flatMap_cons, List.prod_append, ih, List.map_cons, List.prod_cons]
    congr 1
    unfold find_resize.out_part
    split <;> simp

theorem find_resize.part_length (l : List (Nat × Nat)) :
    (l.flatMap find_resize.out_part).length = (l.flatMap find_resize.in_part).length := by
  induction l with
  | nil => rfl
  | cons p rest ih =>
    rw [List.flatMap_cons, List.flatMap_cons, List.length_append, List.length_append, ih]
    congr 1
    unfold find_resize.out_part find_resize.in_part
    split <;> rfl

theorem find_resize.dim_scales_props (in_lens out_lens : List Nat)
    (h_rank : in_lens.length = out_lens.length)
    (h_multi : (find_resize.is_multi in_lens out_lens).all (fun b => b) = true) :
    (find_resize.dim_scales in_lens out_lens).map Prod.fst = in_lens
      ∧ (find_resize.dim_scales in_lens out_lens).map (fun p => p.1 * p.2) = out_lens
      ∧ (find_resize.dim_scales in_lens out_lens).map Prod.snd
          = find_resize.scales in_lens out_lens := by
  induction in_lens generalizing out_lens with
  | nil =>
    cases out_lens with
    | nil => simp [find_resize.dim_scales, find_resize.scales]
    | cons _ _ => simp at h_rank
  | cons x xs ih =>
    cases out_lens with
    | nil => simp at h_rank
    | cons y ys =>
      simp only [List.length_cons, Nat.add_right_cancel_iff] at h_rank
      simp only [find_resize.is_multi, List.zipWith_cons_cons, List.all_cons,
        Bool.and_eq_true, decide_eq_true_eq] at h_multi
      obtain ⟨e1, e2, e3⟩ := ih ys h_rank h_multi.2
      simp only [find_resize.dim_scales, find_resize.scales, List.zipWith_cons_cons,
        List.map_cons] at e1 e2 e3 ⊢
      refine ⟨by rw [e1], ?_, by rw [e3]⟩
      rw [e2, Nat.mul_div_cancel' (Nat.dvd_of_mod_eq_zero h_multi.1)]
/-! ### Resize: the index of a broadcast element -/

theorem find_resize.broadcast_index (l : List (Nat × Nat)) (hs : ∀ p ∈ l, 0 < p.2) (i : Nat)
    (hi : i < (l.map fun p => p.1 * p.2).prod) :
    (List.zipWith (· * ·) (multi_of (l.flatMap find_resize.out_part) i)
        (List.zipWith (fun (o : Nat) (ls : Nat × Nat) => if o = ls.1 then ls.2 else 0)
          (l.flatMap find_resize.out_part)
          ((l.flatMap find_resize.in_part).zip
            (standard_strides (l.flatMap find_resize.in_part))))).sum
      = (List.zipWith (· * ·)
          (List.zipWith (· / ·) (multi_of (l.map fun p => p.1 * p.2) i) (l.map Prod.snd))
          (standard_strides (l.map Prod.fst))).sum := by
  induction l generalizing i with
  | nil => rfl
  | cons p rest ih =>
    obtain ⟨d, s⟩ := p
    have hs0 : 0 < s := hs (d, s) (List.mem_cons_self _ _)
    have hrest : ∀ q ∈ rest, 0 < q.2 := fun q hq => hs q (List.mem_cons_of_mem _ hq)
    have hOD := find_resize.out_part_prod rest
    have hID := find_resize.in_part_prod rest
    simp only [List.map_cons, List.prod_cons] at hi
    have hP : 0 < (rest.map fun p => p.1 * p.2).prod := by
      rcases Nat.eq_zero_or_pos (rest.map fun p => p.1 * p.2).prod with h0 | h0
      · rw [h0] at hi
        simp at hi
      · exact h0
    have hrem : i % (rest.map fun p => p.1 * p.2).prod < (rest.map fun p => p.1 * p.2).prod :=
      Nat.mod_lt _ hP
    have ih1 := ih hrest _ hrem
    by_cases h : d = 1 ∨ s = 1
    · simp only [List.flatMap_cons, find_resize.out_part, find_resize.in_part, h, if_true,
        List.singleton_append, multi_of, standard_strides, List.zip_cons_cons,
        List.zipWith_cons_cons, List.sum_cons, List.map_cons, hOD, hID]
      rw [ih1]
      congr 1
      rcases h with h | h
      · subst h
        have : i / (rest.map fun p => p.1 * p.2).prod < s := by
          rw [Nat.div_lt_iff_lt_mul hP]
          simpa using hi
        by_cases hs1 : s = 1
        · subst hs1
          simp
        · have e : ¬ (1 * s = 1) := by simpa using hs1
          rw [if_neg e, Nat.div_eq_of_lt this, Nat.zero_mul, Nat.mul_zero]
      · subst h
        simp
    · have hd : ¬ d = 1 := fun e => h (Or.inl e)
      have hs1 : ¬ s = 1 := fun e => h (Or.inr e)
      simp only [List.flatMap_cons, find_resize.out_part, find_resize.in_part, h, if_false,
        List.cons_append, List.nil_append, multi_of, standard_strides, List.zip_cons_cons,
        List.zipWith_cons_cons, List.sum_cons, List.map_cons, List.prod_cons, hOD, hID]
      rw [Nat.mod_mul_left_mod, ih1]
      simp only [hs1, if_false, if_true, Nat.mul_zero, Nat.zero_add, Nat.one_mul]
      congr 1
      rw [Nat.div_div_eq_div_mul, Nat.mul_comm s]
/-! ### Multi-indices of a standard shape -/

theorem multi_of_lt (lens : List Nat) (i : Nat) (hi : i < lens.prod) :
    List.Forall₂ (· < ·) (multi_of lens i) lens := by
  induction lens generalizing i with
  | nil => exact List.Forall₂.nil
  | cons l rest ih =>
    rw [List.prod_cons] at hi
    have hP : 0 < rest.prod := by
      rcases Nat.eq_zero_or_pos rest.prod with h0 | h0
      · rw [h0] at hi
        simp at hi
      · exact h0
    refine List.Forall₂.cons ?_ (ih _ (Nat.mod_lt _ hP))
    rw [Nat.div_lt_iff_lt_mul hP]
    exact hi

theorem multi_of_index (lens idx : List Nat) (h : List.Forall₂ (· < ·) idx lens) :
    (List.zipWith (· * ·) idx (standard_strides lens)).sum < lens.prod
      ∧ multi_of lens (List.zipWith (· * ·) idx (standard_strides lens)).sum = idx := by
  induction h with
  | nil => simp [standard_strides, multi_of]
  | @cons a l as rest hal _ ih =>
    obtain ⟨h1, h2⟩ := ih
    have hP : 0 < rest.prod := Nat.lt_of_le_of_lt (Nat.zero_le _) h1
    simp only [standard_strides, List.zipWith_cons_cons, List.sum_cons, List.prod_cons, multi_of]
    refine ⟨?_, ?_⟩
    · calc a * rest.prod + (List.zipWith (· * ·) as (standard_strides rest)).sum
          < a * rest.prod + rest.prod := Nat.add_lt_add_left h1 _
        _ = (a + 1) * rest.prod := by rw [Nat.add_mul, Nat.one_mul]
        _ ≤ l * rest.prod := Nat.mul_le_mul_right _ hal
    · have e1 : (a * rest.prod + (List.zipWith (· * ·) as (standard_strides rest)).sum)
          / rest.prod = a := by
        rw [Nat.mul_comm, Nat.mul_add_div hP, Nat.div_eq_of_lt h1, Nat.add_zero]
      have e2 : (a * rest.prod + (List.zipWith (· * ·) as (standard_strides rest)).sum)
          % rest.prod = (List.zipWith (· * ·) as (standard_strides rest)).sum := by
        rw [Nat.mul_comm, Nat.mul_add_mod, Nat.mod_eq_of_lt h1]
      rw [e1, e2, h2]

theorem block_corner_lt (l : List (Nat × Nat)) (idx : List Nat)
    (h : List.Forall₂ (· < ·) idx (l.map fun p => p.1 * p.2)) :
    List.Forall₂ (· < ·) (List.zipWith (fun io scale => io - io % scale) idx (l.map Prod.snd))
      (l.map fun p => p.1 * p.2) := by
  induction l generalizing idx with
  | nil =>
    cases h
    exact List.Forall₂.nil
  | cons p rest ih =>
    cases h with
    | cons h1 h2 =>
      simp only [List.map_cons, List.zipWith_cons_cons]
      exact List.Forall₂.cons (Nat.lt_of_le_of_lt (Nat.sub_le _ _) h1) (ih _ h2)

theorem block_corner_div (idx scales : List Nat) :
    List.zipWith (· / ·) (List.zipWith (fun io scale => io - io % scale) idx scales) scales
      = List.zipWith (· / ·) idx scales := by
  induction idx generalizing scales with
  | nil => simp
  | cons a as ih =>
    cases scales with
    | nil => simp
    | cons s ss =>
      simp only [List.zipWith_cons_cons, ih]
      congr 1
      rcases Nat.eq_zero_or_pos s with h0 | h0
      · subst h0
        simp
      · have : a - a % s = s * (a / s) := by
          have := Nat.div_add_mod a s
          omega
        rw [this, Nat.mul_div_cancel_left _ h0]
/-! ### C7 -/

theorem find_resize.scales_pos (in_lens out_lens : List Nat)
    (h_rank : in_lens.length = out_lens.length) (h_out : ∀ d ∈ out_lens, 0 < d)
    (h_multi : (find_resize.is_multi in_lens out_lens).all (fun b => b) = true) :
    ∀ p ∈ find_resize.dim_scales in_lens out_lens, 0 < p.2 := by
  induction in_lens generalizing out_lens with
  | nil => simp [find_resize.dim_scales]
  | cons x xs ih =>
    cases out_lens with
    | nil => simp at h_rank
    | cons y ys =>
      simp only [List.length_cons, Nat.add_right_cancel_iff] at h_rank
      simp only [find_resize.is_multi, List.zipWith_cons_cons, List.all_cons,
        Bool.and_eq_true, decide_eq_true_eq] at h_multi
      have hy : 0 < y := h_out y (List.mem_cons_self _ _)
      have hys : ∀ d ∈ ys, 0 < d := fun d hd => h_out d (List.mem_cons_of_mem _ hd)
      intro p hp
      simp only [find_resize.dim_scales, List.zipWith_cons_cons, List.mem_cons] at hp
      rcases hp with rfl | hp
      · have hx : 0 < x := by
          rcases Nat.eq_zero_or_pos x with h0 | h0
          · subst h0
            simp at h_multi
            omega
          · exact h0
        exact Nat.div_pos (Nat.le_of_dvd hy (Nat.dvd_of_mod_eq_zero h_multi.1)) hx
      · exact ih ys h_rank hys h_multi.2 p hp

theorem getD_map_range {β : Type} (f : Nat → β) (n i : Nat) (d : β) (h : i < n) :
    ((List.range n).map f).getD i d = f i := by
  simp [List.getD_eq_getElem?_getD, h]

theorem nearest_indices_getD (in_lens out_lens : List Nat) (i : Nat) (h : i < out_lens.prod) :
    (nearest_indices in_lens out_lens).getD i 0 =
      Int.ofNat ((List.zipWith (· * ·)
        (List.zipWith (· / ·) (multi_of out_lens i) (find_resize.scales in_lens out_lens))
        (standard_strides in_lens)).sum) := by
  unfold nearest_indices
  rw [getD_map_range _ _ _ _ h]
  rfl

theorem find_resize.index_check_nearest (type : Nat) (in_lens out_lens : List Nat)
    (h_rank : in_lens.length = out_lens.length)
    (h_multi : (find_resize.is_multi in_lens out_lens).all (fun b => b) = true) :
    find_resize.index_check (shape.from_lens type out_lens)
      (find_resize.scales in_lens out_lens)
      ((nearest_indices in_lens out_lens).map to_int32) = true := by
  obtain ⟨-, e2, e3⟩ := find_resize.dim_scales_props in_lens out_lens h_rank h_multi
  simp only [find_resize.index_check, List.all_eq_true, List.mem_range, decide_eq_true_eq,
    shape.elements, shape.from_lens, shape.multi, shape.index]
  intro i hi
  have hlt := multi_of_lt out_lens i hi
  have hcorner : List.Forall₂ (· < ·)
      (List.zipWith (fun io scale => io - io % scale) (multi_of out_lens i)
        (find_resize.scales in_lens out_lens)) out_lens := by
    have := block_corner_lt (find_resize.dim_scales in_lens out_lens) (multi_of out_lens i)
      (by rw [e2]; exact hlt)
    rw [e2, e3] at this
    exact this
  obtain ⟨hj, hmulti⟩ := multi_of_index out_lens _ hcorner
  have hlen : (nearest_indices in_lens out_lens).length = out_lens.prod := by
    simp [nearest_indices]
  rw [List.getD_eq_getElem?_getD, List.getD_eq_getElem?_getD, List.getElem?_map,
    List.getElem?_map, List.getElem?_eq_getElem (by rw [hlen]; exact hi),
    List.getElem?_eq_getElem (by rw [hlen]; exact hj)]
  simp only [Option.map_some', Option.getD_some]
  congr 1
  have a1 := nearest_indices_getD in_lens out_lens i hi
  have a2 := nearest_indices_getD in_lens out_lens _ hj
  rw [List.getD_eq_getElem _ _ (by rw [hlen]; exact hi)] at a1
  rw [List.getD_eq_getElem _ _ (by rw [hlen]; exact hj)] at a2
  rw [a1, a2, hmulti, block_corner_div]

/-- C7: for the nearest-neighbour index vector of a resize from `in_lens` to `out_lens`,
the index check of `find_resize` passes, and the chain
`reshape(in_dims) -> multibroadcast(out_dims) -> contiguous -> reshape(out_lens)` evaluates
to the same tensor as the gather, for every content of `x`; on a rank-2 tensor of lengths
`[2,3]` scaled 2x along the first axis the rewritten graph evaluates to the value of the
gather. -/
theorem C7_resize_nearest_sound {α : Type} [Inhabited α] (type : Nat)
    (in_lens out_lens : List Nat) (xdata : List α)
    (h_rank : in_lens.length = out_lens.length) (h_out : ∀ d ∈ out_lens, 0 < d)
    (h_multi : (find_resize.is_multi in_lens out_lens).all (fun b => b) = true) :
    find_resize.index_check (shape.from_lens type out_lens)
        (find_resize.scales in_lens out_lens)
        ((nearest_indices in_lens out_lens).map to_int32) = true
      ∧ eval_reshape out_lens (eval_contiguous (eval_multibroadcast
          (find_resize.dims (find_resize.dim_scales in_lens out_lens)).2
          (eval_reshape (find_resize.dims (find_resize.dim_scales in_lens out_lens)).1
            { get_shape := shape.from_lens type in_lens, data := xdata })))
        = eval_gather
            (eval_reshape [in_lens.prod]
              { get_shape := shape.from_lens type in_lens, data := xdata })
            out_lens (nearest_indices in_lens out_lens)
      ∧ nearest_resize_module.run resize_params 10 3
          = some { get_shape := shape.from_lens 0 [4, 3],
                   data := [1, 2, 3, 1, 2, 3, 4, 5, 6, 4, 5, 6] }
      ∧ (find_resize.apply op_compute_shape nearest_resize_module
            { result := 3, instructions := [("data", 1), ("ind", 2)] }).map
          (fun m1 => (m1.returns, m1.run resize_params 10 7))
          = .ok ([7], nearest_resize_module.run resize_params 10 3) := by
  refine ⟨find_resize.index_check_nearest type in_lens out_lens h_rank h_multi, ?_, by rfl,
    by rfl⟩
  obtain ⟨e1, e2, e3⟩ := find_resize.dim_scales_props in_lens out_lens h_rank h_multi
  have hs := find_resize.scales_pos in_lens out_lens h_rank h_out h_multi
  have hprod := find_resize.out_part_prod (find_resize.dim_scales in_lens out_lens)
  rw [e2] at hprod
  have hlen := find_resize.part_length (find_resize.dim_scales in_lens out_lens)
  simp only [eval_reshape, eval_contiguous, eval_multibroadcast, eval_gather,
    find_resize.dims_eq, argument.elements, shape.elements, shape.from_lens, hprod,
    argument.mk.injEq, true_and]
  apply List.map_congr_left
  intro i hi
  have hi1 : i < out_lens.prod := List.mem_range.mp hi
  have hcore := find_resize.broadcast_index (find_resize.dim_scales in_lens out_lens) hs i
    (by rw [e2]; exact hi1)
  rw [e1, e2, e3] at hcore
  rw [nearest_indices_getD in_lens out_lens i hi1]
  simp only [argument.element, shape.index, shape.multi, broadcast_strides, hlen, Nat.sub_self,
    List.replicate_zero, List.nil_append, List.drop_zero, hcore, multi_of, standard_strides,
    List.prod_nil, Nat.div_one, List.zipWith_cons_cons, List.zipWith_nil_right, List.sum_cons,
    List.sum_nil, Nat.mul_one, Nat.add_zero, Int.ofNat_eq_coe, Int.toNat_ofNat]
  generalize (List.zipWith (· * ·)
      (List.zipWith (· / ·) (multi_of out_lens i) (find_resize.scales in_lens out_lens))
      (standard_strides in_lens)).sum = k
  have hk : ¬ ((k : Int) < 0) := by omega
  rw [if_neg hk, Int.toNat_ofNat]

/-- C7 at `x = [[1,2,3],[4,5,6]]` resized to lengths `[4,3]`. -/
theorem C7_resize_nearest_sound_witness :
    find_resize.index_check (shape.from_lens 0 [4, 3]) (find_resize.scales [2, 3] [4, 3])
        ((nearest_indices [2, 3] [4, 3]).map to_int32) = true
      ∧ eval_reshape [4, 3] (eval_contiguous (eval_multibroadcast
          (find_resize.dims (find_resize.dim_scales [2, 3] [4, 3])).2
          (eval_reshape (find_resize.dims (find_resize.dim_scales [2, 3] [4, 3])).1
            { get_shape := shape.from_lens 0 [2, 3], data := ([1, 2, 3, 4, 5, 6] : List Int) })))
        = eval_gather
            (eval_reshape [[2, 3].prod]
              { get_shape := shape.from_lens 0 [2, 3], data := ([1, 2, 3, 4, 5, 6] : List Int) })
            [4, 3] (nearest_indices [2, 3] [4, 3]) :=
  ⟨(C7_resize_nearest_sound 0 [2, 3] [4, 3] ([1, 2, 3, 4, 5, 6] : List Int) (by decide)
      (by decide) (by decide)).1,
   (C7_resize_nearest_sound 0 [2, 3] [4, 3] ([1, 2, 3, 4, 5, 6] : List Int) (by decide)
      (by decide) (by decide)).2.1⟩
/-! ### C11 -/

theorem nested_concat_leaves_value {α : Type} (m : module) (axis : Nat)
    (val : instruction_ref → List α)
    (h_val : ∀ i, m.name i = "concat" → find_nested_concat.get_axis m i = axis →
      val i = (m.inputs i).flatMap val)
    (ops leaves : List instruction_ref) (h : nested_concat_leaves m axis ops leaves) :
    leaves.flatMap val = ops.flatMap val := by
  induction h with
  | nil => rfl
  | flatten i rest inner tail hn ha _ _ _ ih1 ih2 =>
    rw [List.flatMap_append, ih1, ih2, List.flatMap_cons, h_val i hn ha]
  | keep i rest tail _ _ ih =>
    rw [List.flatMap_cons, List.flatMap_cons, ih]

theorem nested_concat_leaves_exist (m : module) (axis : Nat) (rank : instruction_ref → Nat)
    (h_rank : ∀ r a, a ∈ m.inputs r → rank a < rank r) (bound : Nat) :
    ∀ ops : List instruction_ref, (∀ a ∈ ops, rank a < bound) →
      ∃ leaves, nested_concat_leaves m axis ops leaves := by
  induction bound with
  | zero =>
    intro ops h
    cases ops with
    | nil => exact ⟨[], nested_concat_leaves.nil⟩
    | cons a _ => exact absurd (h a (List.mem_cons_self _ _)) (Nat.not_lt_zero _)
  | succ b ihb =>
    intro ops
    induction ops with
    | nil => exact fun _ => ⟨[], nested_concat_leaves.nil⟩
    | cons i rest ih =>
      intro h
      obtain ⟨tail, htail⟩ := ih fun a ha => h a (List.mem_cons_of_mem _ ha)
      by_cases hq : m.name i = "concat" ∧ find_nested_concat.get_axis m i = axis ∧
          (m.outputs i).length = 1
      · have hi : rank i < b + 1 := h i (List.mem_cons_self _ _)
        obtain ⟨inner, hinner⟩ := ihb (m.inputs i) fun a ha =>
          Nat.lt_of_lt_of_le (h_rank i a ha) (Nat.le_of_lt_succ hi)
        exact ⟨inner ++ tail,
          nested_concat_leaves.flatten i rest inner tail hq.1 hq.2.1 hq.2.2 hinner htail⟩
      · exact ⟨i :: tail, nested_concat_leaves.keep i rest tail hq htail⟩

/-- C11: with concat along the shared axis read as list append, on every acyclic graph the
walk of `find_nested_concat::apply` terminates, and the concatenation of the operand list
it produces equals the value of the original nested concat, whichever inner concats
qualify for flattening. -/
theorem C11_nested_concat_value {α : Type}
    (compute_shape : operation → List shape → Option shape) (m : module)
    (ins : instruction_ref) (val : instruction_ref → List α)
    (h_acyclic : m.acyclic) (h_root : m.name ins = "concat")
    (h_val : ∀ i, m.name i = "concat" →
      find_nested_concat.get_axis m i = find_nested_concat.get_axis m ins →
      val i = (m.inputs i).flatMap val) :
    ∃ leaves,
      (∃ n, ∀ fuel, n ≤ fuel →
        find_nested_concat.apply compute_shape fuel m { result := ins } =
          m.replace_instruction_op compute_shape ins (m.get_operator ins) leaves)
      ∧ leaves.flatMap val = val ins := by
  obtain ⟨rank, h_rank⟩ := h_acyclic
  obtain ⟨leaves, hl⟩ := nested_concat_leaves_exist m (find_nested_concat.get_axis m ins) rank
    h_rank (rank ins) (m.inputs ins) (fun a ha => h_rank ins a ha)
  obtain ⟨n, hn⟩ := find_nested_concat.walk_of_leaves m _ _ _ hl
  refine ⟨leaves, ⟨n, ?_⟩, ?_⟩
  · intro fuel hf
    simp [find_nested_concat.apply, hn fuel hf []]
  · rw [nested_concat_leaves_value m _ val h_val _ _ hl, h_val ins h_root rfl]

theorem module.absent (m : module) (r : instruction_ref)
    (h : r ∉ m.instructions.map Prod.fst) : m.get r = none := by
  have := (module.has_instruction_iff m r).not.mpr h
  simpa [module.has_instruction] using this

theorem nested_concat_module_absent (r : Nat) (h : 7 ≤ r) :
    nested_concat_module.get r = none := by
  apply module.absent
  simp only [nested_concat_module, List.map_cons, List.map_nil, List.mem_cons,
    List.mem_singleton, List.not_mem_nil, or_false]
  rintro (rfl | rfl | rfl | rfl | rfl | rfl | rfl) <;> exact absurd h (by decide)

/-- C11 at the graph `concat(axis 1)(a, concat(axis 1)(b, c), d)` with the values
`[1]`, `[2,3]`, `[4]`, `[5]` of `a`, `b`, `c`, `d`. -/
theorem C11_nested_concat_value_witness :
    ∃ leaves,
      (∃ n, ∀ fuel, n ≤ fuel →
        find_nested_concat.apply op_compute_shape fuel nested_concat_module { result := 5 } =
          nested_concat_module.replace_instruction_op op_compute_shape 5
            (nested_concat_module.get_operator 5) leaves)
      ∧ leaves.flatMap nested_concat_values = nested_concat_values 5 :=
  C11_nested_concat_value op_compute_shape nested_concat_module 5 nested_concat_values
    ⟨fun r => r, by
      intro (r : Nat) (a : Nat) h
      by_cases hr : r < 7
      · interval_cases r <;> revert h <;> revert a <;> decide
      · simp [module.inputs, nested_concat_module_absent r (by omega)] at h⟩
    (by decide)
    (by
      intro (i : Nat) hn _
      by_cases hi : i < 7
      · interval_cases i <;> first | rfl | exact absurd hn (by decide)
      · simp [module.name, nested_concat_module_absent i (by omega)] at hn)

/-! ### C12 -/

theorem convert_value_of_range (t : Nat) (v : Int) (ht : t ≠ 0)
    (h1 : -(2 : Int) ^ (t - 1) ≤ v) (h2 : v < (2 : Int) ^ (t - 1)) : convert_value t v = v := by
  have hpow : (2 : Int) ^ t = 2 * 2 ^ (t - 1) := by
    obtain ⟨k, rfl⟩ : ∃ k, t = k + 1 := ⟨t - 1, by omega⟩
    simp [pow_succ, mul_comm]
  unfold convert_value
  rw [if_neg ht, Int.emod_eq_of_lt (by omega) (by omega)]
  omega

theorem range_of_convert_value (t : Nat) (v : Int) (ht : t ≠ 0) (h : convert_value t v = v) :
    -(2 : Int) ^ (t - 1) ≤ v ∧ v < (2 : Int) ^ (t - 1) := by
  have hpow : (2 : Int) ^ t = 2 * 2 ^ (t - 1) := by
    obtain ⟨k, rfl⟩ : ∃ k, t = k + 1 := ⟨t - 1, by omega⟩
    simp [pow_succ, mul_comm]
  have hpos : (0 : Int) < 2 ^ t := by positivity
  unfold convert_value at h
  rw [if_neg ht] at h
  have a1 := Int.emod_nonneg (v + 2 ^ (t - 1)) (ne_of_gt hpos)
  have a2 := Int.emod_lt_of_pos (v + 2 ^ (t - 1)) hpos
  omega

theorem convert_value_round_trip (t_x t_mid : Nat) (v : Int)
    (h_wide : t_mid = 0 ∨ (t_x ≠ 0 ∧ t_x ≤ t_mid)) (h_v : convert_value t_x v = v) :
    convert_value t_x (convert_value t_mid v) = v := by
  rcases h_wide with h0 | ⟨hx, hle⟩
  · subst h0
    simpa [convert_value] using h_v
  · obtain ⟨r1, r2⟩ := range_of_convert_value t_x v hx h_v
    have hmono : (2 : Int) ^ (t_x - 1) ≤ 2 ^ (t_mid - 1) :=
      pow_le_pow_right₀ (by norm_num) (by omega)
    rw [convert_value_of_range t_mid v (by omega) (by omega) (by omega)]
    exact h_v

/-- C12, refuted as stated: on `convert(convert(x))` from 32 bits through 8 bits back to 32
bits with `x = [300]` the outer shape equals the shape of `x`, so
`find_nested_convert::apply` replaces the outer convert by `x`; the two converts evaluate
to `[44]` and `x` to `[300]`. -/
theorem C12_narrowing_changes_value :
    nested_convert_module.get_shape 2 = nested_convert_module.get_shape 0
      ∧ nested_convert_module.run convert_params 10 2
          = some { get_shape := shape.from_lens 32 [1], data := [44] }
      ∧ (find_nested_convert.apply nested_convert_module { result := 2 }).map
          (fun m1 => (m1.returns, m1.run convert_params 10 0))
          = .ok ([0], some { get_shape := shape.from_lens 32 [1], data := [300] }) := by
  refine ⟨by decide, by rfl, by rfl⟩

/-- C12, amended: `find_nested_convert::apply` replaces `convert(convert(x))` by `x` exactly
when the outer convert's shape, element type included, equals the shape of `x`, and leaves
the module unchanged otherwise; the two forms have the same value for every content of `x`
of its type when the intermediate type is at least as wide as the type of `x` (or holds
every value). -/
theorem C12_nested_convert_sound (m : module) (ins x input : instruction_ref)
    (rest1 rest2 : List instruction_ref)
    (h_ins : m.inputs ins = x :: rest1) (h_x : m.inputs x = input :: rest2) :
    (m.get_shape ins = m.get_shape input →
      find_nested_convert.apply m { result := ins } = m.replace_instruction ins input)
    ∧ (m.get_shape ins ≠ m.get_shape input →
      find_nested_convert.apply m { result := ins } = .ok m)
    ∧ (∀ (t_mid : Nat) (xv : argument Int),
        (t_mid = 0 ∨ (xv.get_shape.type ≠ 0 ∧ xv.get_shape.type ≤ t_mid)) →
        (∀ v ∈ xv.data, convert_value xv.get_shape.type v = v) →
        eval_convert xv.get_shape.type (eval_convert t_mid xv) = xv) := by
  refine ⟨?_, ?_, ?_⟩
  · intro h
    simp [find_nested_convert.apply, h_ins, h_x, front, h]
  · intro h
    simp [find_nested_convert.apply, h_ins, h_x, front, h]
  · intro t_mid xv h_wide h_data
    obtain ⟨s, data⟩ := xv
    simp only [eval_convert, List.map_map, argument.mk.injEq, true_and]
    conv_rhs => rw [← List.map_id data]
    apply List.map_congr_left
    intro v hv
    exact convert_value_round_trip _ _ v h_wide (h_data v hv)

/-- C12 (amended) at `convert(convert(x))` through 8 bits, where the rule replaces, and at
the 8-bit content `[100, -7]` converted through 32 bits. -/
theorem C12_nested_convert_sound_witness :
    find_nested_convert.apply nested_convert_module { result := 2 }
        = nested_convert_module.replace_instruction 2 0
      ∧ eval_convert 8 (eval_convert 32
          { get_shape := shape.from_lens 8 [2], data := [100, -7] })
        = { get_shape := shape.from_lens 8 [2], data := [100, -7] } :=
  ⟨(C12_nested_convert_sound nested_convert_module 2 1 0 [] [] (by decide) (by decide)).1
      (by decide),
   (C12_nested_convert_sound nested_convert_module 2 1 0 [] [] (by decide) (by decide)).2.2 32
      { get_shape := shape.from_lens 8 [2], data := [100, -7] } (Or.inr (by decide))
      (by decide)⟩

/-! ### C13, C14 and C15 -/

/-- C13 fails on `concat(axis 2)(multibroadcast[2,2,1](a), multibroadcast[2,2,1](b))` with
`a = [[1]]`, `b = [[2]]`: the broadcast adds one leading axis (output rank 3, input rank
2), but `find_concat_multibroadcasts::apply` subtracts the two zero strides in front of the
axis and concatenates `a` and `b` along axis 0 instead of axis 1; the concat evaluates to
`[1,2,1,2,1,2,1,2]` and its replacement to `[1,1,2,2,1,1,2,2]`. -/
theorem C13_axis_counts_zero_strides :
    find_concat_multibroadcasts.new_axis 2 (concat_broadcast_module.get_shape 2).strides 2 3 = 0
      ∧ (concat_broadcast_module.run broadcast_params 10 4).map argument.elements
          = some [1, 2, 1, 2, 1, 2, 1, 2]
      ∧ (find_concat_multibroadcasts.apply op_compute_shape concat_broadcast_module
            { result := 4 }).map
          (fun m1 => (m1.returns, m1.get_operator 5, m1.inputs 5, m1.get_operator 6, m1.inputs 6,
            (m1.run broadcast_params 10 6).map argument.elements))
          = .ok ([6], { name := "concat", axis := 0 }, [0, 1],
              { name := "multibroadcast", out_lens := [2, 2, 2] }, [5],
              some [1, 1, 2, 2, 1, 1, 2, 2]) := by
  refine ⟨by decide, by rfl, by rfl⟩

/-- C14: `find_concat_multibroadcasts::apply` makes no change to the module whenever some
operand of the matched concat has stride 0 along the concat axis. -/
theorem C14_broadcast_axis_declines (compute_shape : operation → List shape → Option shape)
    (m : module) (mr : matcher_result) (i : instruction_ref)
    (h_mem : i ∈ m.inputs mr.result)
    (h_stride : (m.get_shape i).strides[to_size (m.get_operator mr.result).axis]? = some 0) :
    find_concat_multibroadcasts.apply compute_shape m mr = .ok m := by
  have h_any : (m.inputs mr.result).any (fun i =>
      decide ((m.get_shape i).strides[to_size (m.get_operator mr.result).axis]? = some 0))
      = true := by
    rw [List.any_eq_true]
    exact ⟨i, h_mem, by simpa using h_stride⟩
  cases h_in : m.inputs mr.result with
  | nil =>
    rw [h_in] at h_mem
    cases h_mem
  | cons a rest =>
    rw [h_in] at h_any
    simp only [find_concat_multibroadcasts.apply, h_in, front, h_any, if_true]

/-- C14 at `concat(axis 0)(multibroadcast[2,3](a), multibroadcast[2,3](b))` with `a`, `b` of
lengths `[1,3]`. -/
theorem C14_broadcast_axis_declines_witness :
    find_concat_multibroadcasts.apply op_compute_shape concat_broadcast_axis_module
      { result := 4 } = .ok concat_broadcast_axis_module :=
  C14_broadcast_axis_declines op_compute_shape concat_broadcast_axis_module { result := 4 } 2
    (by decide) (by decide)

/-- Where `find_concat_multibroadcasts::apply` ends in a shape error: no operand has stride
0 along the concat axis and shape inference fails for the new concat over the inputs of
the multibroadcasts, as it does for operands that differ in rank or in a length off the
axis. -/
theorem find_concat_multibroadcasts.shape_error
    (compute_shape : operation → List shape → Option shape)
    (m : module) (mr : matcher_result) (first first1 : instruction_ref)
    (inputs1 : List instruction_ref)
    (h_first : front (m.inputs mr.result) = .ok first)
    (h_guard : (m.inputs mr.result).any (fun i =>
      decide ((m.get_shape i).strides[to_size (m.get_operator mr.result).axis]? = some 0))
      = false)
    (h_inputs : (m.inputs mr.result).mapM (fun i => front (m.inputs i)) = .ok inputs1)
    (h_first1 : front inputs1 = .ok first1)
    (h_exist : inputs1.all m.has_instruction = true)
    (h_shape : compute_shape
      { m.get_operator mr.result with
        axis := find_concat_multibroadcasts.new_axis (m.get_operator mr.result).axis
          (m.get_shape first).strides (m.get_shape first1).lens.length
          (m.get_shape mr.result).lens.length }
      (inputs1.map m.get_shape) = none) :
    find_concat_multibroadcasts.apply compute_shape m mr = .error .shape_mismatch
      ∧ (∀ (axis : Int) (s r : shape) (rest : List shape), r ∈ rest →
          (r.lens.length ≠ s.lens.length ∨ r.lens.set axis.toNat 0 ≠ s.lens.set axis.toNat 0) →
          concat_shape axis s rest = none) := by
  constructor
  · simp only [find_concat_multibroadcasts.apply, h_first, h_guard, h_inputs, h_first1,
      module.insert_instruction, h_exist, h_shape, if_true, Bool.false_eq_true, if_false]
  · intro axis s r rest hr hne
    unfold concat_shape
    rw [if_neg]
    rintro ⟨_, _, hall⟩
    have := List.all_eq_true.mp hall r hr
    simp only [decide_eq_true_eq] at this
    rcases hne with h | h
    · exact h this.2.1
    · exact h this.2.2

/-- C15 fails on `concat(axis 1)(multibroadcast[2,3](a), multibroadcast[2,3](b))` with `a` of
lengths `[3]` and `b` of lengths `[1,3]`: no operand has stride 0 along the concat axis,
the inputs of the multibroadcasts differ in rank and cannot be concatenated, and
`find_concat_multibroadcasts::apply` does not decline but ends in a shape error. -/
theorem C15_mismatch_raises :
    (concat_mismatch_module.inputs 4).any (fun i =>
        decide ((concat_mismatch_module.get_shape i).strides[to_size 1]? = some 0)) = false
      ∧ op_compute_shape { name := "concat", axis := 0 }
          [concat_mismatch_module.get_shape 0, concat_mismatch_module.get_shape 1] = none
      ∧ find_concat_multibroadcasts.apply op_compute_shape concat_mismatch_module
          { result := 4 } = .error .shape_mismatch := by
  refine ⟨by decide, by decide, by rfl⟩

/-! ### Permutations and their inverse -/

theorem iota_length (n : Nat) : (iota n).length = n := by
  simp [iota]

theorem iota_nodup (n : Nat) : (iota n).Nodup := by
  unfold iota
  exact List.Nodup.map (fun a b h => by simpa using h) (List.nodup_range n)

theorem mem_iota (n : Nat) (x : Int) : x ∈ iota n ↔ 0 ≤ x ∧ x < n := by
  simp only [iota, List.mem_map, List.mem_range, Int.ofNat_eq_coe]
  constructor
  · rintro ⟨k, hk, rfl⟩
    omega
  · rintro ⟨h1, h2⟩
    exact ⟨x.toNat, by omega, by omega⟩

theorem perm_iota_length (n : Nat) (p : List Int) (h : p.Perm (iota n)) : p.length = n := by
  rw [h.length_eq, iota_length]

theorem perm_iota_index_vector (n : Nat) (p : List Int) (h : p.Perm (iota n)) :
    index_vector n p :=
  ⟨perm_iota_length n p h, fun a ha => (mem_iota n a).mp (h.mem_iff.mp ha)⟩

theorem perm_iota_mem (n : Nat) (p : List Int) (h : p.Perm (iota n)) (k : Nat) (hk : k < n) :
    (k : Int) ∈ p :=
  h.mem_iff.mpr ((mem_iota n k).mpr ⟨by omega, by omega⟩)

theorem perm_iota_nodup (n : Nat) (p : List Int) (h : p.Perm (iota n)) : p.Nodup :=
  h.nodup_iff.mpr (iota_nodup n)

theorem invert_permutation_length (p : List Int) : (invert_permutation p).length = p.length := by
  simp [invert_permutation]

theorem invert_permutation_getD (p : List Int) (k : Nat) (hk : k < p.length) :
    (invert_permutation p).getD k 0 = Int.ofNat (p.indexOf (k : Int)) := by
  unfold invert_permutation
  rw [getD_map_range _ _ _ _ hk]
  rfl

/-- The position of `k` in a permutation of `0 .. n-1`: in bounds, holding `k`, and the
only position that does. -/
theorem perm_iota_indexOf (n : Nat) (p : List Int) (h : p.Perm (iota n)) (k : Nat)
    (hk : k < n) :
    p.indexOf (k : Int) < n ∧ p.getD (p.indexOf (k : Int)) 0 = k
      ∧ ∀ j, j < n → p.getD j 0 = k → j = p.indexOf (k : Int) := by
  have hlen := perm_iota_length n p h
  have hmem := perm_iota_mem n p h k hk
  have hlt : p.indexOf (k : Int) < p.length := List.indexOf_lt_length.mpr hmem
  refine ⟨hlen ▸ hlt, ?_, ?_⟩
  · rw [List.getD_eq_getElem _ _ hlt]
    exact List.getElem_indexOf hlt
  · intro j hj hjk
    have hj' : j < p.length := hlen ▸ hj
    rw [List.getD_eq_getElem _ _ hj'] at hjk
    rw [← hjk]
    exact (List.indexOf_getElem (perm_iota_nodup n p h) j hj').symm

theorem invert_permutation_index_vector (n : Nat) (p : List Int) (h : p.Perm (iota n)) :
    index_vector n (invert_permutation p) := by
  have hlen := perm_iota_length n p h
  refine ⟨by rw [invert_permutation_length, hlen], ?_⟩
  intro a ha
  simp only [invert_permutation, List.mem_map, List.mem_range] at ha
  obtain ⟨k, hk, rfl⟩ := ha
  have := (perm_iota_indexOf n p h k (hlen ▸ hk)).1
  simp only [Int.ofNat_eq_coe]
  omega

theorem find_permutation_perm (s : shape) :
    (find_permutation s).Perm (iota s.lens.length) :=
  List.perm_insertionSort _ _

theorem reorder_invert_permutation {α : Type} [Inhabited α] (n : Nat) (p : List Int)
    (v : List α) (h : p.Perm (iota n)) (hv : v.length = n) :
    reorder_dims (reorder_dims v p) (invert_permutation p) = v := by
  have hlen := perm_iota_length n p h
  apply List.ext_getElem
  · simp [reorder_dims]
  · intro k h1 h2
    have hk : k < n := hv ▸ h2
    obtain ⟨i1, i2, -⟩ := perm_iota_indexOf n p h k hk
    have e1 := reorder_dims_getD (reorder_dims v p) (invert_permutation p) k
      (by rw [reorder_dims_length]; exact h2)
    rw [List.getD_eq_getElem _ _ h1] at e1
    rw [e1, invert_permutation_getD p k (hlen ▸ hk)]
    simp only [Int.ofNat_eq_coe, Int.toNat_ofNat]
    rw [reorder_dims_getD v p _ (by rw [hv]; exact i1), i2]
    simp only [Int.toNat_ofNat]
    exact List.getD_eq_getElem _ _ h2
/-! ### C16 -/

theorem tune_axis_ok (n_dim axis a : Int) (h : tune_axis n_dim axis = .ok a) :
    0 ≤ a ∧ a < n_dim ∧ (a = axis ∨ (axis < 0 ∧ a = axis + n_dim)) := by
  unfold tune_axis at h
  split at h
  · cases h
  · rename_i hr
    simp only [Except.ok.injEq] at h
    split at h <;> omega

/-- C16: with `p = find_permutation` of the first operand's shape and `a` the concat axis
normalised into `[0, rank)`, `find_concat_transpose::apply` gives the new concat over the
operands re-transposed by `p` the axis `j = invert_permutation(p)[a]`, which is in bounds
and the only index with `p[j] = a`; it makes no change when some operand's shape has
another permutation than the first operand's. -/
theorem C16_concat_transpose_axis (compute_shape : operation → List shape → Option shape)
    (m : module) (mr : matcher_result) (first : instruction_ref)
    (rest : List instruction_ref) (h_in : m.inputs mr.result = first :: rest) :
    (∀ a, tune_axis (Int.ofNat (m.get_shape first).lens.length)
        (m.get_operator mr.result).axis = .ok a →
      (0 ≤ a ∧ a < (m.get_shape first).lens.length
        ∧ (a = (m.get_operator mr.result).axis
          ∨ ((m.get_operator mr.result).axis < 0
            ∧ a = (m.get_operator mr.result).axis + (m.get_shape first).lens.length)))
      ∧ (0 ≤ (invert_permutation (find_permutation (m.get_shape first))).getD a.toNat 0
        ∧ (invert_permutation (find_permutation (m.get_shape first))).getD a.toNat 0
            < (m.get_shape first).lens.length
        ∧ (find_permutation (m.get_shape first)).getD
            ((invert_permutation (find_permutation (m.get_shape first))).getD a.toNat 0).toNat 0
            = a
        ∧ ∀ k, k < (m.get_shape first).lens.length →
            (find_permutation (m.get_shape first)).getD k 0 = a →
            (k : Int) = (invert_permutation (find_permutation (m.get_shape first))).getD
              a.toNat 0)
      ∧ ((∀ i ∈ m.inputs mr.result,
            find_permutation (m.get_shape i) = find_permutation (m.get_shape first)) →
          find_concat_transpose.apply compute_shape m mr =
            find_concat_transpose.rewrite compute_shape m mr.result
              (find_permutation (m.get_shape first))
              (invert_permutation (find_permutation (m.get_shape first)))
              { m.get_operator mr.result with
                axis := (invert_permutation (find_permutation (m.get_shape first))).getD
                  a.toNat 0 }))
    ∧ (∀ i ∈ m.inputs mr.result,
        find_permutation (m.get_shape i) ≠ find_permutation (m.get_shape first) →
        find_concat_transpose.apply compute_shape m mr = .ok m) := by
  have hperm := find_permutation_perm (m.get_shape first)
  have hlen := perm_iota_length _ _ hperm
  constructor
  · intro a ha
    obtain ⟨a0, a1, a2⟩ := tune_axis_ok _ _ _ ha
    simp only [Int.ofNat_eq_coe] at a0 a1 a2
    have hk : a.toNat < (m.get_shape first).lens.length := by omega
    have hak : ((a.toNat : Nat) : Int) = a := by omega
    obtain ⟨i1, i2, i3⟩ := perm_iota_indexOf _ _ hperm a.toNat hk
    rw [hak] at i1 i2 i3
    have hj := invert_permutation_getD (find_permutation (m.get_shape first)) a.toNat
      (hlen ▸ hk)
    rw [hak] at hj
    refine ⟨⟨a0, a1, a2⟩, ?_, ?_⟩
    · rw [hj]
      simp only [Int.ofNat_eq_coe, Int.toNat_ofNat]
      refine ⟨by omega, by omega, i2, ?_⟩
      intro k hk1 hk2
      rw [i3 k hk1 hk2]
    · intro hall
      have hall' : (m.inputs mr.result).all (fun i =>
          decide (find_permutation (m.get_shape i) = find_permutation (m.get_shape first)))
          = true := by
        rw [List.all_eq_true]
        intro i hi
        simpa using hall i hi
      rw [h_in] at hall'
      simp only [find_concat_transpose.apply, h_in, front, hall', Bool.not_true,
        Bool.false_eq_true, if_false, ha]
  · intro i hi hne
    have hall' : (m.inputs mr.result).all (fun i =>
        decide (find_permutation (m.get_shape i) = find_permutation (m.get_shape first)))
        = false := by
      rw [List.all_eq_false]
      exact ⟨i, hi, by simpa using hne⟩
    rw [h_in] at hall'
    simp only [find_concat_transpose.apply, h_in, front, hall', Bool.not_false, if_true]

/-- C16 at `concat(axis -1)(transpose[0,2,1](a), transpose[0,2,1](b))`, whose new concat
runs along axis 1, and at a concat of transposes with different permutations, which is
left alone. -/
theorem C16_concat_transpose_axis_witness :
    (invert_permutation (find_permutation (concat_transpose_module.get_shape 2))).getD
        (2 : Int).toNat 0 = 1
      ∧ find_concat_transpose.apply op_compute_shape concat_transpose_module { result := 4 } =
          find_concat_transpose.rewrite op_compute_shape concat_transpose_module 4
            (find_permutation (concat_transpose_module.get_shape 2))
            (invert_permutation (find_permutation (concat_transpose_module.get_shape 2)))
            { concat_transpose_module.get_operator 4 with
              axis := (invert_permutation
                (find_permutation (concat_transpose_module.get_shape 2))).getD
                  (2 : Int).toNat 0 }
      ∧ find_concat_transpose.apply op_compute_shape concat_mixed_transpose_module
          { result := 4 } = .ok concat_mixed_transpose_module :=
  ⟨by decide,
   ((C16_concat_transpose_axis op_compute_shape concat_transpose_module { result := 4 } 2 [3]
      (by decide)).1 2 (by rfl)).2.2 (by decide),
   (C16_concat_transpose_axis op_compute_shape concat_mixed_transpose_module { result := 4 } 2
      [3] (by decide)).2 3 (by decide) (by decide)⟩

/-! ### C17 -/

theorem foldl_add_congr {β : Type} (f g : β → Nat) (xs : List β)
    (h : ∀ x ∈ xs, f x = g x) (init : Nat) :
    xs.foldl (fun n r => n + f r) init = xs.foldl (fun n r => n + g r) init := by
  induction xs generalizing init with
  | nil => rfl
  | cons x rest ih =>
    rw [List.foldl_cons, List.foldl_cons, h x (List.mem_cons_self _ _)]
    exact ih (fun y hy => h y (List.mem_cons_of_mem _ hy)) _

theorem concat_lens_reordered (n : Nat) (p : List Int) (h : p.Perm (iota n)) (a : Nat)
    (ha : a < n) (l : List Nat) (ls : List (List Nat)) (hl : ∀ x ∈ l :: ls, x.length = n) :
    reorder_dims
        (concat_lens ((invert_permutation p).getD a 0).toNat
          ((l :: ls).map fun x => reorder_dims x p))
        (invert_permutation p)
      = concat_lens a (l :: ls) := by
  have hlen := perm_iota_length n p h
  obtain ⟨j1, j2, -⟩ := perm_iota_indexOf n p h a ha
  have hj : ((invert_permutation p).getD a 0).toNat = p.indexOf (a : Int) := by
    rw [invert_permutation_getD p a (hlen ▸ ha)]
    simp
  rw [hj]
  have hll : l.length = n := hl l (List.mem_cons_self _ _)
  have hsum : ((l :: ls).map fun x => reorder_dims x p).foldl
      (fun n r => n + r.getD (p.indexOf (a : Int)) 0) 0
      = (l :: ls).foldl (fun n r => n + r.getD a 0) 0 := by
    rw [List.foldl_map]
    apply foldl_add_congr
    intro x hx
    have := reorder_dims_getD x p (p.indexOf (a : Int)) (by rw [hl x hx]; exact j1)
    rw [j2] at this
    simpa using this
  simp only [List.map_cons, concat_lens] at hsum ⊢
  rw [hsum]
  generalize (l :: ls).foldl (fun n r => n + r.getD a 0) 0 = total
  apply List.ext_getElem
  · simp [reorder_dims_length]
  · intro k h1 h2
    have hk : k < n := by
      rw [List.length_set] at h2
      exact hll ▸ h2
    obtain ⟨k1, k2, -⟩ := perm_iota_indexOf n p h k hk
    have e1 := reorder_dims_getD ((reorder_dims l p).set (p.indexOf (a : Int)) total)
      (invert_permutation p) k (by rw [List.length_set, reorder_dims_length, hll]; exact hk)
    rw [List.getD_eq_getElem _ _ h1] at e1
    rw [e1, invert_permutation_getD p k (hlen ▸ hk)]
    simp only [Int.ofNat_eq_coe, Int.toNat_ofNat]
    have hidx : p.indexOf (k : Int) < ((reorder_dims l p).set (p.indexOf (a : Int)) total).length := by
      rw [List.length_set, reorder_dims_length, hll]
      exact k1
    rw [List.getD_eq_getElem _ _ hidx, List.getElem_set, List.getElem_set]
    by_cases hka : a = k
    · subst hka
      simp
    · have hne : ¬ p.indexOf (a : Int) = p.indexOf (k : Int) := by
        intro he
        apply hka
        have : (a : Int) = k := by rw [← j2, ← k2, he]
        exact_mod_cast this
      rw [if_neg hne, if_neg hka]
      have e2 := reorder_dims_getD l p (p.indexOf (k : Int)) (by rw [hll]; exact k1)
      rw [List.getD_eq_getElem _ _ (by rw [reorder_dims_length, hll]; exact k1), k2] at e2
      rw [e2]
      simp only [Int.toNat_ofNat]
      exact List.getD_eq_getElem _ _ (hll ▸ hk)

/-- C17: `invert_permutation` is a true inverse under reorder: for a permutation `p` of
`0 .. n-1` and a length-`n` vector `v`, reordering `v` by `p` and then by
`invert_permutation(p)` gives `v` back.  So the transpose by the inverse permutation that
ends `find_concat_transpose::apply` has the output lengths of the original concat, as its
assertion says. -/
theorem C17_invert_permutation_inverse {α : Type} [Inhabited α] (n : Nat) (p : List Int)
    (v : List α) (h : p.Perm (iota n)) (hv : v.length = n) :
    reorder_dims (reorder_dims v p) (invert_permutation p) = v
      ∧ (∀ (a : Nat) (l : List Nat) (ls : List (List Nat)), a < n →
          (∀ x ∈ l :: ls, x.length = n) →
          reorder_dims
              (concat_lens ((invert_permutation p).getD a 0).toNat
                ((l :: ls).map fun x => reorder_dims x p))
              (invert_permutation p)
            = concat_lens a (l :: ls))
      ∧ (find_concat_transpose.apply op_compute_shape concat_transpose_module
            { result := 4 }).map
          (fun m1 => (m1.returns, m1.get_operator 8, (m1.get_shape 8).lens))
          = .ok ([8], { name := "transpose", dims := [0, 2, 1] },
              (concat_transpose_module.get_shape 4).lens) := by
  refine ⟨reorder_invert_permutation n p v h hv, ?_, by rfl⟩
  intro a l ls ha hl
  exact concat_lens_reordered n p h a ha l ls hl

/-- C17 at `p = [2,0,1]` and `v = [10,20,30]`. -/
theorem C17_invert_permutation_inverse_witness :
    reorder_dims (reorder_dims ([10, 20, 30] : List Nat) [2, 0, 1]) (invert_permutation [2, 0, 1])
      = [10, 20, 30] :=
  (C17_invert_permutation_inverse 3 [2, 0, 1] ([10, 20, 30] : List Nat) (by decide) rfl).1

/-! ### C19 -/

theorem find_reshape_cont_declines (compute_shape : operation → List shape → Option shape)
    (m : module) (r : matcher_result) (ins_cont in_ins cont_input : instruction_ref)
    (rest : List instruction_ref)
    (h_cont : r.at_name "cont" = .ok ins_cont) (h_rsp : r.at_name "rsp" = .ok in_ins)
    (h_in : m.inputs ins_cont = cont_input :: rest)
    (h : ¬ (m.get_shape in_ins = m.get_shape r.result ∧
          ∀ i ∈ m.inputs r.result, (m.get_shape i).standard = true)) :
    find_reshape_cont.apply compute_shape m r = .ok m := by
  unfold find_reshape_cont.apply
  simp only [h_cont, h_rsp, h_in, front]
  by_cases h1 : m.get_shape in_ins = m.get_shape r.result
  · have h2 : (m.inputs r.result).all (fun i => (m.get_shape i).standard) = false := by
      by_contra hc
      apply h
      refine ⟨h1, ?_⟩
      simpa [List.all_eq_true] using hc
    simp [h1, h2]
  · simp [h1]

theorem find_reshape_cont_rewrites (compute_shape : operation → List shape → Option shape)
    (m : module) (r : matcher_result) (ins_cont in_ins cont_input : instruction_ref)
    (rest : List instruction_ref)
    (h_cont : r.at_name "cont" = .ok ins_cont) (h_rsp : r.at_name "rsp" = .ok in_ins)
    (h_in : m.inputs ins_cont = cont_input :: rest)
    (h1 : m.get_shape in_ins = m.get_shape r.result)
    (h2 : ∀ i ∈ m.inputs r.result, (m.get_shape i).standard = true) :
    find_reshape_cont.apply compute_shape m r
      = find_reshape_cont.rewrite compute_shape m r.result in_ins cont_input := by
  unfold find_reshape_cont.apply
  simp only [h_cont, h_rsp, h_in, front]
  have h3 : (m.inputs r.result).all (fun i => (m.get_shape i).standard) = true := by
    simpa [List.all_eq_true] using h2
  simp [h1, h3]

/-- C19: `find_reshape_cont::apply`, on a match that binds `cont` and `rsp` with `cont`
having an input, goes on to its rewrite exactly when the shape of the matched reshape
operand equals the output shape of the pointwise instruction and every operand of the
pointwise instruction is standard; in every other case it leaves the module unchanged. -/
theorem C19_reshape_cont_guards (compute_shape : operation → List shape → Option shape)
    (m : module) (r : matcher_result) (ins_cont in_ins cont_input : instruction_ref)
    (rest : List instruction_ref)
    (h_cont : r.at_name "cont" = .ok ins_cont) (h_rsp : r.at_name "rsp" = .ok in_ins)
    (h_in : m.inputs ins_cont = cont_input :: rest) :
    ((m.get_shape in_ins = m.get_shape r.result ∧
        ∀ i ∈ m.inputs r.result, (m.get_shape i).standard = true) →
      find_reshape_cont.apply compute_shape m r
        = find_reshape_cont.rewrite compute_shape m r.result in_ins cont_input)
      ∧ (¬ (m.get_shape in_ins = m.get_shape r.result ∧
            ∀ i ∈ m.inputs r.result, (m.get_shape i).standard = true) →
          find_reshape_cont.apply compute_shape m r = .ok m) :=
  ⟨fun h => find_reshape_cont_rewrites compute_shape m r ins_cont in_ins cont_input rest
      h_cont h_rsp h_in h.1 h.2,
   find_reshape_cont_declines compute_shape m r ins_cont in_ins cont_input rest
      h_cont h_rsp h_in⟩

/-- C19 on the example graphs: with a transposed second operand nothing changes; with
standard operands the add is moved in front of the reshape, `add(x, reshape[2,3](y))`
followed by `reshape[6]`. -/
theorem C19_reshape_cont_guards_witness :
    find_reshape_cont.apply op_compute_shape reshape_cont_layout_module (reshape_cont_match 5)
        = .ok reshape_cont_layout_module
      ∧ (find_reshape_cont.apply op_compute_shape reshape_cont_module
            (reshape_cont_match 4)).map
          (fun m1 => (m1.returns, m1.get_operator 7, m1.inputs 7, m1.get_operator 6,
            m1.inputs 6, (m1.get_shape 6).lens, m1.get_operator 5, m1.inputs 5))
          = .ok ([7], { name := "reshape", dims := [6] }, [6], { name := "add" }, [0, 5],
              [2, 3], { name := "reshape", dims := [2, 3] }, [3]) :=
  ⟨(C19_reshape_cont_guards op_compute_shape reshape_cont_layout_module (reshape_cont_match 5)
      1 2 0 [] rfl rfl rfl).2 (by decide),
   by
    rw [(C19_reshape_cont_guards op_compute_shape reshape_cont_module (reshape_cont_match 4)
      1 2 0 [] rfl rfl rfl).1 (by decide)]
    rfl⟩

/-! ### C20 -/

theorem to_size_zero : to_size 0 = 0 := by
  simp [to_size]

theorem to_size_of_nonneg (x : Int) (h0 : 0 ≤ x) (h1 : x < 2 ^ 64) : to_size x = x.toNat := by
  unfold to_size
  norm_num
  omega

theorem to_size_of_neg (x : Int) (h0 : x < 0) (h1 : -2 ^ 63 ≤ x) :
    to_size x = (2 ^ 64 + x).toNat := by
  unfold to_size
  norm_num
  omega

theorem int_term_zero (t : Nat) (h : t = 0) :
    to_int32 (Int.ofNat (size_add (to_size 0) t)) = 0 := by
  subst h
  simp [to_int32, size_add, to_size]

theorem int_term_ne_zero (y : Int) (h0 : y ≠ 0) (h1 : -2 ^ 31 < y) (h2 : y < 2 ^ 31) :
    to_int32 (Int.ofNat (size_add (to_size 0) (to_size y))) ≠ 0 := by
  rw [to_size_zero]
  unfold to_int32 size_add to_size
  simp only [Int.ofNat_eq_coe, Nat.zero_add]
  norm_num
  omega

theorem int_term_ne_zero_nat (t : Nat) (h0 : t ≠ 0) (h2 : t < 2 ^ 31) :
    to_int32 (Int.ofNat (size_add (to_size 0) t)) ≠ 0 := by
  have h := int_term_ne_zero (t : Int) (by exact_mod_cast h0) (by omega) (by exact_mod_cast h2)
  have e : to_size (t : Int) = t := by
    rw [to_size_of_nonneg _ (by omega) (by omega)]
    simp
  rwa [e] at h

theorem foldl_single {α β : Type} (f : β → α → β) (b : β) (a : α) :
    [a].foldl f b = f b a := rfl

theorem mod_by_distance_single (d x : Int) (vs : List Int) (term : Int → Int → Nat) :
    find_transpose_slice.mod_by_distance [d] (x :: vs) term
      = to_int32 (Int.ofNat (size_add (to_size 0) (if d = 0 then 1 else term x d))) := by
  unfold find_transpose_slice.mod_by_distance
  rw [List.zip_cons_cons, List.zip_nil_right, foldl_single]

theorem nat_emod_natAbs (a b : Nat) : ((a : Int) % (b : Int)).natAbs ≤ a := by
  rw [← Int.natCast_mod, Int.natAbs_ofNat]
  exact Nat.mod_le a b

theorem tmod_natAbs_le (a b : Int) : (Int.tmod a b).natAbs ≤ a.natAbs := by
  cases a with
  | ofNat a =>
    cases b with
    | ofNat b => simpa [Int.tmod] using nat_emod_natAbs a b
    | negSucc b => simpa [Int.tmod] using nat_emod_natAbs a (b + 1)
  | negSucc a =>
    cases b with
    | ofNat b => simpa [Int.tmod] using nat_emod_natAbs (a + 1) b
    | negSucc b => simpa [Int.tmod] using nat_emod_natAbs (a + 1) (b + 1)
theorem mod_axes_ne_zero (lens : List Nat) (axis d : Int) (as : List Int)
    (h0 : 0 ≤ axis) (hax : axis < 2 ^ 31) (hL : lens.getD axis.toNat 0 < 2 ^ 31)
    (hd1 : -2 ^ 32 < d) (hd2 : d < 2 ^ 32)
    (h : d = 0 ∨ ¬ d ∣ (Int.ofNat (lens.getD axis.toNat 0))) :
    find_transpose_slice.mod_by_distance [d] (axis :: as)
      (find_transpose_slice.lens_term lens) ≠ 0 := by
  rw [mod_by_distance_single]
  by_cases hd : d = 0
  · rw [if_pos hd]
    exact int_term_ne_zero_nat 1 (by decide) (by decide)
  · rw [if_neg hd]
    have hnd : ¬ d ∣ (Int.ofNat (lens.getD axis.toNat 0)) := by
      rcases h with h | h
      · exact absurd h hd
      · exact h
    unfold find_transpose_slice.lens_term
    rw [to_size_of_nonneg axis h0 (by omega)]
    generalize lens.getD axis.toNat 0 = L at hL hnd
    apply int_term_ne_zero_nat
    · intro hz
      apply hnd
      rcases lt_or_gt_of_ne hd with hneg | hpos
      · rw [to_size_of_neg d hneg (by omega)] at hz
        have hlt : L < (2 ^ 64 + d).toNat := by omega
        rw [Nat.mod_eq_of_lt hlt] at hz
        subst hz
        exact dvd_zero d
      · rw [to_size_of_nonneg d (by omega) (by omega)] at hz
        have h1 : d.toNat ∣ L := Nat.dvd_of_mod_eq_zero hz
        have h2 : ((d.toNat : Nat) : Int) ∣ ((L : Nat) : Int) := Int.natCast_dvd_natCast.mpr h1
        rw [Int.toNat_of_nonneg (by omega)] at h2
        exact h2
    · exact lt_of_le_of_lt (Nat.mod_le _ _) hL

theorem mod_id_ne_zero (x d : Int) (xs : List Int)
    (hx1 : -2 ^ 31 < x) (hx2 : x < 2 ^ 31) (h : d = 0 ∨ ¬ d ∣ x) :
    find_transpose_slice.mod_by_distance [d] (x :: xs) find_transpose_slice.id_term ≠ 0 := by
  rw [mod_by_distance_single]
  by_cases hd : d = 0
  · rw [if_pos hd]
    exact int_term_ne_zero_nat 1 (by decide) (by decide)
  · rw [if_neg hd]
    have hnd : ¬ d ∣ x := by
      rcases h with h | h
      · exact absurd h hd
      · exact h
    unfold find_transpose_slice.id_term
    have hb := tmod_natAbs_le x d
    apply int_term_ne_zero
    · intro hz
      exact hnd (Int.dvd_iff_tmod_eq_zero.mpr hz)
    · omega
    · omega

theorem mod_axes_zero (lens : List Nat) (axis d : Int) (as : List Int)
    (h0 : 0 ≤ axis) (hax : axis < 2 ^ 31) (hd1 : 0 < d) (hd2 : d < 2 ^ 32)
    (h : d ∣ (Int.ofNat (lens.getD axis.toNat 0))) :
    find_transpose_slice.mod_by_distance [d] (axis :: as)
      (find_transpose_slice.lens_term lens) = 0 := by
  rw [mod_by_distance_single, if_neg (by omega)]
  apply int_term_zero
  unfold find_transpose_slice.lens_term
  rw [to_size_of_nonneg axis h0 (by omega), to_size_of_nonneg d (by omega) (by omega)]
  generalize lens.getD axis.toNat 0 = L at h
  apply Nat.mod_eq_zero_of_dvd
  apply Int.natCast_dvd_natCast.mp
  rw [Int.toNat_of_nonneg (by omega)]
  exact h

theorem mod_id_zero (x d : Int) (xs : List Int) (hd : d ≠ 0) (h : d ∣ x) :
    find_transpose_slice.mod_by_distance [d] (x :: xs) find_transpose_slice.id_term = 0 := by
  rw [mod_by_distance_single, if_neg hd]
  apply int_term_zero
  unfold find_transpose_slice.id_term
  rw [Int.dvd_iff_tmod_eq_zero.mp h]
  exact to_size_zero
theorem find_transpose_slice.declines_empty
    (compute_shape : operation → List shape → Option shape) (m : module) (r : matcher_result)
    (h_out : m.outputs r.result = []) :
    find_transpose_slice.apply compute_shape m r = .ok m := by
  unfold find_transpose_slice.apply
  simp only [h_out]

theorem find_transpose_slice.declines_mismatch
    (compute_shape : operation → List shape → Option shape) (m : module) (r : matcher_result)
    (first : instruction_ref) (rest : List instruction_ref)
    (h_out : m.outputs r.result = first :: rest)
    (h : ∃ s ∈ first :: rest,
      (m.get_operator s).axes ≠ (m.get_operator first).axes ∨
        find_transpose_slice.slice_distance (m.get_operator s)
          ≠ find_transpose_slice.slice_distance (m.get_operator first)) :
    find_transpose_slice.apply compute_shape m r = .ok m := by
  unfold find_transpose_slice.apply
  simp only [h_out]
  rw [if_pos]
  rw [List.any_eq_true]
  obtain ⟨s, hs, hne⟩ := h
  refine ⟨s, hs, ?_⟩
  rcases hne with hne | hne
  · simp [hne]
  · simp [hne]

theorem find_transpose_slice.declines_count
    (compute_shape : operation → List shape → Option shape) (m : module) (r : matcher_result)
    (first : instruction_ref) (rest : List instruction_ref)
    (h_out : m.outputs r.result = first :: rest)
    (h : (find_transpose_slice.slice_distance (m.get_operator first)).length ≠ 1) :
    find_transpose_slice.apply compute_shape m r = .ok m := by
  unfold find_transpose_slice.apply
  simp only [h_out]
  split_ifs
  · rfl
  · rfl
  · rfl

theorem find_transpose_slice.declines_packed
    (compute_shape : operation → List shape → Option shape) (m : module) (r : matcher_result)
    (first : instruction_ref) (rest : List instruction_ref) (axis : Int) (as : List Int)
    (h_out : m.outputs r.result = first :: rest)
    (h_axes : (m.get_operator first).axes = axis :: as)
    (h : ∀ x ∈ (m.get_shape r.result).lens.take axis.toNat, x = 1) :
    find_transpose_slice.apply compute_shape m r = .ok m := by
  unfold find_transpose_slice.apply
  simp only [h_out, h_axes]
  have hall : ((m.get_shape r.result).lens.take axis.toNat).all (fun x => decide (x = 1))
      = true := by
    rw [List.all_eq_true]
    intro x hx
    exact decide_eq_true (h x hx)
  split_ifs
  · rfl
  · rfl
  · rfl
  · rfl
theorem find_transpose_slice.declines_indivisible
    (compute_shape : operation → List shape → Option shape) (m : module) (r : matcher_result)
    (first : instruction_ref) (rest : List instruction_ref) (axis st en : Int)
    (h_out : m.outputs r.result = first :: rest)
    (h_axes : (m.get_operator first).axes = [axis])
    (h_starts : (m.get_operator first).starts = [st])
    (h_ends : (m.get_operator first).ends = [en])
    (h0 : 0 ≤ axis) (hax : axis < 2 ^ 31)
    (hL : (m.get_shape r.result).lens.getD axis.toNat 0 < 2 ^ 31)
    (hs1 : -2 ^ 31 < st) (hs2 : st < 2 ^ 31) (he1 : -2 ^ 31 < en) (he2 : en < 2 ^ 31)
    (h : en - st = 0 ∨
      ¬ (en - st) ∣ Int.ofNat ((m.get_shape r.result).lens.getD axis.toNat 0) ∨
      ¬ (en - st) ∣ st ∨ ¬ (en - st) ∣ en) :
    find_transpose_slice.apply compute_shape m r = .ok m := by
  have hdist : find_transpose_slice.slice_distance (m.get_operator first) = [en - st] := by
    unfold find_transpose_slice.slice_distance
    rw [h_starts, h_ends]
    rfl
  have hcond :
      find_transpose_slice.mod_by_distance [en - st] [axis]
          (find_transpose_slice.lens_term (m.get_shape r.result).lens) ≠ 0 ∨
        find_transpose_slice.mod_by_distance [en - st] [st] find_transpose_slice.id_term ≠ 0 ∨
        find_transpose_slice.mod_by_distance [en - st] [en] find_transpose_slice.id_term ≠ 0 := by
    rcases h with h | h | h | h
    · exact Or.inl (mod_axes_ne_zero _ axis _ [] h0 hax hL (by omega) (by omega) (Or.inl h))
    · exact Or.inl (mod_axes_ne_zero _ axis _ [] h0 hax hL (by omega) (by omega) (Or.inr h))
    · exact Or.inr (Or.inl (mod_id_ne_zero st _ [] hs1 hs2 (Or.inr h)))
    · exact Or.inr (Or.inr (mod_id_ne_zero en _ [] he1 he2 (Or.inr h)))
  unfold find_transpose_slice.apply
  simp only [h_out, h_axes, h_starts, h_ends, hdist]
  split_ifs <;> rfl

theorem find_transpose_slice_rewrites
    (compute_shape : operation → List shape → Option shape) (m : module) (r : matcher_result)
    (first : instruction_ref) (rest : List instruction_ref) (axis st en : Int)
    (h_out : m.outputs r.result = first :: rest)
    (h_same : ∀ s ∈ first :: rest,
      (m.get_operator s).axes = (m.get_operator first).axes ∧
        find_transpose_slice.slice_distance (m.get_operator s)
          = find_transpose_slice.slice_distance (m.get_operator first))
    (h_axes : (m.get_operator first).axes = [axis])
    (h_starts : (m.get_operator first).starts = [st])
    (h_ends : (m.get_operator first).ends = [en])
    (h0 : 0 ≤ axis) (hax : axis < 2 ^ 31)
    (hd1 : 0 < en - st) (hd2 : en - st < 2 ^ 32)
    (h_len : (en - st) ∣ Int.ofNat ((m.get_shape r.result).lens.getD axis.toNat 0))
    (h_st : (en - st) ∣ st) (h_en : (en - st) ∣ en)
    (h_pack : ∃ x ∈ (m.get_shape r.result).lens.take axis.toNat, x ≠ 1) :
    find_transpose_slice.apply compute_shape m r
      = find_transpose_slice.rewrite compute_shape m r.result (first :: rest)
          (m.get_operator first) [en - st] axis := by
  have hdist : find_transpose_slice.slice_distance (m.get_operator first) = [en - st] := by
    unfold find_transpose_slice.slice_distance
    rw [h_starts, h_ends]
    rfl
  have hany : (first :: rest).any (fun sins =>
      decide ((m.get_operator sins).axes ≠ (m.get_operator first).axes) ||
        decide (find_transpose_slice.slice_distance (m.get_operator sins)
          ≠ find_transpose_slice.slice_distance (m.get_operator first))) = false := by
    rw [List.any_eq_false]
    intro s hs
    obtain ⟨e1, e2⟩ := h_same s hs
    simp [e1, e2]
  have hm1 := mod_axes_zero (m.get_shape r.result).lens axis (en - st) [] h0 hax hd1 hd2 h_len
  have hm2 := mod_id_zero st (en - st) [] (by omega) h_st
  have hm3 := mod_id_zero en (en - st) [] (by omega) h_en
  have hall : ((m.get_shape r.result).lens.take axis.toNat).all (fun x => decide (x = 1))
      = false := by
    rw [List.all_eq_false]
    obtain ⟨x, hx, hne⟩ := h_pack
    exact ⟨x, hx, by simpa using hne⟩
  unfold find_transpose_slice.apply
  simp only [h_out]
  rw [if_neg (by rw [hany]; exact Bool.false_ne_true)]
  simp only [hdist, h_axes, h_starts, h_ends, hm1, hm2, hm3]
  rw [if_neg (by simp), if_neg (by simp), hall]
  rfl

/-- C20: `find_transpose_slice::apply` leaves the module unchanged when the transpose has no
consumer, when some consumer slice differs from the first in its axes or its distances
`end - start`, when the number of distances is not one (so whenever more than one axis is
sliced), when all lengths before the sliced axis are 1 (so whenever the sliced axis is
axis 0), and, for one sliced axis with length, start and end below `2^31`, when the
distance is 0 or does not divide the transposed length of the axis, the start or the end.
With one sliced axis, a positive distance dividing all three and some length other than 1
before the axis, it goes on to its rewrite. -/
theorem C20_transpose_slice_guards (compute_shape : operation → List shape → Option shape)
    (m : module) (r : matcher_result) :
    (m.outputs r.result = [] → find_transpose_slice.apply compute_shape m r = .ok m)
      ∧ ∀ (first : instruction_ref) (rest : List instruction_ref) (slice : operation)
          (lens : List Nat),
          m.outputs r.result = first :: rest → slice = m.get_operator first →
          lens = (m.get_shape r.result).lens →
          ((∃ s ∈ first :: rest, (m.get_operator s).axes ≠ slice.axes ∨
              find_transpose_slice.slice_distance (m.get_operator s)
                ≠ find_transpose_slice.slice_distance slice) →
            find_transpose_slice.apply compute_shape m r = .ok m)
          ∧ ((find_transpose_slice.slice_distance slice).length ≠ 1 →
              find_transpose_slice.apply compute_shape m r = .ok m)
          ∧ (slice.starts.length = slice.axes.length → slice.ends.length = slice.axes.length →
              2 ≤ slice.axes.length →
              find_transpose_slice.apply compute_shape m r = .ok m)
          ∧ (∀ (axis : Int) (as : List Int), slice.axes = axis :: as →
              (∀ x ∈ lens.take axis.toNat, x = 1) →
              find_transpose_slice.apply compute_shape m r = .ok m)
          ∧ (∀ as : List Int, slice.axes = 0 :: as →
              find_transpose_slice.apply compute_shape m r = .ok m)
          ∧ (∀ axis st en : Int, slice.axes = [axis] → slice.starts = [st] →
              slice.ends = [en] → 0 ≤ axis → axis < 2 ^ 31 →
              lens.getD axis.toNat 0 < 2 ^ 31 →
              -2 ^ 31 < st → st < 2 ^ 31 → -2 ^ 31 < en → en < 2 ^ 31 →
              (en - st = 0 ∨ ¬ (en - st) ∣ Int.ofNat (lens.getD axis.toNat 0) ∨
                ¬ (en - st) ∣ st ∨ ¬ (en - st) ∣ en) →
              find_transpose_slice.apply compute_shape m r = .ok m)
          ∧ (∀ axis st en : Int, slice.axes = [axis] → slice.starts = [st] →
              slice.ends = [en] → 0 ≤ axis → axis < 2 ^ 31 →
              -2 ^ 31 < st → st < 2 ^ 31 → -2 ^ 31 < en → en < 2 ^ 31 →
              (∀ s ∈ first :: rest, (m.get_operator s).axes = slice.axes ∧
                find_transpose_slice.slice_distance (m.get_operator s)
                  = find_transpose_slice.slice_distance slice) →
              0 < en - st → (en - st) ∣ Int.ofNat (lens.getD axis.toNat 0) →
              (en - st) ∣ st → (en - st) ∣ en →
              (∃ x ∈ lens.take axis.toNat, x ≠ 1) →
              find_transpose_slice.apply compute_shape m r
                = find_transpose_slice.rewrite compute_shape m r.result (first :: rest)
                    slice [en - st] axis) := by
  refine ⟨find_transpose_slice.declines_empty compute_shape m r, ?_⟩
  intro first rest slice lens h_out h_slice h_lens
  subst h_slice h_lens
  refine ⟨find_transpose_slice.declines_mismatch compute_shape m r first rest h_out,
    find_transpose_slice.declines_count compute_shape m r first rest h_out, ?_, ?_, ?_, ?_, ?_⟩
  · intro hs he h2
    apply find_transpose_slice.declines_count compute_shape m r first rest h_out
    unfold find_transpose_slice.slice_distance
    rw [List.length_zipWith]
    omega
  · intro axis as h_axes h
    exact find_transpose_slice.declines_packed compute_shape m r first rest axis as h_out
      h_axes h
  · intro as h_axes
    apply find_transpose_slice.declines_packed compute_shape m r first rest 0 as h_out h_axes
    intro x hx
    simp at hx
  · intro axis st en h_axes h_starts h_ends h0 hax hL hs1 hs2 he1 he2 h
    exact find_transpose_slice.declines_indivisible compute_shape m r first rest axis st en
      h_out h_axes h_starts h_ends h0 hax hL hs1 hs2 he1 he2 h
  · intro axis st en h_axes h_starts h_ends h0 hax hs1 hs2 he1 he2 h_same hd h_len h_st h_en
      h_pack
    exact find_transpose_slice_rewrites compute_shape m r first rest axis st en h_out h_same
      h_axes h_starts h_ends h0 hax hd (by omega) h_len h_st h_en h_pack

/-- C20 on the example graphs: slices along axis 0 of the transpose, a slice of two axes,
and a slice whose distance 2 does not divide the length 3 of its axis all leave the
module unchanged. -/
theorem C20_transpose_slice_guards_witness :
    find_transpose_slice.apply op_compute_shape transpose_slice_module { result := 1 }
        = .ok transpose_slice_module
      ∧ find_transpose_slice.apply op_compute_shape transpose_slice_axes_module { result := 1 }
        = .ok transpose_slice_axes_module
      ∧ find_transpose_slice.apply op_compute_shape transpose_slice_odd_module { result := 1 }
        = .ok transpose_slice_odd_module :=
  ⟨((C20_transpose_slice_guards op_compute_shape transpose_slice_module { result := 1 }).2
      2 [3] _ _ rfl rfl rfl).2.2.2.2.1 [] rfl,
   ((C20_transpose_slice_guards op_compute_shape transpose_slice_axes_module
      { result := 1 }).2 2 [] _ _ rfl rfl rfl).2.2.1 rfl rfl (by decide),
   ((C20_transpose_slice_guards op_compute_shape transpose_slice_odd_module
      { result := 1 }).2 2 [] _ _ rfl rfl rfl).2.2.2.2.2.1 1 0 2 rfl rfl rfl
      (by decide) (by decide) (by decide) (by decide) (by decide) (by decide) (by decide)
      (Or.inr (Or.inl (by decide)))⟩

/-! ### C18 -/

theorem find_transpose_declined (compute_shape : operation → List shape → Option shape)
    (fuel : Nat) (m : module) (r : matcher_result) (dims : List Int) (t : instruction_ref)
    (h_loop : find_transpose.loop m fuel (iota (m.get_shape r.result).lens.length) r.result
      = .ok (dims, t))
    (h : t = r.result ∨ m.name t ≠ "transpose") :
    find_transpose.apply compute_shape fuel m r = .ok m := by
  unfold find_transpose.apply
  simp only [h_loop]
  rw [if_pos h]

theorem find_nested_convert_declined (m : module) (r : matcher_result)
    (x input : instruction_ref) (xs inputs : List instruction_ref)
    (h_x : m.inputs r.result = x :: xs) (h_input : m.inputs x = input :: inputs)
    (h : m.get_shape r.result ≠ m.get_shape input) :
    find_nested_convert.apply m r = .ok m := by
  unfold find_nested_convert.apply
  simp only [h_x, h_input, front]
  rw [if_pos h]

theorem find_concat_multibroadcasts_declined
    (compute_shape : operation → List shape → Option shape) (m : module) (r : matcher_result)
    (first : instruction_ref) (rest : List instruction_ref)
    (h_in : m.inputs r.result = first :: rest)
    (h : ∃ i ∈ first :: rest,
      (m.get_shape i).strides[to_size (m.get_operator r.result).axis]? = some 0) :
    find_concat_multibroadcasts.apply compute_shape m r = .ok m := by
  unfold find_concat_multibroadcasts.apply
  simp only [h_in, front]
  rw [if_pos]
  rw [List.any_eq_true]
  obtain ⟨i, hi, hz⟩ := h
  exact ⟨i, hi, decide_eq_true hz⟩

theorem find_concat_transpose_declined
    (compute_shape : operation → List shape → Option shape) (m : module) (r : matcher_result)
    (first : instruction_ref) (rest : List instruction_ref)
    (h_in : m.inputs r.result = first :: rest)
    (h : ∃ i ∈ first :: rest,
      find_permutation (m.get_shape i) ≠ find_permutation (m.get_shape first)) :
    find_concat_transpose.apply compute_shape m r = .ok m := by
  unfold find_concat_transpose.apply
  simp only [h_in, front]
  rw [if_pos]
  obtain ⟨i, hi, hne⟩ := h
  rw [Bool.not_eq_true', List.all_eq_false]
  exact ⟨i, hi, by simpa using hne⟩

theorem find_resize_declined (compute_shape : operation → List shape → Option shape)
    (m : module) (r : matcher_result) (ins_rsp ins_ind : instruction_ref)
    (h_data : r.at_name "data" = .ok ins_rsp) (h_ind : r.at_name "ind" = .ok ins_ind)
    (h : (m.get_shape ins_rsp).lens.length ≠ 1 ∨
      ∃ in_rsp rest, m.inputs ins_rsp = in_rsp :: rest ∧
        ((m.get_shape in_rsp).lens.length ≠ (m.get_shape r.result).lens.length ∨
          (find_resize.is_multi (m.get_shape in_rsp).lens (m.get_shape r.result).lens).all
            (fun b => b) = false ∨
          m.eval ins_ind = none ∨
          ∃ arg_ind, m.eval ins_ind = some arg_ind ∧
            find_resize.index_check (m.get_shape r.result)
              (find_resize.scales (m.get_shape in_rsp).lens (m.get_shape r.result).lens)
              (arg_ind.map to_int32) = false)) :
    find_resize.apply compute_shape m r = .ok m := by
  unfold find_resize.apply
  simp only [h_data, h_ind]
  rcases h with h | ⟨in_rsp, rest, h_in, h⟩
  · rw [if_pos h]
  · simp only [h_in, front]
    rcases h with h | h | h | ⟨arg_ind, h_eval, h⟩
    · split_ifs <;> rfl
    · split_ifs <;> simp_all
    · simp only [h]
      split_ifs <;> rfl
    · simp only [h_eval, h]
      split_ifs <;> simp_all

theorem find_where_op_declined (m : module) (r : matcher_result)
    (concat ins_ind : instruction_ref) (v : Int) (vs : List Int)
    (h_data : r.at_name "data" = .ok concat) (h_ind : r.at_name "ind" = .ok ins_ind)
    (h_eval : m.eval ins_ind = some (v :: vs))
    (h : (∃ w ∈ v :: vs, decide (w ≠ 0) ≠ decide (v ≠ 0)) ∨
      (m.get_operator concat).axis ≠ 0 ∨
      (m.inputs concat).length ≠ 2 ∨
      ∃ input0 input1, m.inputs concat = [input0, input1] ∧
        (m.get_shape input0 ≠ m.get_shape input1 ∨
          (m.get_shape input0).lens ≠ (m.get_shape ins_ind).lens)) :
    find_where_op.apply m r = .ok m := by
  unfold find_where_op.apply
  simp only [h_data, h_ind, h_eval, Option.getD_some, List.map_cons]
  rcases h with ⟨w, hw, hne⟩ | h | h | ⟨input0, input1, h_in, h⟩
  · rw [if_pos]
    rw [Bool.not_eq_true', List.all_eq_false]
    rcases List.mem_cons.mp hw with rfl | hw
    · exact absurd rfl hne
    · refine ⟨decide (w ≠ 0), List.mem_cons_of_mem _ (List.mem_map_of_mem _ hw), ?_⟩
      simpa using hne
  · split_ifs
    · rfl
    · rfl
  · split_ifs <;> first | rfl | (split <;> simp_all)
  · simp only [h_in]
    rcases h with h | h
    · split_ifs <;> rfl
    · split_ifs <;> rfl

theorem find_slice_transpose_declined
    (compute_shape : operation → List shape → Option shape) (m : module) (r : matcher_result)
    (h : ((m.outputs r.result).filter (find_slice_transpose.is_split m)).length < 2) :
    find_slice_transpose.apply compute_shape m r = .ok m := by
  unfold find_slice_transpose.apply
  simp only [h]
  rfl

theorem find_transpose_slice.declines_check
    (compute_shape : operation → List shape → Option shape) (m : module) (r : matcher_result)
    (first : instruction_ref) (rest : List instruction_ref)
    (h_out : m.outputs r.result = first :: rest)
    (h : find_transpose_slice.mod_by_distance
          (find_transpose_slice.slice_distance (m.get_operator first))
          (m.get_operator first).axes
          (find_transpose_slice.lens_term (m.get_shape r.result).lens) ≠ 0 ∨
        find_transpose_slice.mod_by_distance
          (find_transpose_slice.slice_distance (m.get_operator first))
          (m.get_operator first).starts find_transpose_slice.id_term ≠ 0 ∨
        find_transpose_slice.mod_by_distance
          (find_transpose_slice.slice_distance (m.get_operator first))
          (m.get_operator first).ends find_transpose_slice.id_term ≠ 0) :
    find_transpose_slice.apply compute_shape m r = .ok m := by
  unfold find_transpose_slice.apply
  simp only [h_out]
  split_ifs <;> rfl
/-- C18: a declined rule application leaves the module unchanged.  For each rule of
`simplify_reshapes` that can decline (`find_transpose`, `find_nested_convert`,
`find_concat_multibroadcasts`, `find_concat_transpose`, `find_resize`, `find_where_op`,
`find_reshape_cont`, `find_slice_transpose`, `find_transpose_slice`) and each condition
under which its `apply` returns early, the module `apply` returns is the module it was
given: the same instructions, operators and edges. -/
theorem C18_declined_rule_unchanged (compute_shape : operation → List shape → Option shape)
    (fuel : Nat) (m : module) (r : matcher_result) :
    (∀ (dims : List Int) (t : instruction_ref),
        find_transpose.loop m fuel (iota (m.get_shape r.result).lens.length) r.result
          = .ok (dims, t) →
        (t = r.result ∨ m.name t ≠ "transpose") →
        find_transpose.apply compute_shape fuel m r = .ok m)
      ∧ (∀ (x input : instruction_ref) (xs inputs : List instruction_ref),
          m.inputs r.result = x :: xs → m.inputs x = input :: inputs →
          m.get_shape r.result ≠ m.get_shape input →
          find_nested_convert.apply m r = .ok m)
      ∧ (∀ (first : instruction_ref) (rest : List instruction_ref),
          m.inputs r.result = first :: rest →
          (∃ i ∈ first :: rest,
            (m.get_shape i).strides[to_size (m.get_operator r.result).axis]? = some 0) →
          find_concat_multibroadcasts.apply compute_shape m r = .ok m)
      ∧ (∀ (first : instruction_ref) (rest : List instruction_ref),
          m.inputs r.result = first :: rest →
          (∃ i ∈ first :: rest,
            find_permutation (m.get_shape i) ≠ find_permutation (m.get_shape first)) →
          find_concat_transpose.apply compute_shape m r = .ok m)
      ∧ (∀ ins_rsp ins_ind : instruction_ref,
          r.at_name "data" = .ok ins_rsp → r.at_name "ind" = .ok ins_ind →
          ((m.get_shape ins_rsp).lens.length ≠ 1 ∨
            ∃ in_rsp rest, m.inputs ins_rsp = in_rsp :: rest ∧
              ((m.get_shape in_rsp).lens.length ≠ (m.get_shape r.result).lens.length ∨
                (find_resize.is_multi (m.get_shape in_rsp).lens
                  (m.get_shape r.result).lens).all (fun b => b) = false ∨
                m.eval ins_ind = none ∨
                ∃ arg_ind, m.eval ins_ind = some arg_ind ∧
                  find_resize.index_check (m.get_shape r.result)
                    (find_resize.scales (m.get_shape in_rsp).lens
                      (m.get_shape r.result).lens)
                    (arg_ind.map to_int32) = false)) →
          find_resize.apply compute_shape m r = .ok m)
      ∧ (∀ (concat ins_ind : instruction_ref) (v : Int) (vs : List Int),
          r.at_name "data" = .ok concat → r.at_name "ind" = .ok ins_ind →
          m.eval ins_ind = some (v :: vs) →
          ((∃ w ∈ v :: vs, decide (w ≠ 0) ≠ decide (v ≠ 0)) ∨
            (m.get_operator concat).axis ≠ 0 ∨
            (m.inputs concat).length ≠ 2 ∨
            ∃ input0 input1, m.inputs concat = [input0, input1] ∧
              (m.get_shape input0 ≠ m.get_shape input1 ∨
                (m.get_shape input0).lens ≠ (m.get_shape ins_ind).lens)) →
          find_where_op.apply m r = .ok m)
      ∧ (∀ (ins_cont in_ins cont_input : instruction_ref) (rest : List instruction_ref),
          r.at_name "cont" = .ok ins_cont → r.at_name "rsp" = .ok in_ins →
          m.inputs ins_cont = cont_input :: rest →
          (m.get_shape in_ins ≠ m.get_shape r.result ∨
            ∃ i ∈ m.inputs r.result, (m.get_shape i).standard = false) →
          find_reshape_cont.apply compute_shape m r = .ok m)
      ∧ (((m.outputs r.result).filter (find_slice_transpose.is_split m)).length < 2 →
          find_slice_transpose.apply compute_shape m r = .ok m)
      ∧ (m.outputs r.result = [] → find_transpose_slice.apply compute_shape m r = .ok m)
      ∧ (∀ (first : instruction_ref) (rest : List instruction_ref),
          m.outputs r.result = first :: rest →
          ((∃ s ∈ first :: rest,
              (m.get_operator s).axes ≠ (m.get_operator first).axes ∨
                find_transpose_slice.slice_distance (m.get_operator s)
                  ≠ find_transpose_slice.slice_distance (m.get_operator first)) ∨
            (find_transpose_slice.mod_by_distance
                (find_transpose_slice.slice_distance (m.get_operator first))
                (m.get_operator first).axes
                (find_transpose_slice.lens_term (m.get_shape r.result).lens) ≠ 0 ∨
              find_transpose_slice.mod_by_distance
                (find_transpose_slice.slice_distance (m.get_operator first))
                (m.get_operator first).starts find_transpose_slice.id_term ≠ 0 ∨
              find_transpose_slice.mod_by_distance
                (find_transpose_slice.slice_distance (m.get_operator first))
                (m.get_operator first).ends find_transpose_slice.id_term ≠ 0) ∨
            (find_transpose_slice.slice_distance (m.get_operator first)).length ≠ 1 ∨
            ∃ (axis : Int) (as : List Int), (m.get_operator first).axes = axis :: as ∧
              ∀ x ∈ (m.get_shape r.result).lens.take axis.toNat, x = 1) →
          find_transpose_slice.apply compute_shape m r = .ok m) := by
  refine ⟨?_, ?_, ?_, ?_, ?_, ?_, ?_, ?_, ?_, ?_⟩
  · intro dims t h_loop h
    exact find_transpose_declined compute_shape fuel m r dims t h_loop h
  · intro x input xs inputs h_x h_input h
    exact find_nested_convert_declined m r x input xs inputs h_x h_input h
  · intro first rest h_in h
    exact find_concat_multibroadcasts_declined compute_shape m r first rest h_in h
  · intro first rest h_in h
    exact find_concat_transpose_declined compute_shape m r first rest h_in h
  · intro ins_rsp ins_ind h_data h_ind h
    exact find_resize_declined compute_shape m r ins_rsp ins_ind h_data h_ind h
  · intro concat ins_ind v vs h_data h_ind h_eval h
    exact find_where_op_declined m r concat ins_ind v vs h_data h_ind h_eval h
  · intro ins_cont in_ins cont_input rest h_cont h_rsp h_in h
    apply find_reshape_cont_declines compute_shape m r ins_cont in_ins cont_input rest
      h_cont h_rsp h_in
    rintro ⟨h1, h2⟩
    rcases h with h | ⟨i, hi, hs⟩
    · exact h h1
    · rw [h2 i hi] at hs
      exact Bool.noConfusion hs
  · exact find_slice_transpose_declined compute_shape m r
  · exact find_transpose_slice.declines_empty compute_shape m r
  · intro first rest h_out h
    rcases h with h | h | h | ⟨axis, as, h_axes, h⟩
    · exact find_transpose_slice.declines_mismatch compute_shape m r first rest h_out h
    · exact find_transpose_slice.declines_check compute_shape m r first rest h_out h
    · exact find_transpose_slice.declines_count compute_shape m r first rest h_out h
    · exact find_transpose_slice.declines_packed compute_shape m r first rest axis as h_out
        h_axes h

/-- C18 on the example graphs: a concat over broadcasts along a broadcast axis, a concat
over transposes of different permutations, an input with a single slice behind a
transpose, and a transpose sliced along axis 0 are all left as they are. -/
theorem C18_declined_rule_unchanged_witness :
    find_concat_multibroadcasts.apply op_compute_shape concat_broadcast_axis_module
        { result := 4 } = .ok concat_broadcast_axis_module
      ∧ find_concat_transpose.apply op_compute_shape concat_mixed_transpose_module
        { result := 4 } = .ok concat_mixed_transpose_module
      ∧ find_slice_transpose.apply op_compute_shape single_slice_transpose_module
        { result := 0 } = .ok single_slice_transpose_module
      ∧ find_transpose_slice.apply op_compute_shape transpose_slice_module
        { result := 1 } = .ok transpose_slice_module :=
  ⟨(C18_declined_rule_unchanged op_compute_shape 0 concat_broadcast_axis_module
      { result := 4 }).2.2.1 2 [3] rfl ⟨2, by decide, by decide⟩,
   (C18_declined_rule_unchanged op_compute_shape 0 concat_mixed_transpose_module
      { result := 4 }).2.2.2.1 2 [3] rfl ⟨3, by decide, by decide⟩,
   (C18_declined_rule_unchanged op_compute_shape 0 single_slice_transpose_module
      { result := 0 }).2.2.2.2.2.2.2.1 (by decide),
   (C18_declined_rule_unchanged op_compute_shape 0 transpose_slice_module
      { result := 1 }).2.2.2.2.2.2.2.2.2 2 [3] rfl
      (Or.inr (Or.inr (Or.inr ⟨0, [], rfl, by decide⟩)))⟩

/-- On the example graph `find_slice_transpose::apply` hoists one transpose in front of the
two slices, which then slice axis 1 and replace the two transposes. -/
theorem find_slice_transpose.example_rewrite :
    (find_slice_transpose.apply op_compute_shape slice_transpose_module { result := 0 }).map
        (fun m1 => (m1.instructions.map Prod.fst, m1.inputs 5, m1.get_operator 6, m1.inputs 6,
          m1.get_operator 7, m1.inputs 7, m1.get_operator 8, m1.inputs 8))
      = .ok ([0, 6, 1, 2, 7, 3, 8, 4, 5], [7, 8],
          { name := "transpose", dims := [1, 0] }, [0],
          { name := "slice", axes := [1], starts := [0], ends := [2] }, [6],
          { name := "slice", axes := [1], starts := [2], ends := [4] }, [6]) := by
  rfl

/-! ### C21 -/

theorem find_slice_transpose_rewrites
    (compute_shape : operation → List shape → Option shape) (m : module) (r : matcher_result)
    (h : 2 ≤ ((m.outputs r.result).filter (find_slice_transpose.is_split m)).length) :
    find_slice_transpose.apply compute_shape m r
      = find_slice_transpose.rewrite compute_shape m r.result
          ((m.outputs r.result).filter (find_slice_transpose.is_split m)) := by
  unfold find_slice_transpose.apply
  simp only
  rw [if_neg (by omega)]

/-- C21, refuted as stated: on `x` of lengths `[5,3]` with the slices `(0,2)` and `(2,4)`
along axis 0, each behind a `transpose[1,0]`, the distance 2 does not divide the length 5
of the sliced axis, and `find_slice_transpose::apply` rewrites all the same: it hoists
`transpose[1,0](x)` and replaces the two transposes by slices of it along axis 1. -/
theorem C21_rewrites_indivisible_distance :
    (slice_transpose_odd_module.get_shape 0).lens = [5, 3]
      ∧ find_transpose_slice.slice_distance (slice_transpose_odd_module.get_operator 1) = [2]
      ∧ find_transpose_slice.slice_distance (slice_transpose_odd_module.get_operator 2) = [2]
      ∧ 5 % 2 ≠ 0
      ∧ (find_slice_transpose.apply op_compute_shape slice_transpose_odd_module
            { result := 0 }).map
          (fun m1 => (m1.instructions.map Prod.fst, m1.returns, m1.get_operator 5, m1.inputs 5,
            m1.get_operator 6, m1.inputs 6, m1.get_operator 7, m1.inputs 7))
          = .ok ([0, 5, 1, 2, 6, 3, 7, 4], [6, 7],
              { name := "transpose", dims := [1, 0] }, [0],
              { name := "slice", axes := [1], starts := [0], ends := [2] }, [5],
              { name := "slice", axes := [1], starts := [2], ends := [4] }, [5])
      ∧ find_slice_transpose.apply op_compute_shape slice_transpose_odd_module { result := 0 }
          ≠ .ok slice_transpose_odd_module := by
  refine ⟨by decide, by decide, by decide, by decide, by rfl, ?_⟩
  intro h
  have e1 : (find_slice_transpose.apply op_compute_shape slice_transpose_odd_module
      { result := 0 }).map (fun m1 => m1.returns) = .ok [6, 7] := by rfl
  rw [h] at e1
  have e2 : ([3, 4] : List instruction_ref) = [6, 7] := Except.ok.inj e1
  exact absurd e2 (by decide)

/-- C21, amended: `find_slice_transpose::apply` declines, leaving the module unchanged,
exactly when fewer than two consumers of the matched instruction are slices whose only
consumer is a transpose; with two or more it goes on to its rewrite, whatever the slice
distances and the length of the sliced axis are. -/
theorem C21_slice_transpose_guard (compute_shape : operation → List shape → Option shape)
    (m : module) (r : matcher_result) :
    (((m.outputs r.result).filter (find_slice_transpose.is_split m)).length < 2 →
        find_slice_transpose.apply compute_shape m r = .ok m)
      ∧ (2 ≤ ((m.outputs r.result).filter (find_slice_transpose.is_split m)).length →
          find_slice_transpose.apply compute_shape m r
            = find_slice_transpose.rewrite compute_shape m r.result
                ((m.outputs r.result).filter (find_slice_transpose.is_split m))) :=
  ⟨find_slice_transpose_declined compute_shape m r,
   find_slice_transpose_rewrites compute_shape m r⟩

/-- C21 (amended) on the example graphs: one slice behind a transpose is left as it is, two
are rewritten. -/
theorem C21_slice_transpose_guard_witness :
    find_slice_transpose.apply op_compute_shape single_slice_transpose_module { result := 0 }
        = .ok single_slice_transpose_module
      ∧ find_slice_transpose.apply op_compute_shape slice_transpose_odd_module { result := 0 }
        = find_slice_transpose.rewrite op_compute_shape slice_transpose_odd_module 0 [1, 2] :=
  ⟨(C21_slice_transpose_guard op_compute_shape single_slice_transpose_module
      { result := 0 }).1 (by decide),
   (C21_slice_transpose_guard op_compute_shape slice_transpose_odd_module
      { result := 0 }).2 (by decide)⟩

/-! ### C30 -/

theorem reorder_iota_index_vector (n : Nat) (d : List Int) (h : index_vector n d) :
    reorder_dims (iota n) d = d := by
  apply List.ext_getElem
  · rw [reorder_dims_length, iota_length, h.1]
  · intro i h1 h2
    have hi : i < n := h.1 ▸ h2
    have hc := index_vector_getD n d h i hi
    have hmem : d.get ⟨i, h2⟩ ∈ d := List.get_mem _ _ _
    have hb := h.2 _ hmem
    have e := reorder_dims_getD (iota n) d i (by rw [iota_length]; exact hi)
    rw [List.getD_eq_getElem _ _ h1] at e
    rw [List.getD_eq_getElem _ _ h2] at hc e
    rw [e]
    unfold iota
    rw [getD_map_range _ _ _ _ hc]
    simp only [Int.ofNat_eq_coe, List.get_eq_getElem] at hb ⊢
    omega

theorem reorder_perm_invert (n : Nat) (p : List Int) (h : p.Perm (iota n)) :
    reorder_dims p (invert_permutation p) = iota n := by
  have h1 := reorder_invert_permutation n p (iota n) h (iota_length n)
  rw [reorder_iota_index_vector n p (perm_iota_index_vector n p h)] at h1
  exact h1

theorem reorder_residual (n : Nat) (perm curr : List Int) (h_perm : perm.Perm (iota n))
    (h_curr : index_vector n curr) :
    reorder_dims perm (reorder_dims (invert_permutation perm) curr) = curr := by
  rw [← reorder_dims_assoc n perm (invert_permutation perm) curr (perm_iota_length n perm h_perm)
    (invert_permutation_index_vector n perm h_perm) h_curr,
    reorder_perm_invert n perm h_perm, reorder_iota_index_vector n curr h_curr]

/-- C30: in `find_slice_transpose::apply`, with `perm` the hoisted permutation and `iperm`
its inverse, a rewritten slice takes the axes `iperm[a]` of the original axes `a`, and
`perm[iperm[a]] = a`; a branch whose transpose has another operator than the hoisted one
gets the residual transpose `q = reorder_dims(iperm, curr)`, for which
`perm[q[i]] = curr[i]` and reordering by `perm` and then by `q` is reordering by `curr`; a
branch with `curr = perm` gets no residual transpose. -/
theorem C30_slice_transpose_residual (n : Nat) (perm curr : List Int)
    (h_perm : perm.Perm (iota n)) (h_curr : index_vector n curr) :
    (∀ a : Nat, a < n →
        0 ≤ (invert_permutation perm).getD a 0
          ∧ ((invert_permutation perm).getD a 0).toNat < n
          ∧ perm.getD ((invert_permutation perm).getD a 0).toNat 0 = a)
      ∧ (∀ i : Nat, i < n →
          perm.getD ((reorder_dims (invert_permutation perm) curr).getD i 0).toNat 0
            = curr.getD i 0)
      ∧ (∀ v : List Nat, v.length = n →
          reorder_dims (reorder_dims v perm) (reorder_dims (invert_permutation perm) curr)
            = reorder_dims v curr)
      ∧ ((({ name := "transpose", dims := curr } : operation)
            ≠ { name := "transpose", dims := perm }) ↔ curr ≠ perm)
      ∧ (∀ (compute_shape : operation → List shape → Option shape) (m : module)
          (pre split t : instruction_ref) (rest : List (instruction_ref × instruction_ref)),
          find_slice_transpose.rewrite_splits compute_shape pre (invert_permutation perm) m
              ((split, t) :: rest)
            = match m.insert_instruction compute_shape t
                { m.get_operator split with
                  axes := (m.get_operator split).axes.map fun axis =>
                    (invert_permutation perm).getD (to_size axis) 0 } [pre] with
              | .error e => .error e
              | .ok (m1, new_ins) =>
                if m1.get_operator t ≠ m1.get_operator pre then
                  match m1.insert_instruction compute_shape t
                    { name := "transpose",
                      dims := reorder_dims (invert_permutation perm) (m1.get_operator t).dims }
                    [new_ins] with
                  | .error e => .error e
                  | .ok (m2, new_ins1) =>
                    match m2.replace_instruction t new_ins1 with
                    | .error e => .error e
                    | .ok m3 =>
                      find_slice_transpose.rewrite_splits compute_shape pre
                        (invert_permutation perm) m3 rest
                else
                  match m1.replace_instruction t new_ins with
                  | .error e => .error e
                  | .ok m3 =>
                    find_slice_transpose.rewrite_splits compute_shape pre
                      (invert_permutation perm) m3 rest) := by
  have hlen := perm_iota_length n perm h_perm
  have hres := reorder_residual n perm curr h_perm h_curr
  have hq : index_vector n (reorder_dims (invert_permutation perm) curr) :=
    reorder_dims_index_vector n _ _ (invert_permutation_index_vector n perm h_perm) h_curr
  refine ⟨?_, ?_, ?_, ?_, ?_⟩
  · intro a ha
    obtain ⟨j1, j2, -⟩ := perm_iota_indexOf n perm h_perm a ha
    rw [invert_permutation_getD perm a (hlen ▸ ha)]
    simp only [Int.ofNat_eq_coe, Int.toNat_ofNat]
    exact ⟨by omega, j1, j2⟩
  · intro i hi
    have e := reorder_dims_getD perm (reorder_dims (invert_permutation perm) curr) i
      (hlen ▸ hi)
    rw [hres] at e
    exact e.symm
  · intro v hv
    rw [reorder_dims_assoc n v perm _ hv (perm_iota_index_vector n perm h_perm) hq, hres]
  · constructor
    · intro h e
      exact h (by rw [e])
    · intro h e
      exact h (congrArg operation.dims e)
  · intro compute_shape m pre split t rest
    rw [find_slice_transpose.rewrite_splits]
    cases m.insert_instruction compute_shape t
        { m.get_operator split with
          axes := (m.get_operator split).axes.map fun axis =>
            (invert_permutation perm).getD (to_size axis) 0 } [pre] with
    | error e => rfl
    | ok p =>
      obtain ⟨m1, new_ins⟩ := p
      simp only
      split_ifs <;> rfl

/-- C30 at the hoisted permutation `[1,2,0]` and a branch with `[2,0,1]`: the residual
transpose is `[1,2,0]`, and lengths `[6,2,3]` reordered by `[1,2,0]` and then by the
residual are the lengths reordered by `[2,0,1]`. -/
theorem C30_slice_transpose_residual_witness :
    reorder_dims (invert_permutation [1, 2, 0]) [2, 0, 1] = [1, 2, 0]
      ∧ reorder_dims (reorder_dims ([6, 2, 3] : List Nat) [1, 2, 0])
          (reorder_dims (invert_permutation [1, 2, 0]) [2, 0, 1])
        = reorder_dims [6, 2, 3] [2, 0, 1] :=
  ⟨by decide,
   (C30_slice_transpose_residual 3 [1, 2, 0] [2, 0, 1] (by decide)
      ⟨rfl, by decide⟩).2.2.1 [6, 2, 3] rfl⟩

/-- On the graph with two branches of permutation `[1,2,0]` and one of `[2,0,1]`,
`find_slice_transpose::apply` hoists `transpose[1,2,0]`, slices it along axis 2, and gives
the third branch the residual `transpose[1,2,0]`. -/
theorem find_slice_transpose.example_residual :
    (find_slice_transpose.apply op_compute_shape slice_mixed_transpose_module
          { result := 0 }).map
        (fun m1 => (m1.instructions.map Prod.fst, m1.returns, m1.get_operator 7,
          m1.get_operator 8, m1.get_operator 10, m1.inputs 10, m1.get_operator 11,
          m1.inputs 11, (m1.get_shape 11).lens))
      = .ok ([0, 7, 1, 2, 3, 8, 4, 9, 5, 10, 11, 6], [8, 9, 11],
          { name := "transpose", dims := [1, 2, 0] },
          { name := "slice", axes := [2], starts := [0], ends := [2] },
          { name := "slice", axes := [2], starts := [4], ends := [6] }, [7],
          { name := "transpose", dims := [1, 2, 0] }, [10], [3, 2, 2]) := by
  rfl

/-! ### C22 -/

theorem vector_less_irrefl (a : List Int) : vector_less a a = false := by
  induction a with
  | nil => rfl
  | cons x xs ih => simp [vector_less, ih]

theorem vector_less_trans (a b d : List Int) (h1 : vector_less a b = true)
    (h2 : vector_less b d = true) : vector_less a d = true := by
  induction a generalizing b d with
  | nil =>
    cases b with
    | nil => simp [vector_less] at h1
    | cons y ys =>
      cases d with
      | nil => simp [vector_less] at h2
      | cons z zs => rfl
  | cons x xs ih =>
    cases b with
    | nil => simp [vector_less] at h1
    | cons y ys =>
      cases d with
      | nil => simp [vector_less] at h2
      | cons z zs =>
        simp only [vector_less] at h1 h2 ⊢
        split_ifs at h1 h2 ⊢ <;> first | rfl | omega | exact ih ys zs h1 h2

theorem vector_less_asymm (a b : List Int) (h : vector_less a b = true) :
    vector_less b a = false := by
  cases hba : vector_less b a with
  | false => rfl
  | true =>
    have := vector_less_trans a b a h hba
    rw [vector_less_irrefl] at this
    exact absurd this (by decide)

theorem vector_less_total (a b : List Int) (h1 : vector_less a b = false)
    (h2 : vector_less b a = false) : a = b := by
  induction a generalizing b with
  | nil =>
    cases b with
    | nil => rfl
    | cons y ys => simp [vector_less] at h1
  | cons x xs ih =>
    cases b with
    | nil => simp [vector_less] at h2
    | cons y ys =>
      simp only [vector_less] at h1 h2
      split_ifs at h1 h2
      have hxy : x = y := by omega
      rw [hxy, ih ys h1 h2]

/-- The order of the keys of the count map is the lexicographic order of lists. -/
theorem vector_less_iff_lt (a b : List Int) : vector_less a b = true ↔ List.lt a b := by
  induction a generalizing b with
  | nil =>
    cases b with
    | nil =>
      simp only [vector_less, Bool.false_eq_true, false_iff]
      intro h
      cases h
    | cons y ys =>
      simp only [vector_less, true_iff]
      exact List.lt.nil y ys
  | cons x xs ih =>
    cases b with
    | nil =>
      simp only [vector_less, Bool.false_eq_true, false_iff]
      intro h
      cases h
    | cons y ys =>
      simp only [vector_less]
      split_ifs with h1 h2
      · simp only [true_iff]
        exact List.lt.head xs ys h1
      · simp only [Bool.false_eq_true, false_iff]
        intro h
        cases h with
        | head _ _ h => exact h1 h
        | tail _ h _ => exact h h2
      · rw [ih ys]
        constructor
        · intro h
          exact List.lt.tail h1 h2 h
        · intro h
          cases h with
          | head _ _ h => exact absurd h h1
          | tail _ _ h => exact h
/-- The entries of the map after `count[perm]++`: new entries have the key `perm`. -/
theorem mem_increment_count (p : List Int) (cnt : List (List Int × Int))
    (x : List Int × Int) (h : x ∈ increment_count p cnt) : x.1 = p ∨ x ∈ cnt := by
  induction cnt with
  | nil =>
    simp only [increment_count, List.mem_singleton] at h
    left
    rw [h]
  | cons e rest ih =>
    obtain ⟨k, c⟩ := e
    simp only [increment_count] at h
    split_ifs at h with h1 h2
    · rcases List.mem_cons.mp h with h | h
      · left
        rw [h]
        exact h1
      · right
        exact List.mem_cons_of_mem _ h
    · rcases List.mem_cons.mp h with h | h
      · left
        rw [h]
      · right
        exact h
    · rcases List.mem_cons.mp h with h | h
      · right
        rw [h]
        exact List.mem_cons_self _ _
      · rcases ih h with h | h
        · left
          exact h
        · right
          exact List.mem_cons_of_mem _ h

theorem mem_increment_count_of_ne (p : List Int) (cnt : List (List Int × Int))
    (k : List Int) (c : Int) (hk : k ≠ p) :
    (k, c) ∈ increment_count p cnt ↔ (k, c) ∈ cnt := by
  induction cnt with
  | nil =>
    simp only [increment_count, List.mem_singleton, List.not_mem_nil, iff_false]
    intro h
    exact hk (congrArg Prod.fst h)
  | cons e rest ih =>
    obtain ⟨k1, c1⟩ := e
    simp only [increment_count]
    split_ifs with h1 h2
    · subst h1
      simp only [List.mem_cons, Prod.mk.injEq]
      constructor
      · rintro (⟨h, -⟩ | h)
        · exact absurd h hk
        · exact Or.inr h
      · rintro (⟨h, -⟩ | h)
        · exact absurd h hk
        · exact Or.inr h
    · simp only [List.mem_cons, Prod.mk.injEq]
      constructor
      · rintro (⟨h, -⟩ | h)
        · exact absurd h hk
        · exact h
      · intro h
        exact Or.inr h
    · simp only [List.mem_cons, ih]

theorem increment_count_sorted (p : List Int) (cnt : List (List Int × Int))
    (h : count_sorted cnt) : count_sorted (increment_count p cnt) := by
  induction cnt with
  | nil => exact List.pairwise_singleton _ _
  | cons e rest ih =>
    obtain ⟨k, c⟩ := e
    unfold count_sorted at h ih ⊢
    rw [List.pairwise_cons] at h
    obtain ⟨hhead, htail⟩ := h
    simp only [increment_count]
    split_ifs with h1 h2
    · rw [List.pairwise_cons]
      exact ⟨hhead, htail⟩
    · rw [List.pairwise_cons]
      refine ⟨?_, List.pairwise_cons.mpr ⟨hhead, htail⟩⟩
      intro x hx
      rcases List.mem_cons.mp hx with hx | hx
      · rw [hx]
        exact h2
      · exact vector_less_trans p k x.1 h2 (hhead x hx)
    · rw [List.pairwise_cons]
      refine ⟨?_, ih htail⟩
      intro x hx
      rcases mem_increment_count p rest x hx with hx | hx
      · rw [hx]
        cases hkp : vector_less k p with
        | true => rfl
        | false =>
          exact absurd (vector_less_total k p hkp (by simpa using h2)) h1
      · exact hhead x hx

/-- After `count[perm]++` an entry that was there is one higher. -/
theorem increment_count_present (p : List Int) (cnt : List (List Int × Int)) (c0 : Int)
    (h : count_sorted cnt) (hp : (p, c0) ∈ cnt) (c : Int) :
    (p, c) ∈ increment_count p cnt ↔ c = c0 + 1 := by
  induction cnt with
  | nil => cases hp
  | cons e rest ih =>
    obtain ⟨k, c1⟩ := e
    unfold count_sorted at h ih
    rw [List.pairwise_cons] at h
    obtain ⟨hhead, htail⟩ := h
    have hnot : ∀ c2, k = p → (p, c2) ∉ rest := by
      intro c2 hk hmem
      have := hhead (p, c2) hmem
      rw [hk, vector_less_irrefl] at this
      exact absurd this (by decide)
    simp only [increment_count]
    by_cases h1 : k = p
    · rw [if_pos h1]
      have hc : c0 = c1 := by
        rcases List.mem_cons.mp hp with hp | hp
        · exact (Prod.mk.inj hp).2
        · exact absurd hp (hnot c0 h1)
      subst h1
      simp only [List.mem_cons, Prod.mk.injEq, true_and]
      constructor
      · rintro (h | h)
        · rw [h, hc]
        · exact absurd h (hnot c rfl)
      · intro h
        left
        rw [h, hc]
    · rw [if_neg h1]
      have hp1 : (p, c0) ∈ rest := by
        rcases List.mem_cons.mp hp with hp | hp
        · exact absurd (Prod.mk.inj hp).1.symm h1
        · exact hp
      have hless : vector_less p k = false := vector_less_asymm k p (hhead (p, c0) hp1)
      rw [if_neg (by rw [hless]; exact Bool.false_ne_true)]
      simp only [List.mem_cons, Prod.mk.injEq]
      rw [ih htail hp1]
      constructor
      · rintro (⟨h, -⟩ | h)
        · exact absurd h.symm h1
        · exact h
      · intro h
        exact Or.inr h

/-- After `count[perm]++` a key that was not there has the count 1. -/
theorem increment_count_absent (p : List Int) (cnt : List (List Int × Int))
    (hp : ∀ c0, (p, c0) ∉ cnt) (c : Int) :
    (p, c) ∈ increment_count p cnt ↔ c = 1 := by
  induction cnt with
  | nil =>
    simp only [increment_count, List.mem_singleton, Prod.mk.injEq, true_and]
  | cons e rest ih =>
    obtain ⟨k, c1⟩ := e
    have h1 : k ≠ p := by
      intro hk
      exact hp c1 (by rw [hk]; exact List.mem_cons_self _ _)
    have hrest : ∀ c0, (p, c0) ∉ rest := fun c0 hm => hp c0 (List.mem_cons_of_mem _ hm)
    simp only [increment_count]
    rw [if_neg h1]
    split_ifs with h2
    · simp only [List.mem_cons, Prod.mk.injEq, true_and]
      constructor
      · rintro (h | ⟨h, -⟩ | h)
        · exact h
        · exact absurd h.symm h1
        · exact absurd h (hrest c)
      · intro h
        exact Or.inl h
    · simp only [List.mem_cons, Prod.mk.injEq]
      rw [ih hrest]
      constructor
      · rintro (⟨h, -⟩ | h)
        · exact absurd h.symm h1
        · exact h
      · intro h
        exact Or.inr h
theorem foldl_max_first (rest : List (List Int × Int)) (best : List Int × Int)
    (hbr : ∀ q ∈ rest, vector_less best.1 q.1 = true) (hpw : count_sorted rest) :
    (rest.foldl (fun best q => if best.2 < q.2 then q else best) best = best ∨
        rest.foldl (fun best q => if best.2 < q.2 then q else best) best ∈ rest)
      ∧ best.2 ≤ (rest.foldl (fun best q => if best.2 < q.2 then q else best) best).2
      ∧ (∀ q ∈ rest,
          q.2 ≤ (rest.foldl (fun best q => if best.2 < q.2 then q else best) best).2)
      ∧ (rest.foldl (fun best q => if best.2 < q.2 then q else best) best = best ∨
          best.2 < (rest.foldl (fun best q => if best.2 < q.2 then q else best) best).2)
      ∧ (∀ q ∈ rest,
          q.2 = (rest.foldl (fun best q => if best.2 < q.2 then q else best) best).2 →
          q = rest.foldl (fun best q => if best.2 < q.2 then q else best) best ∨
            vector_less
              (rest.foldl (fun best q => if best.2 < q.2 then q else best) best).1 q.1
              = true) := by
  induction rest generalizing best with
  | nil =>
    simp only [List.foldl_nil, List.not_mem_nil, or_false, le_refl, true_or, true_and]
    exact ⟨fun _ h => absurd h (by simp), fun _ h => absurd h (by simp)⟩
  | cons x xs ih =>
    unfold count_sorted at hpw
    rw [List.pairwise_cons] at hpw
    obtain ⟨hx, hxs⟩ := hpw
    rw [List.foldl_cons]
    by_cases hlt : best.2 < x.2
    · rw [if_pos hlt]
      obtain ⟨i1, i2, i3, i4, i5⟩ := ih x hx hxs
      generalize xs.foldl (fun best q => if best.2 < q.2 then q else best) x = e at *
      refine ⟨?_, by omega, ?_, ?_, ?_⟩
      · rcases i1 with h | h
        · right
          rw [h]
          exact List.mem_cons_self _ _
        · right
          exact List.mem_cons_of_mem _ h
      · intro q hq
        rcases List.mem_cons.mp hq with hq | hq
        · rw [hq]
          exact i2
        · exact i3 q hq
      · right
        omega
      · intro q hq he
        rcases List.mem_cons.mp hq with hq | hq
        · rcases i4 with h | h
          · left
            rw [hq, h]
          · rw [hq] at he
            omega
        · exact i5 q hq he
    · rw [if_neg hlt]
      obtain ⟨i1, i2, i3, i4, i5⟩ :=
        ih best (fun q hq => hbr q (List.mem_cons_of_mem _ hq)) hxs
      generalize xs.foldl (fun best q => if best.2 < q.2 then q else best) best = e at *
      refine ⟨?_, i2, ?_, i4, ?_⟩
      · rcases i1 with h | h
        · left
          exact h
        · right
          exact List.mem_cons_of_mem _ h
      · intro q hq
        rcases List.mem_cons.mp hq with hq | hq
        · rw [hq]
          omega
        · exact i3 q hq
      · intro q hq he
        rcases List.mem_cons.mp hq with hq | hq
        · rcases i4 with h | h
          · right
            rw [hq, h]
            exact hbr x (List.mem_cons_self _ _)
          · rw [hq] at he
            omega
        · exact i5 q hq he

/-- What `std::max_element` by the count returns on a non-empty key-ordered map: an entry
with the greatest count, and among those the one with the least key. -/
theorem max_element_by_count_first (p : List Int × Int) (rest : List (List Int × Int))
    (h : count_sorted (p :: rest)) :
    ∃ e, max_element_by_count (p :: rest) = some e ∧ e ∈ p :: rest
      ∧ (∀ q ∈ p :: rest, q.2 ≤ e.2)
      ∧ (∀ q ∈ p :: rest, q.2 = e.2 → q = e ∨ vector_less e.1 q.1 = true) := by
  unfold count_sorted at h
  rw [List.pairwise_cons] at h
  obtain ⟨hp, hrest⟩ := h
  obtain ⟨i1, i2, i3, i4, i5⟩ := foldl_max_first rest p hp hrest
  refine ⟨_, rfl, ?_, ?_, ?_⟩
  · rcases i1 with h | h
    · rw [h]
      exact List.mem_cons_self _ _
    · exact List.mem_cons_of_mem _ h
  · intro q hq
    rcases List.mem_cons.mp hq with hq | hq
    · rw [hq]
      exact i2
    · exact i3 q hq
  · intro q hq he
    rcases List.mem_cons.mp hq with hq | hq
    · rcases i4 with h | h
      · left
        rw [hq, h]
      · rw [hq] at he
        omega
    · exact i5 q hq he
theorem increment_count_invariant (p : List Int) (cnt : List (List Int × Int))
    (ps : List (List Int))
    (h : count_sorted cnt ∧ (∀ k c, (k, c) ∈ cnt → k ∈ ps ∧ c = Int.ofNat (ps.count k))
      ∧ ∀ k ∈ ps, (k, Int.ofNat (ps.count k)) ∈ cnt) :
    count_sorted (increment_count p cnt)
      ∧ (∀ k c, (k, c) ∈ increment_count p cnt →
          k ∈ ps ++ [p] ∧ c = Int.ofNat ((ps ++ [p]).count k))
      ∧ ∀ k ∈ ps ++ [p], (k, Int.ofNat ((ps ++ [p]).count k)) ∈ increment_count p cnt := by
  obtain ⟨hs, hA, hB⟩ := h
  have hcount_ne : ∀ k, k ≠ p → (ps ++ [p]).count k = ps.count k := by
    intro k hk
    rw [List.count_append, List.count_singleton]
    simp [Ne.symm hk]
  have hcount_eq : (ps ++ [p]).count p = ps.count p + 1 := by
    rw [List.count_append, List.count_singleton]
    simp
  have hkey : ∀ c, (p, c) ∈ increment_count p cnt ↔ c = Int.ofNat (ps.count p) + 1 := by
    intro c
    by_cases hp : p ∈ ps
    · exact increment_count_present p cnt _ hs (hB p hp) c
    · rw [increment_count_absent p cnt (fun c0 hm => hp (hA p c0 hm).1) c,
        List.count_eq_zero_of_not_mem hp]
      simp
  refine ⟨increment_count_sorted p cnt hs, ?_, ?_⟩
  · intro k c hm
    by_cases hk : k = p
    · subst hk
      refine ⟨by simp, ?_⟩
      rw [(hkey c).mp hm, hcount_eq]
      simp
    · rw [mem_increment_count_of_ne p cnt k c hk] at hm
      obtain ⟨h1, h2⟩ := hA k c hm
      refine ⟨List.mem_append_left _ h1, ?_⟩
      rw [hcount_ne k hk]
      exact h2
  · intro k hm
    by_cases hk : k = p
    · subst hk
      rw [hkey, hcount_eq]
      simp
    · rw [mem_increment_count_of_ne p cnt k _ hk, hcount_ne k hk]
      apply hB
      rcases List.mem_append.mp hm with h | h
      · exact h
      · exact absurd (List.mem_singleton.mp h) hk

theorem foldl_increment_count_invariant (l : List (List Int)) (cnt : List (List Int × Int))
    (ps : List (List Int))
    (h : count_sorted cnt ∧ (∀ k c, (k, c) ∈ cnt → k ∈ ps ∧ c = Int.ofNat (ps.count k))
      ∧ ∀ k ∈ ps, (k, Int.ofNat (ps.count k)) ∈ cnt) :
    count_sorted (l.foldl (fun count q => increment_count q count) cnt)
      ∧ (∀ k c, (k, c) ∈ l.foldl (fun count q => increment_count q count) cnt →
          k ∈ ps ++ l ∧ c = Int.ofNat ((ps ++ l).count k))
      ∧ ∀ k ∈ ps ++ l,
          (k, Int.ofNat ((ps ++ l).count k))
            ∈ l.foldl (fun count q => increment_count q count) cnt := by
  induction l generalizing cnt ps with
  | nil => simpa using h
  | cons q qs ih =>
    have h1 := ih (increment_count q cnt) (ps ++ [q]) (increment_count_invariant q cnt ps h)
    simpa using h1

/-- The count map the loop of `find_common_perm` builds over the permutations `ps`: ordered
by key, with an entry for every permutation of `ps` that holds its multiplicity. -/
theorem count_map_spec (ps : List (List Int)) :
    count_sorted (ps.foldl (fun count q => increment_count q count) [])
      ∧ (∀ k c, (k, c) ∈ ps.foldl (fun count q => increment_count q count) [] →
          k ∈ ps ∧ c = Int.ofNat (ps.count k))
      ∧ ∀ k ∈ ps,
          (k, Int.ofNat (ps.count k)) ∈ ps.foldl (fun count q => increment_count q count) [] := by
  have h := foldl_increment_count_invariant ps [] []
    ⟨List.Pairwise.nil, fun _ _ hm => absurd hm (by simp), fun _ hm => absurd hm (by simp)⟩
  simpa using h

theorem find_common_perm_spec (m : module) (transposes : List instruction_ref)
    (h : transposes ≠ []) :
    ∃ p, find_slice_transpose.find_common_perm m transposes = .ok p
      ∧ p ∈ transposes.map (fun t => (m.get_operator t).dims)
      ∧ (∀ q, (transposes.map fun t => (m.get_operator t).dims).count q
          ≤ (transposes.map fun t => (m.get_operator t).dims).count p)
      ∧ (∀ q, (transposes.map fun t => (m.get_operator t).dims).count q
            = (transposes.map fun t => (m.get_operator t).dims).count p →
          q = p ∨ vector_less p q = true) := by
  have hfold : transposes.foldl
      (fun count t => increment_count (m.get_operator t).dims count) []
      = (transposes.map fun t => (m.get_operator t).dims).foldl
          (fun count q => increment_count q count) [] := by
    rw [List.foldl_map]
  generalize hps : (transposes.map fun t => (m.get_operator t).dims) = ps at hfold
  have hne : ps ≠ [] := by
    rw [← hps]
    simpa using h
  obtain ⟨hs, hA, hB⟩ := count_map_spec ps
  unfold find_slice_transpose.find_common_perm
  simp only [hfold]
  cases hcnt : ps.foldl (fun count q => increment_count q count) [] with
  | nil =>
    obtain ⟨k, hk⟩ := List.exists_mem_of_ne_nil ps hne
    have := hB k hk
    rw [hcnt] at this
    cases this
  | cons e rest =>
    rw [hcnt] at hs hA hB
    obtain ⟨b, hb, hmem, hmax, htie⟩ := max_element_by_count_first e rest hs
    simp only [hb]
    obtain ⟨b1, b2⟩ := hA b.1 b.2 hmem
    refine ⟨b.1, rfl, b1, ?_, ?_⟩
    · intro q
      by_cases hq : q ∈ ps
      · have := hmax _ (hB q hq)
        simp only [Int.ofNat_eq_coe] at this b2
        omega
      · rw [List.count_eq_zero_of_not_mem hq]
        exact Nat.zero_le _
    · intro q hq
      have hpos : 0 < ps.count b.1 := List.count_pos_iff.mpr b1
      have hqm : q ∈ ps := List.count_pos_iff.mp (by omega)
      have he : (q, Int.ofNat (ps.count q)).2 = b.2 := by
        simp only [Int.ofNat_eq_coe] at b2 ⊢
        omega
      rcases htie _ (hB q hqm) he with h1 | h1
      · left
        rw [← h1]
      · right
        exact h1
theorem mapM_except_length {α β : Type} (f : α → Except error β) (l : List α) (r : List β)
    (h : l.mapM f = .ok r) : r.length = l.length := by
  induction l generalizing r with
  | nil =>
    rw [List.mapM_nil] at h
    cases h
    rfl
  | cons a rest ih =>
    rw [List.mapM_cons] at h
    cases ha : f a with
    | error e =>
      rw [ha] at h
      cases h
    | ok b =>
      rw [ha] at h
      cases hr : rest.mapM f with
      | error e =>
        rw [hr] at h
        cases h
      | ok bs =>
        rw [hr] at h
        cases h
        simp [ih bs hr]

/-- C22: for every non-empty list of transposes `find_common_perm` returns a permutation
that occurs among them with the greatest multiplicity, and when several permutations have
that multiplicity the lexicographically least of them; `find_slice_transpose::apply` calls
it with as many transposes as there are splits, at least two. -/
theorem C22_find_common_perm_majority (m : module) (transposes : List instruction_ref)
    (h : transposes ≠ []) :
    (∃ p, find_slice_transpose.find_common_perm m transposes = .ok p
        ∧ p ∈ transposes.map (fun t => (m.get_operator t).dims)
        ∧ (∀ q, (transposes.map fun t => (m.get_operator t).dims).count q
            ≤ (transposes.map fun t => (m.get_operator t).dims).count p)
        ∧ (∀ q, (transposes.map fun t => (m.get_operator t).dims).count q
              = (transposes.map fun t => (m.get_operator t).dims).count p →
            q = p ∨ List.lt p q))
      ∧ (∀ (r : matcher_result) (ts : List instruction_ref),
          ¬ ((m.outputs r.result).filter (find_slice_transpose.is_split m)).length < 2 →
          ((m.outputs r.result).filter (find_slice_transpose.is_split m)).mapM
              (fun split => front (m.outputs split)) = .ok ts →
          2 ≤ ts.length) := by
  constructor
  · obtain ⟨p, h1, h2, h3, h4⟩ := find_common_perm_spec m transposes h
    refine ⟨p, h1, h2, h3, ?_⟩
    intro q hq
    rcases h4 q hq with h5 | h5
    · exact Or.inl h5
    · exact Or.inr ((vector_less_iff_lt p q).mp h5)
  · intro r ts hlen hts
    rw [mapM_except_length _ _ _ hts]
    omega

/-- C22 on the example graph: of `[1,2,0]`, `[1,2,0]`, `[2,0,1]` the majority `[1,2,0]` is
returned, and of the tie `[2,0,1]`, `[1,2,0]` the lexicographically least, `[1,2,0]`. -/
theorem C22_find_common_perm_majority_witness :
    find_slice_transpose.find_common_perm slice_mixed_transpose_module [4, 5, 6]
        = .ok [1, 2, 0]
      ∧ find_slice_transpose.find_common_perm slice_mixed_transpose_module [6, 5]
        = .ok [1, 2, 0]
      ∧ ∃ p, find_slice_transpose.find_common_perm slice_mixed_transpose_module [6, 5] = .ok p
          ∧ ∀ q, ([[2, 0, 1], [1, 2, 0]] : List (List Int)).count q
              = ([[2, 0, 1], [1, 2, 0]] : List (List Int)).count p → q = p ∨ List.lt p q :=
  ⟨by rfl, by rfl,
   (C22_find_common_perm_majority slice_mixed_transpose_module [6, 5] (by decide)).1.imp
     fun _ hp => ⟨hp.1, hp.2.2.2⟩⟩

/-! ### C24 -/

theorem match_skip_of_walk (names : List String) (m : module) (ins x : instruction_ref)
    (h : skip_walk names m ins x) :
    ∃ n, ∀ fuel, n ≤ fuel → match_skip names m fuel ins = .ok x := by
  induction h with
  | stop x hx =>
    refine ⟨1, ?_⟩
    intro fuel hf
    obtain ⟨k, rfl⟩ : ∃ k, fuel = k + 1 := ⟨fuel - 1, by omega⟩
    unfold match_skip
    split
    · next next hin =>
      rw [if_neg]
      intro hn
      exact hx ⟨hn, next, hin⟩
    · rfl
  | step ins a x hname hin _ ih =>
    obtain ⟨n, hn⟩ := ih
    refine ⟨n + 1, ?_⟩
    intro fuel hf
    obtain ⟨k, rfl⟩ : ∃ k, fuel = k + 1 := ⟨fuel - 1, by omega⟩
    unfold match_skip
    simp only [hin, hname, if_true]
    exact hn k (by omega)

/-- The end of a walk is not itself a single-input instruction with a name of the set. -/
theorem skip_walk_end (names : List String) (m : module) (ins x : instruction_ref)
    (h : skip_walk names m ins x) : ¬ (m.name x ∈ names ∧ ∃ a, m.inputs x = [a]) := by
  induction h with
  | stop x hx => exact hx
  | step _ _ _ _ _ _ ih => exact ih

theorem find_reshaper_apply_eq (compute_shape : operation → List shape → Option shape)
    (m : module) (ins x : instruction_ref) :
    find_reshaper.apply compute_shape m { result := ins, instructions := [("x", x)] }
      = if (m.get_shape x).standard = true then
          m.replace_instruction_op compute_shape ins
            { name := "reshape", dims := (m.get_shape ins).lens.map Int.ofNat } [x]
        else
          match m.insert_instruction compute_shape ins { name := "contiguous" } [x] with
          | .error e => .error e
          | .ok (m1, c) =>
            m1.replace_instruction_op compute_shape ins
              { name := "reshape", dims := (m.get_shape ins).lens.map Int.ofNat } [c] := by
  have hx : ({ result := ins, instructions := [("x", x)] } : matcher_result).at_name "x"
      = .ok x := rfl
  unfold find_reshaper.apply
  simp only [hx]
  cases (m.get_shape x).standard <;> rfl
theorem reshaper_names_mem (s : String) :
    s ∈ reshaper_names ↔ s ∈ reshaper_names ++ ["contiguous"] := by
  simp only [reshaper_names, List.mem_append, List.mem_cons, List.mem_singleton,
    List.not_mem_nil, or_false]
  tauto

theorem skip_walk_congr (n1 n2 : List String) (m : module) (ins x : instruction_ref)
    (hn : ∀ s, s ∈ n1 ↔ s ∈ n2) (h : skip_walk n1 m ins x) : skip_walk n2 m ins x := by
  induction h with
  | stop x hx =>
    exact skip_walk.stop x fun h => hx ⟨(hn _).mpr h.1, h.2⟩
  | step ins a x hname hin _ ih =>
    exact skip_walk.step ins a x ((hn _).mp hname) hin ih

/-- C24: on a reshaper `ins` that `find_reshaper` matches, `x` is the first instruction,
walking back from `ins` through single-input reshape-family instructions, that is not one
of them, and `find_reshaper::apply` replaces `ins` by a reshape to the lengths of `ins`
whose input is `x` when the shape of `x` is standard, and a contiguous of `x` inserted in
front of `ins` when it is not. -/
theorem C24_reshaper_collapses (compute_shape : operation → List shape → Option shape)
    (m : module) (ins a r x : instruction_ref) (rest : List instruction_ref)
    (h_name : m.name ins ∈ reshaper_names)
    (h_out : ∀ o ∈ m.outputs ins, m.name o ∉ reshaper_names)
    (h_arg : m.inputs ins = a :: rest)
    (h_r : skip_walk ["contiguous"] m a r) (h_rr : m.name r ∈ reshaper_names)
    (h_x : skip_walk reshaper_names m ins x) :
    (∃ n, ∀ fuel, n ≤ fuel →
        find_reshaper.matcher fuel m ins
          = .ok (some { result := ins, instructions := [("x", x)] }))
      ∧ ¬ (m.name x ∈ reshaper_names ∧ ∃ b, m.inputs x = [b])
      ∧ ((m.get_shape x).standard = true →
          find_reshaper.apply compute_shape m { result := ins, instructions := [("x", x)] }
            = m.replace_instruction_op compute_shape ins
                { name := "reshape", dims := (m.get_shape ins).lens.map Int.ofNat } [x])
      ∧ ((m.get_shape x).standard = false →
          find_reshaper.apply compute_shape m { result := ins, instructions := [("x", x)] }
            = match m.insert_instruction compute_shape ins { name := "contiguous" } [x] with
              | .error e => .error e
              | .ok (m1, c) =>
                m1.replace_instruction_op compute_shape ins
                  { name := "reshape", dims := (m.get_shape ins).lens.map Int.ofNat }
                  [c]) := by
  refine ⟨?_, skip_walk_end _ m ins x h_x, ?_, ?_⟩
  · obtain ⟨n1, hn1⟩ := match_skip_of_walk _ m a r h_r
    obtain ⟨n2, hn2⟩ := match_skip_of_walk (reshaper_names ++ ["contiguous"]) m ins x
      (skip_walk_congr reshaper_names _ m ins x reshaper_names_mem h_x)
    refine ⟨max n1 n2, ?_⟩
    intro fuel hf
    have hany : (m.outputs ins).any (match_name reshaper_names m) = false := by
      rw [List.any_eq_false]
      intro o ho
      simpa [match_name] using h_out o ho
    unfold find_reshaper.matcher
    simp only [match_name, h_name, decide_True, Bool.not_true, Bool.false_eq_true, if_false,
      match_arg, h_arg, List.getElem?_cons_zero, hn1 fuel (by omega), h_rr,
      hn2 fuel (by omega)]
    simp only [match_name] at hany
    rw [hany]
    rfl
  · intro hs
    rw [find_reshaper_apply_eq, if_pos hs]
  · intro hs
    rw [find_reshaper_apply_eq, if_neg (by rw [hs]; exact Bool.false_ne_true)]

/-- C24 on the example graphs: on `x -> reshape -> reshape` the second reshape is replaced
by `reshape[3,2](x)`; behind a transpose a contiguous of the transpose is inserted and
reshaped. -/
theorem C24_reshaper_collapses_witness :
    (find_reshaper.apply op_compute_shape reshape_chain_module
          { result := 2, instructions := [("x", 0)] }).map
        (fun m1 => (m1.instructions.map Prod.fst, m1.inputs 3, m1.get_operator 4, m1.inputs 4))
      = .ok ([0, 1, 4, 2, 3], [4], { name := "reshape", dims := [3, 2] }, [0])
    ∧ (find_reshaper.apply op_compute_shape reshape_transposed_module
          { result := 4, instructions := [("x", 1)] }).map
        (fun m1 => (m1.instructions.map Prod.fst, m1.inputs 5, m1.get_operator 7, m1.inputs 7,
          m1.get_operator 6, m1.inputs 6))
      = .ok ([0, 1, 2, 3, 6, 7, 4, 5], [7], { name := "reshape", dims := [3, 2] }, [6],
          { name := "contiguous" }, [1]) := by
  have w1 := (C24_reshaper_collapses op_compute_shape reshape_chain_module 2 1 1 0 []
    (by decide) (by decide) rfl
    (skip_walk.stop 1 fun h => absurd h.1 (by decide)) (by decide)
    (skip_walk.step 2 1 0 (by decide) rfl
      (skip_walk.step 1 0 0 (by decide) rfl
        (skip_walk.stop 0 fun h => absurd h.1 (by decide))))).2.2.1 (by decide)
  have w2 := (C24_reshaper_collapses op_compute_shape reshape_transposed_module 4 3 3 1 []
    (by decide) (by decide) rfl
    (skip_walk.stop 3 fun h => absurd h.1 (by decide)) (by decide)
    (skip_walk.step 4 3 1 (by decide) rfl
      (skip_walk.step 3 2 1 (by decide) rfl
        (skip_walk.step 2 1 1 (by decide) rfl
          (skip_walk.stop 1 fun h => absurd h.1 (by decide)))))).2.2.2 (by decide)
  rw [w1, w2]
  exact ⟨by rfl, by rfl⟩

/-! ### C23 -/

/-- C23 fails on `x -> transpose[1,0] -> contiguous -> reshape[6] -> leaky_relu(alpha = 0.2)`:
`find_transpose_contiguous_reshaper_unary::apply` inserts `make_op("leaky_relu")` on the
output of the transpose, the operator of that name with its default parameters, not the
matched operator with `alpha = 0.2`; the matched instruction is replaced by the original
reshape of a new contiguous of the inserted instruction. -/
theorem C23_unary_parameters_dropped :
    unary_reshaper_module.get_operator 4 = { name := "leaky_relu", alpha := 1 / 5 }
      ∧ (find_transpose_contiguous_reshaper_unary.apply op_compute_shape
            unary_reshaper_module unary_reshaper_match).map
          (fun m1 => (m1.instructions.map Prod.fst, m1.returns, m1.get_operator 5, m1.inputs 5,
            m1.get_operator 6, m1.inputs 6, m1.get_operator 7, m1.inputs 7))
          = .ok ([0, 1, 5, 6, 2, 3, 7, 4], [7],
              { name := "leaky_relu" }, [1],
              { name := "contiguous" }, [5],
              { name := "reshape", dims := [6] }, [6])
      ∧ ({ name := "leaky_relu" } : operation) ≠ unary_reshaper_module.get_operator 4 := by
  refine ⟨by rfl, by rfl, ?_⟩
  intro h
  have h1 : (0 : Rat) = 1 / 5 := congrArg operation.alpha h
  norm_num at h1

/-- Whatever the parameters of the matched unary instruction are, the operator
`find_transpose_contiguous_reshaper_unary::apply` inserts depends on its name only. -/
theorem find_transpose_contiguous_reshaper_unary_inserts
    (compute_shape : operation → List shape → Option shape) (m : module) (r : matcher_result)
    (reshaper_ins trans_ins cont_ins : instruction_ref)
    (h1 : r.at_name "reshaper_ins" = .ok reshaper_ins)
    (h2 : r.at_name "trans_ins" = .ok trans_ins)
    (h3 : r.at_name "cont_ins" = .ok cont_ins) :
    find_transpose_contiguous_reshaper_unary.apply compute_shape m r
      = match m.insert_instruction compute_shape cont_ins
            { name := (m.get_operator r.result).name } [trans_ins] with
        | .error e => .error e
        | .ok (m1, unary_ins) =>
          match m1.insert_instruction compute_shape cont_ins { name := "contiguous" }
              [unary_ins] with
          | .error e => .error e
          | .ok (m2, new_cont_ins) =>
            m2.replace_instruction_op compute_shape r.result (m2.get_operator reshaper_ins)
              [new_cont_ins] := by
  unfold find_transpose_contiguous_reshaper_unary.apply
  simp only [h1, h2, h3]
  rfl

/-! ### C25 -/

theorem to_int32_of_range (x : Int) (h1 : -2 ^ 31 ≤ x) (h2 : x < 2 ^ 31) : to_int32 x = x := by
  unfold to_int32
  omega

theorem simplify_reshapes.loop_spec
    (find_matches : List rule → module → Except error module) (depth : Int)
    (h_depth : depth < 2 ^ 31) (k : Nat) :
    ∀ (i : Int) (m : module) (fuel : Nat), 0 ≤ i → i ≤ depth → depth - i = k → k + 1 ≤ fuel →
      simplify_reshapes.loop find_matches depth fuel i m
        = (simplify_reshapes.rounds find_matches k m).map fun m1 => (depth, m1) := by
  induction k with
  | zero =>
    intro i m fuel h0 hi hk hf
    obtain ⟨f, rfl⟩ : ∃ f, fuel = f + 1 := ⟨fuel - 1, by omega⟩
    have hid : i = depth := by omega
    unfold simplify_reshapes.loop
    rw [if_neg (by omega), hid]
    rfl
  | succ k ih =>
    intro i m fuel h0 hi hk hf
    obtain ⟨f, rfl⟩ : ∃ f, fuel = f + 1 := ⟨fuel - 1, by omega⟩
    unfold simplify_reshapes.loop simplify_reshapes.rounds
    rw [if_pos (by omega), to_int32_of_range (i + 1) (by omega) (by omega)]
    cases simplify_reshapes.round find_matches m with
    | error e => rfl
    | ok m1 =>
      simp only
      exact ih (i + 1) m1 f (by omega) (by omega) (by push_cast at hk ⊢; omega) (by omega)

/-- C25: `simplify_reshapes::apply` ends after exactly `depth` rounds, its counter at
`depth` (no round and the module unchanged when `depth <= 0`), each round one
`find_matches` with the fourteen rules in their fixed order followed by one dead-code
elimination; a round that changes nothing does not end the loop. -/
theorem C25_depth_rounds (find_matches : List rule → module → Except error module)
    (depth : Int) (m : module) (h_depth : depth < 2 ^ 31) :
    (∀ fuel, depth.toNat + 1 ≤ fuel →
        simplify_reshapes.apply find_matches depth fuel m
          = (simplify_reshapes.rounds find_matches depth.toNat m).map
              fun m1 => (max depth 0, m1))
      ∧ (depth ≤ 0 → ∀ fuel, 1 ≤ fuel →
          simplify_reshapes.apply find_matches depth fuel m = .ok (0, m))
      ∧ (∀ m0, simplify_reshapes.round find_matches m0
          = match find_matches simplify_reshapes.rules m0 with
            | .error e => .error e
            | .ok m1 => .ok (dead_code_elimination m1))
      ∧ simplify_reshapes.rules
          = [.find_where_op, .find_resize, .find_nop_reshapes, .find_reshaper,
             .find_reshape_cont, .find_transpose, .find_concat_transpose,
             .find_concat_multibroadcasts, .find_nested_convert, .find_nested_slice,
             .find_nested_concat, .find_transpose_slice, .find_slice_transpose,
             .find_transpose_contiguous_reshaper_unary]
      ∧ simplify_reshapes.rules.length = 14
      ∧ ((∀ m0, simplify_reshapes.round find_matches m0 = .ok m0) →
          ∀ fuel, depth.toNat + 1 ≤ fuel →
            simplify_reshapes.apply find_matches depth fuel m = .ok (max depth 0, m)) := by
  have hmain : ∀ fuel, depth.toNat + 1 ≤ fuel →
      simplify_reshapes.apply find_matches depth fuel m
        = (simplify_reshapes.rounds find_matches depth.toNat m).map
            fun m1 => (max depth 0, m1) := by
    intro fuel hf
    unfold simplify_reshapes.apply
    by_cases hd : 0 ≤ depth
    · rw [simplify_reshapes.loop_spec find_matches depth h_depth depth.toNat 0 m fuel
        (le_refl 0) hd (by omega) hf,
        max_eq_left hd]
    · obtain ⟨f, rfl⟩ : ∃ f, fuel = f + 1 := ⟨fuel - 1, by omega⟩
      have h0 : depth.toNat = 0 := by omega
      unfold simplify_reshapes.loop
      rw [if_neg (by omega), h0, max_eq_right (by omega)]
      rfl
  refine ⟨hmain, ?_, fun _ => rfl, rfl, rfl, ?_⟩
  · intro hd fuel hf
    have h0 : depth.toNat = 0 := by omega
    rw [hmain fuel (by omega), h0, max_eq_right hd]
    rfl
  · intro hfix fuel hf
    rw [hmain fuel hf]
    have hr : ∀ k m0, simplify_reshapes.rounds find_matches k m0 = .ok m0 := by
      intro k
      induction k with
      | zero => intro m0; rfl
      | succ k ih =>
        intro m0
        unfold simplify_reshapes.rounds
        rw [hfix m0]
        exact ih m0
    rw [hr]
    rfl

/-- C25 at depth 4 with a scan that changes nothing, on a graph with nothing to collect:
four rounds are run. -/
theorem C25_depth_rounds_witness :
    simplify_reshapes.apply (fun _ m => .ok m) 4 5 nop_reshape_module
      = .ok (4, dead_code_elimination (dead_code_elimination (dead_code_elimination
          (dead_code_elimination nop_reshape_module)))) :=
  (C25_depth_rounds (fun _ m => .ok m) 4 nop_reshape_module (by norm_num)).1 5 (by decide)

/-! ### C27 -/

/-- C27: `parse_reshape::parse` with two arguments whose second has no constant value
throws "Reshape: non-constant shape input is not supported" and leaves the module as it
was; with one argument and a `shape` attribute, or with a constant second argument, it
adds a contiguous of the first argument and returns the reshape of it whose `dims` are the
values of the shape in their order. -/
theorem C27_parse_reshape (compute_shape : operation → List shape → Option shape)
    (attributes : List (String × List Int)) (m : module) :
    (∀ arg0 shape_arg : instruction_ref, m.eval shape_arg = none →
        parse_reshape.parse compute_shape attributes m [arg0, shape_arg]
          = (m, .error (.exception "Reshape: non-constant shape input is not supported")))
      ∧ (∀ (arg0 shape_arg : instruction_ref) (s : List Int), m.eval shape_arg = some s →
          parse_reshape.parse compute_shape attributes m [arg0, shape_arg]
            = match m.add_instruction compute_shape { name := "contiguous" } [arg0] with
              | .error e => (m, .error e)
              | .ok (m1, cont) =>
                match m1.add_instruction compute_shape { name := "reshape", dims := s }
                    [cont] with
                | .error e => (m1, .error e)
                | .ok (m2, r) => (m2, .ok r))
      ∧ (∀ (arg0 : instruction_ref) (s : List Int), attributes.lookup "shape" = some s →
          parse_reshape.parse compute_shape attributes m [arg0]
            = match m.add_instruction compute_shape { name := "contiguous" } [arg0] with
              | .error e => (m, .error e)
              | .ok (m1, cont) =>
                match m1.add_instruction compute_shape { name := "reshape", dims := s }
                    [cont] with
                | .error e => (m1, .error e)
                | .ok (m2, r) => (m2, .ok r)) := by
  refine ⟨?_, ?_, ?_⟩
  · intro arg0 shape_arg h
    simp only [parse_reshape.parse, parse_reshape.dims, h]
  · intro arg0 shape_arg s h
    simp only [parse_reshape.parse, parse_reshape.dims, h]
  · intro arg0 s h
    simp only [parse_reshape.parse, parse_reshape.dims, h]

/-- C27 on the example graph: with the constant `[3,2]` as second argument the parser adds
`contiguous(x)` and returns `reshape[3,2]` of it; with the parameter `x` as second
argument it throws and adds nothing; with one argument and the attribute `shape = [6]` it
returns `reshape[6](contiguous(x))`. -/
theorem C27_parse_reshape_witness :
    ((parse_reshape.parse op_compute_shape [] parse_reshape_module [0, 1]).2,
        (parse_reshape.parse op_compute_shape [] parse_reshape_module [0, 1]).1.instructions.map
          Prod.fst,
        (parse_reshape.parse op_compute_shape [] parse_reshape_module [0, 1]).1.get_operator 3,
        (parse_reshape.parse op_compute_shape [] parse_reshape_module [0, 1]).1.inputs 3,
        (parse_reshape.parse op_compute_shape [] parse_reshape_module [0, 1]).1.get_operator 2,
        (parse_reshape.parse op_compute_shape [] parse_reshape_module [0, 1]).1.inputs 2)
      = (.ok 3, [0, 1, 2, 3], { name := "reshape", dims := [3, 2] }, [2],
          { name := "contiguous" }, [0])
    ∧ parse_reshape.parse op_compute_shape [] parse_reshape_module [0, 0]
      = (parse_reshape_module,
          .error (.exception "Reshape: non-constant shape input is not supported"))
    ∧ ((parse_reshape.parse op_compute_shape [("shape", [6])] parse_reshape_module [0]).2,
        (parse_reshape.parse op_compute_shape [("shape", [6])] parse_reshape_module
          [0]).1.get_operator 3)
      = (.ok 3, { name := "reshape", dims := [6] }) := by
  refine ⟨?_, ?_, ?_⟩
  · rw [(C27_parse_reshape op_compute_shape [] parse_reshape_module).2.1 0 1 [3, 2] rfl]
    rfl
  · exact (C27_parse_reshape op_compute_shape [] parse_reshape_module).1 0 0 rfl
  · rw [(C27_parse_reshape op_compute_shape [("shape", [6])] parse_reshape_module).2.2 0 [6]
      rfl]
    rfl

/-! ### C26 -/

theorem string_append_ne_empty (s t : String) (h : s ≠ "") : s ++ t ≠ "" := by
  intro he
  apply h
  have h1 : (s ++ t).length = 0 := by rw [he]; rfl
  rw [String.length_append] at h1
  have h2 : s.data.length = 0 := by
    have : s.length = 0 := by omega
    exact this
  exact String.ext (List.length_eq_zero.mp h2)

/-- A set output name is kept by the loop over the sources. -/
theorem add_sources_out_set (c : src_compiler) (srcs : List src_file) (td : tmp_dir)
    (params out : String) (h : out ≠ "") :
    (c.add_sources srcs (td, params, out)).2.2 = out := by
  induction srcs generalizing td params with
  | nil => rfl
  | cons src rest ih =>
    unfold src_compiler.add_sources
    simp only [if_neg h]
    split_ifs
    · exact ih _ _
    · exact ih _ _

/-- The output name after the loop over the sources, starting with none set. -/
theorem add_sources_out_unset (c : src_compiler) (srcs : List src_file) (td : tmp_dir)
    (params : String)
    (h_stem : ∀ src ∈ srcs, src.path.extension = ".cpp" → src.path.stem ≠ "") :
    (c.add_sources srcs (td, params, "")).2.2
      = match srcs.find? fun src => src.path.extension = ".cpp" with
        | some src => src.path.stem ++ c.out_ext
        | none => "" := by
  induction srcs generalizing td params with
  | nil => rfl
  | cons src rest ih =>
    unfold src_compiler.add_sources
    by_cases hext : src.path.extension = ".cpp"
    · simp only [hext, if_true, List.find?_cons, decide_True]
      exact add_sources_out_set c rest _ _ _
        (string_append_ne_empty _ _ (h_stem src (List.mem_cons_self _ _) hext))
    · simp only [hext, if_false, List.find?_cons, decide_False]
      exact ih _ _ fun s hs => h_stem s (List.mem_cons_of_mem _ hs)

theorem add_sources_output_name (c : src_compiler) (srcs : List src_file) (td : tmp_dir)
    (params : String)
    (h_stem : ∀ src ∈ srcs, src.path.extension = ".cpp" → src.path.stem ≠ "") :
    (c.add_sources srcs (td, params, c.output)).2.2 = c.output_name srcs := by
  unfold src_compiler.output_name
  by_cases h : c.output = ""
  · rw [h, add_sources_out_unset c srcs td params h_stem]
    simp
  · rw [add_sources_out_set c srcs td params _ h, if_pos h]

/-- C26: with the output name the configured output when it is not empty and otherwise the
stem of the first source with the extension `.cpp` followed by `out_ext`,
`src_compiler::compile` throws "Output file missing: " followed by that name when no file
of the name is in the build directory after the compiler command has run, and returns the
bytes of the file otherwise. -/
theorem C26_compile_output (execute : tmp_dir → String → String → Except error tmp_dir)
    (c : src_compiler) (srcs : List src_file) (td1 : tmp_dir)
    (h_stem : ∀ src ∈ srcs, src.path.extension = ".cpp" → src.path.stem ≠ "")
    (h_run :
      (if c.launcher ≠ "" then
          execute (c.add_sources srcs ([], c.flags ++ " -I.", c.output)).1 c.launcher
            (c.compiler ++ " " ++ ((c.add_sources srcs ([], c.flags ++ " -I.", c.output)).2.1
              ++ " -o " ++ c.output_name srcs))
        else
          execute (c.add_sources srcs ([], c.flags ++ " -I.", c.output)).1 c.compiler
            ((c.add_sources srcs ([], c.flags ++ " -I.", c.output)).2.1
              ++ " -o " ++ c.output_name srcs))
        = .ok td1) :
    (td1.file_exists (c.output_name srcs) = false →
        c.compile execute srcs
          = .error (.exception ("Output file missing: " ++ c.output_name srcs)))
      ∧ (td1.file_exists (c.output_name srcs) = true →
          c.compile execute srcs = .ok (read_buffer td1 (c.output_name srcs)))
      ∧ (c.output ≠ "" → c.output_name srcs = c.output)
      ∧ (c.output = "" → ∀ (before : List src_file) (src : src_file) (after : List src_file),
          srcs = before ++ src :: after →
          (∀ s ∈ before, s.path.extension ≠ ".cpp") → src.path.extension = ".cpp" →
          c.output_name srcs = src.path.stem ++ c.out_ext) := by
  have hout := add_sources_output_name c srcs [] (c.flags ++ " -I.") h_stem
  refine ⟨?_, ?_, ?_, ?_⟩
  · intro h
    unfold src_compiler.compile
    simp only [hout, h_run, h]
    rfl
  · intro h
    unfold src_compiler.compile
    simp only [hout, h_run, h]
    rfl
  · intro h
    unfold src_compiler.output_name
    rw [if_pos h]
  · intro h before src after hs hb hsrc
    unfold src_compiler.output_name
    rw [if_neg (by rw [h]; simp), hs]
    have hfind : (before ++ src :: after).find? (fun s => decide (s.path.extension = ".cpp"))
        = some src := by
      rw [List.find?_append]
      have hnone : before.find? (fun s => decide (s.path.extension = ".cpp")) = none := by
        rw [List.find?_eq_none]
        intro s hs1
        simpa using hb s hs1
      rw [hnone]
      simp [List.find?_cons, hsrc]
    rw [hfind]
/-- C26 on the sources `include/kernel.hpp`, `main.cpp`, `other.cpp` with no output
configured: the output name is `main.o`; a command that writes nothing makes `compile`
throw, one that writes `main.o` makes it return the bytes. -/
theorem C26_compile_output_witness :
    example_compiler.compile execute_nothing example_sources
        = .error (.exception "Output file missing: main.o")
      ∧ example_compiler.compile execute_object example_sources = .ok [7, 8] :=
  ⟨(C26_compile_output execute_nothing example_compiler example_sources
      (example_compiler.add_sources example_sources ([], "-O3 -I.", "")).1
      (by decide) rfl).1 rfl,
   (C26_compile_output execute_object example_compiler example_sources
      (write_buffer (example_compiler.add_sources example_sources ([], "-O3 -I.", "")).1
        "main.o" [7, 8])
      (by decide) rfl).2.1 rfl⟩

/-! ### C28 -/

theorem gemm_compute_shape_fused (env : gemm_env) (g : rocblas_gemm) (a b c out : shape) :
    g.compute_shape env [a, b, c, out]
      = match env.blas_shape a with
        | .error e => .error e
        | .ok _ =>
          match env.blas_shape b with
          | .error e => .error e
          | .ok _ =>
            if env.transposed c ∨ env.broadcasted c then .error .shape_mismatch
            else g.fused_shape env a b c := by
  unfold rocblas_gemm.compute_shape
  simp only [List.dropLast, List.length_cons, List.length_nil]
  rw [if_neg (by omega)]

theorem gemm_compute_shape_plain (env : gemm_env) (g : rocblas_gemm) (a b out : shape) :
    g.compute_shape env [a, b, out]
      = match env.blas_shape a with
        | .error e => .error e
        | .ok _ =>
          match env.blas_shape b with
          | .error e => .error e
          | .ok _ =>
            match g.op_compute_shape [a, b] with
            | .error e => .error e
            | .ok s => .ok (env.transpose_batch s g.trans_batch) := by
  unfold rocblas_gemm.compute_shape
  simp only [List.dropLast, List.length_cons, List.length_nil]
  rw [if_neg (by omega)]

theorem gemm_fused_shape_ok (env : gemm_env) (g : rocblas_gemm) (a b c r : shape)
    (h : g.fused_shape env a b c = .ok r) :
    ∃ s, g.op_compute_shape [a, b] = .ok s ∧ c.lens = s.lens ∧ c.type = s.type
      ∧ r = env.transpose_batch s g.trans_batch := by
  unfold rocblas_gemm.fused_shape at h
  cases hb : env.blas_shape c with
  | error e => rw [hb] at h; cases h
  | ok u =>
    rw [hb] at h
    cases hs : g.op_compute_shape [a, b] with
    | error e => rw [hs] at h; cases h
    | ok s =>
      rw [hs] at h
      simp only at h
      split_ifs at h with h1 h2
      refine ⟨s, rfl, by simpa using h1, by simpa using h2, ?_⟩
      cases h
      rfl

theorem gemm_fused_shape_mismatch (env : gemm_env) (g : rocblas_gemm) (a b c s : shape)
    (hs : g.op_compute_shape [a, b] = .ok s) (h : c.lens ≠ s.lens ∨ c.type ≠ s.type) :
    ∃ e, g.fused_shape env a b c = .error e := by
  unfold rocblas_gemm.fused_shape
  cases hb : env.blas_shape c with
  | error e => exact ⟨e, rfl⟩
  | ok u =>
    simp only [hs]
    split_ifs with h1 h2
    · exact ⟨_, rfl⟩
    · exact ⟨_, rfl⟩
    · rcases h with h | h
      · exact absurd h h1
      · exact absurd h h2
/-- C28: `rocblas_gemm::compute_shape`, given the operand shapes followed by the shape of
the output allocation, returns only for two or three operands; with a fused third operand
C it fails when the lengths or the element type of C differ from those of the wrapped
operator's output shape for (A, B); and what it returns is `transpose_batch` of that
output shape with the configured `trans_batch`, which it does return once the operands
pass `blas_shape` and C is neither transposed nor broadcast. -/
theorem C28_gemm_compute_shape (env : gemm_env) (g : rocblas_gemm) (inputs : List shape) :
    (∀ r, g.compute_shape env inputs = .ok r →
        inputs.dropLast.length = 2 ∨ inputs.dropLast.length = 3)
      ∧ (∀ a b c out s, inputs = [a, b, c, out] → g.op_compute_shape [a, b] = .ok s →
          (c.lens ≠ s.lens ∨ c.type ≠ s.type) →
          ∃ e, g.compute_shape env inputs = .error e)
      ∧ (∀ a b c out r, inputs = [a, b, c, out] → g.compute_shape env inputs = .ok r →
          ∃ s, g.op_compute_shape [a, b] = .ok s ∧ c.lens = s.lens ∧ c.type = s.type
            ∧ r = env.transpose_batch s g.trans_batch)
      ∧ (∀ a b out r, inputs = [a, b, out] → g.compute_shape env inputs = .ok r →
          ∃ s, g.op_compute_shape [a, b] = .ok s
            ∧ r = env.transpose_batch s g.trans_batch)
      ∧ (∀ a b c out s, inputs = [a, b, c, out] →
          env.blas_shape a = .ok () → env.blas_shape b = .ok () → env.blas_shape c = .ok () →
          env.transposed c = false → env.broadcasted c = false →
          g.op_compute_shape [a, b] = .ok s →
          (c.lens ≠ s.lens →
              g.compute_shape env inputs
                = .error (.exception (g.name ++ " : dimension mismatch, operand C: \x7b" ++
                    env.to_string_range c.lens ++ "\x7d, cannot add to operand A * B: \x7b" ++
                    env.to_string_range s.lens ++ "\x7d")))
            ∧ (c.lens = s.lens → c.type ≠ s.type →
              g.compute_shape env inputs
                = .error (.exception
                    (g.name ++ " : operand C type mismatch, operand C is of type: " ++
                      env.to_string c.type ++ ", it must be: " ++ env.to_string s.type)))
            ∧ (c.lens = s.lens → c.type = s.type →
              g.compute_shape env inputs = .ok (env.transpose_batch s g.trans_batch)))
      ∧ (∀ a b out s, inputs = [a, b, out] →
          env.blas_shape a = .ok () → env.blas_shape b = .ok () →
          g.op_compute_shape [a, b] = .ok s →
          g.compute_shape env inputs = .ok (env.transpose_batch s g.trans_batch)) := by
  refine ⟨?_, ?_, ?_, ?_, ?_, ?_⟩
  · intro r h
    unfold rocblas_gemm.compute_shape at h
    simp only at h
    by_contra hc
    rw [if_pos (by omega)] at h
    cases h
  · rintro a b c out s rfl hs hne
    rw [gemm_compute_shape_fused]
    cases env.blas_shape a with
    | error e => exact ⟨e, rfl⟩
    | ok u =>
      cases env.blas_shape b with
      | error e => exact ⟨e, rfl⟩
      | ok u =>
        simp only
        split_ifs
        · exact ⟨_, rfl⟩
        · exact gemm_fused_shape_mismatch env g a b c s hs hne
  · rintro a b c out r rfl h
    rw [gemm_compute_shape_fused] at h
    cases ha : env.blas_shape a with
    | error e => rw [ha] at h; cases h
    | ok u =>
      rw [ha] at h
      cases hb : env.blas_shape b with
      | error e => rw [hb] at h; cases h
      | ok u =>
        rw [hb] at h
        simp only at h
        split_ifs at h
        exact gemm_fused_shape_ok env g a b c r h
  · rintro a b out r rfl h
    rw [gemm_compute_shape_plain] at h
    cases ha : env.blas_shape a with
    | error e => rw [ha] at h; cases h
    | ok u =>
      rw [ha] at h
      cases hb : env.blas_shape b with
      | error e => rw [hb] at h; cases h
      | ok u =>
        rw [hb] at h
        cases hs : g.op_compute_shape [a, b] with
        | error e => rw [hs] at h; cases h
        | ok s =>
          rw [hs] at h
          cases h
          exact ⟨s, rfl, rfl⟩
  · rintro a b c out s rfl ha hb hc ht hbr hs
    rw [gemm_compute_shape_fused]
    simp only [ha, hb, ht, hbr, Bool.false_eq_true, or_self, if_false,
      rocblas_gemm.fused_shape, hc, hs]
    refine ⟨?_, ?_, ?_⟩
    · intro h1
      rw [if_pos h1]
    · intro h1 h2
      rw [if_neg (by simpa using h1), if_pos h2]
    · intro h1 h2
      rw [if_neg (by simpa using h1), if_neg (by simpa using h2)]
  · rintro a b out s rfl ha hb hs
    rw [gemm_compute_shape_plain]
    simp only [ha, hb, hs]

/-- C28 at a `dot` of lengths `[2,3]` by `[3,4]`: with C of lengths `[2,4]` the output
shape of lengths `[2,4]` is returned, with C of lengths `[2,5]` the dimension mismatch is
thrown, and a single operand is not accepted. -/
theorem C28_gemm_compute_shape_witness :
    example_gemm.compute_shape example_gemm_env
        [shape.from_lens 0 [2, 3], shape.from_lens 0 [3, 4], shape.from_lens 0 [2, 4],
          shape.from_lens 0 [2, 4]]
        = .ok (shape.from_lens 0 [2, 4])
      ∧ example_gemm.compute_shape example_gemm_env
        [shape.from_lens 0 [2, 3], shape.from_lens 0 [3, 4], shape.from_lens 0 [2, 5],
          shape.from_lens 0 [2, 4]]
        = .error (.exception (example_gemm.name ++ " : dimension mismatch, operand C: \x7b" ++
            example_gemm_env.to_string_range [2, 5] ++ "\x7d, cannot add to operand A * B: \x7b" ++
            example_gemm_env.to_string_range [2, 4] ++ "\x7d"))
      ∧ example_gemm.compute_shape example_gemm_env
        [shape.from_lens 0 [2, 3], shape.from_lens 0 [2, 3]] = .error .shape_mismatch :=
  ⟨((C28_gemm_compute_shape example_gemm_env example_gemm
      [shape.from_lens 0 [2, 3], shape.from_lens 0 [3, 4], shape.from_lens 0 [2, 4],
        shape.from_lens 0 [2, 4]]).2.2.2.2.1
      (shape.from_lens 0 [2, 3]) (shape.from_lens 0 [3, 4]) (shape.from_lens 0 [2, 4])
      (shape.from_lens 0 [2, 4]) (shape.from_lens 0 [2, 4])
      rfl rfl rfl rfl rfl rfl rfl).2.2 rfl rfl,
   ((C28_gemm_compute_shape example_gemm_env example_gemm
      [shape.from_lens 0 [2, 3], shape.from_lens 0 [3, 4], shape.from_lens 0 [2, 5],
        shape.from_lens 0 [2, 4]]).2.2.2.2.1
      (shape.from_lens 0 [2, 3]) (shape.from_lens 0 [3, 4]) (shape.from_lens 0 [2, 5])
      (shape.from_lens 0 [2, 4]) (shape.from_lens 0 [2, 4])
      rfl rfl rfl rfl rfl rfl rfl).1 (by decide),
   by rfl⟩

/-! ### C29 -/

theorem trunc_neg (q : Rat) : trunc (-q) = -trunc q := by
  unfold trunc
  rcases lt_trichotomy q 0 with h | h | h
  · rw [if_pos (by linarith), if_neg (by linarith), Int.floor_neg]
  · subst h
    simp
  · rw [if_neg (by linarith), if_pos (by linarith), Int.ceil_neg]

theorem tdiv_eq_trunc_of_nonneg (a b : Int) (ha : 0 ≤ a) (hb : 0 < b) :
    Int.tdiv a b = trunc ((a : Rat) / (b : Rat)) := by
  have hq : (0 : Rat) ≤ (a : Rat) / (b : Rat) :=
    div_nonneg (by exact_mod_cast ha) (by exact_mod_cast hb.le)
  unfold trunc
  rw [if_pos hq, Int.tdiv_eq_ediv ha hb.le]
  obtain ⟨d, rfl⟩ : ∃ d : Nat, b = d := ⟨b.toNat, by omega⟩
  have := Rat.floor_intCast_div_natCast a d
  rw [← this]
  simp

theorem tdiv_eq_trunc (a b : Int) (hb : b ≠ 0) :
    Int.tdiv a b = trunc ((a : Rat) / (b : Rat)) := by
  rcases lt_or_gt_of_ne hb with hneg | hpos
  · by_cases ha : 0 ≤ a
    · have h := tdiv_eq_trunc_of_nonneg a (-b) ha (by omega)
      rw [Int.tdiv_neg] at h
      have h2 : ((a : Rat) / ((-b : Int) : Rat)) = -((a : Rat) / (b : Rat)) := by
        push_cast
        rw [div_neg]
      rw [h2, trunc_neg] at h
      omega
    · have h := tdiv_eq_trunc_of_nonneg (-a) (-b) (by omega) (by omega)
      rw [Int.neg_tdiv_neg] at h
      have h2 : (((-a : Int) : Rat) / ((-b : Int) : Rat)) = (a : Rat) / (b : Rat) := by
        push_cast
        rw [neg_div_neg_eq]
      rw [h2] at h
      exact h
  · by_cases ha : 0 ≤ a
    · exact tdiv_eq_trunc_of_nonneg a b ha hpos
    · have h := tdiv_eq_trunc_of_nonneg (-a) b (by omega) hpos
      rw [Int.neg_tdiv] at h
      have h2 : (((-a : Int) : Rat) / (b : Rat)) = -((a : Rat) / (b : Rat)) := by
        push_cast
        rw [neg_div]
      rw [h2, trunc_neg] at h
      omega

/-- C29: `fmod` on integers is the remainder of the division truncated toward zero, with
the sign of the dividend: `fmod(a, b) = a - b * trunc(a / b)` for `b != 0`, smaller than
`b` in absolute value; chained on the data of the test,
`fmod(fmod([-7, 8, -3], [2, 4, 6]), [7, 5, 9]) = [-1, 0, -3]`. -/
theorem C29_fmod_truncated (a b : Int) (hb : b ≠ 0) :
    fmod a b = a - b * trunc ((a : Rat) / (b : Rat))
      ∧ (0 ≤ a → 0 ≤ fmod a b)
      ∧ (a ≤ 0 → fmod a b ≤ 0)
      ∧ (fmod a b).natAbs < b.natAbs
      ∧ eval_fmod (eval_fmod [-7, 8, -3] [2, 4, 6]) [7, 5, 9] = [-1, 0, -3] := by
  have hdef : fmod a b = a - b * trunc ((a : Rat) / (b : Rat)) := by
    unfold fmod
    rw [Int.tmod_def, tdiv_eq_trunc a b hb]
  have hnonneg : 0 ≤ a → 0 ≤ fmod a b := fun ha => Int.tmod_nonneg b ha
  have hnonpos : a ≤ 0 → fmod a b ≤ 0 := by
    intro ha
    have h1 := Int.tmod_nonneg b (show 0 ≤ -a by omega)
    have h2 : Int.tmod (-a) b = -Int.tmod a b := by
      rw [Int.tmod_def, Int.tmod_def, Int.neg_tdiv]
      ring
    unfold fmod
    omega
  refine ⟨hdef, hnonneg, hnonpos, ?_, by decide⟩
  have hlt : ∀ x y : Int, 0 ≤ x → 0 < y → (Int.tmod x y).natAbs < y.natAbs := by
    intro x y hx hy
    have h1 := Int.tmod_lt_of_pos x hy
    have h2 := Int.tmod_nonneg y hx
    omega
  have hnegx : ∀ x y : Int, Int.tmod (-x) y = -Int.tmod x y := by
    intro x y
    rw [Int.tmod_def, Int.tmod_def, Int.neg_tdiv]
    ring
  unfold fmod
  rcases lt_or_gt_of_ne hb with hneg | hpos
  · by_cases ha : 0 ≤ a
    · have := hlt a (-b) ha (by omega)
      rw [Int.tmod_neg] at this
      omega
    · have := hlt (-a) (-b) (by omega) (by omega)
      rw [Int.tmod_neg, hnegx] at this
      omega
  · by_cases ha : 0 ≤ a
    · exact hlt a b ha hpos
    · have := hlt (-a) b (by omega) hpos
      rw [hnegx] at this
      omega

/-- C29 at `a = -7`, `b = 2`: the remainder is `-1`, and `trunc(-7 / 2) = -3`. -/
theorem C29_fmod_truncated_witness :
    fmod (-7) 2 = -7 - 2 * trunc (((-7 : Int) : Rat) / ((2 : Int) : Rat)) ∧ fmod (-7) 2 = -1 :=
  ⟨(C29_fmod_truncated (-7) 2 (by decide)).1, by decide⟩

/-! ## is_no_transpose is the test for the identity permutation -/

theorem adjacent_find_step_none (a : Int) (l : List Int) :
    (adjacent_find (fun x y => decide (y - x ≠ 1)) (a :: l)).isNone = true
      ↔ l = (List.range l.length).map fun i => a + 1 + Int.ofNat i := by
  induction l generalizing a with
  | nil => simp [adjacent_find]
  | cons b rest ih =>
    unfold adjacent_find
    by_cases hb : b - a = 1
    · have hb1 : b = a + 1 := by omega
      subst hb1
      simp only [ne_eq, hb, not_true_eq_false, decide_False, Bool.false_eq_true, if_false,
        Option.isNone_map', List.length_cons, List.range_succ_eq_map, List.map_cons,
        List.map_map]
      rw [ih (a + 1)]
      constructor
      · intro h
        congr 1
        · simp
        · nth_rewrite 1 [h]
          apply List.map_congr_left
          intro i _
          simp only [Function.comp, Int.ofNat_eq_coe, Nat.cast_succ]
          ring
      · intro h
        have h2 := (List.cons.inj h).2
        nth_rewrite 1 [h2]
        apply List.map_congr_left
        intro i _
        simp only [Function.comp, Int.ofNat_eq_coe, Nat.cast_succ]
        ring
    · simp only [ne_eq, hb, not_false_eq_true, decide_True, if_true, Option.isNone_some,
        Bool.false_eq_true, List.length_cons, List.range_succ_eq_map, List.map_cons, false_iff]
      intro h
      have h1 := (List.cons.inj h).1
      simp at h1
      omega

theorem is_no_transpose_iff_iota (dims : List Int) :
    is_no_transpose dims = true ↔ dims = iota dims.length := by
  cases dims with
  | nil => simp [is_no_transpose, iota]
  | cons d rest =>
    unfold is_no_transpose
    by_cases hd : d = 0
    · subst hd
      simp only [ne_eq, not_true_eq_false, if_false]
      rw [adjacent_find_step_none 0 rest]
      simp only [iota, List.length_cons, List.range_succ_eq_map, List.map_cons, List.map_map]
      constructor
      · intro h
        congr 1
        nth_rewrite 1 [h]
        apply List.map_congr_left
        intro i _
        simp only [Function.comp, Int.ofNat_eq_coe, Nat.cast_succ]
        ring
      · intro h
        have h2 := (List.cons.inj h).2
        nth_rewrite 1 [h2]
        apply List.map_congr_left
        intro i _
        simp only [Function.comp, Int.ofNat_eq_coe, Nat.cast_succ]
        ring
    · simp only [ne_eq, hd, not_false_eq_true, if_true, Bool.false_eq_true, false_iff]
      intro h
      simp only [iota, List.length_cons, List.range_succ_eq_map, List.map_cons] at h
      have h1 := (List.cons.inj h).1
      simp at h1
      exact hd h1

theorem eq_iota_iff_get (dims : List Int) :
    dims = iota dims.length ↔ ∀ i : Fin dims.length, dims.get i = Int.ofNat i.val := by
  constructor
  · intro h i
    have h1 : dims.getD i.val 0 = (iota dims.length).getD i.val 0 := by rw [← h]
    have h2 : dims.getD i.val 0 = dims.get i := by
      rw [List.getD_eq_getElem dims 0 i.isLt, List.get_eq_getElem]
    rw [← h2, h1]
    have h3 := i.isLt
    simp [iota, List.getD_eq_getElem?_getD, h3]
  · intro h
    apply List.ext_get
    · rw [iota_length]
    · intro n h1 h2
      have := h ⟨n, h1⟩
      simp only [List.get_eq_getElem] at this ⊢
      rw [this]
      simp [iota]

/-- C35: `is_no_transpose(dims)` is true exactly when `dims` is the identity permutation:
for every integer vector it returns true if and only if `dims` is the vector
`0, 1, ..., size-1`, that is `dims[i] = i` at every index `i`; the empty vector gives
true. -/
theorem C35_is_no_transpose_iff_identity (dims : List Int) :
    (is_no_transpose dims = true ↔ ∀ i : Fin dims.length, dims.get i = Int.ofNat i.val)
      ∧ (is_no_transpose dims = true ↔ dims = iota dims.length)
      ∧ is_no_transpose [] = true := by
  refine ⟨?_, is_no_transpose_iff_iota dims, rfl⟩
  rw [is_no_transpose_iff_iota, eq_iota_iff_get]

/-! ## The permutation of the new transpose of find_transpose_slice -/

theorem new_perm_perm (n : Nat) (perm : List Int) (preaxis : Int)
    (h_perm : perm.Perm (iota n)) (h_pre : 0 ≤ preaxis ∧ preaxis < n) :
    (find_transpose_slice.new_perm perm preaxis).Perm (iota (n + 1)) := by
  have hlen := perm_iota_length n perm h_perm
  have hnd := perm_iota_nodup n perm h_perm
  have hmem : ∀ a ∈ perm, 0 ≤ a ∧ a < n := fun a ha => (mem_iota n a).mp (h_perm.mem_iff.mp ha)
  have h_nodup : (find_transpose_slice.new_perm perm preaxis).Nodup := by
    unfold find_transpose_slice.new_perm
    rw [List.nodup_cons]
    constructor
    · intro h
      rw [List.mem_map] at h
      obtain ⟨a, _, ha⟩ := h
      split_ifs at ha <;> omega
    · apply List.Nodup.map _ hnd
      intro a b hab
      simp only at hab
      split_ifs at hab <;> omega
  have h_sub : find_transpose_slice.new_perm perm preaxis ⊆ iota (n + 1) := by
    intro x hx
    rw [mem_iota]
    unfold find_transpose_slice.new_perm at hx
    rw [List.mem_cons] at hx
    rcases hx with hx | hx
    · subst hx
      push_cast
      omega
    · rw [List.mem_map] at hx
      obtain ⟨a, ha, hax⟩ := hx
      have := hmem a ha
      push_cast
      split_ifs at hax <;> omega
  have h_sp := List.subperm_of_subset h_nodup h_sub
  apply h_sp.perm_of_length_le
  rw [iota_length]
  simp [find_transpose_slice.new_perm, hlen]

/-- C34: the permutation `find_transpose_slice::apply` builds for the new transpose,
`preaxis = perm[axis]` in front of `perm` with every entry not below `preaxis` incremented
by one, is a permutation of `0 .. n` whenever `perm` is a permutation of `0 .. n-1` and
`axis` is one of its positions; its entry 0 is `preaxis`, the axis the unsqueeze inserts
for the steps, and its entry `axis + 1`, where the sliced axis of the old transpose now
stands, is `preaxis + 1`, the axis within a step. -/
theorem C34_new_transpose_permutation (n : Nat) (perm : List Int) (axis : Int)
    (h_perm : perm.Perm (iota n)) (h_axis : 0 ≤ axis ∧ axis < n) (h_rank : n < 2 ^ 63) :
    (find_transpose_slice.new_perm perm (perm.getD (to_size axis) 0)).Perm (iota (n + 1))
      ∧ (find_transpose_slice.new_perm perm (perm.getD (to_size axis) 0)).length = n + 1
      ∧ (0 ≤ perm.getD (to_size axis) 0 ∧ perm.getD (to_size axis) 0 < n)
      ∧ (find_transpose_slice.new_perm perm (perm.getD (to_size axis) 0)).getD 0 0
          = perm.getD (to_size axis) 0
      ∧ (find_transpose_slice.new_perm perm (perm.getD (to_size axis) 0)).getD
            (to_size axis + 1) 0
          = perm.getD (to_size axis) 0 + 1 := by
  have hlen := perm_iota_length n perm h_perm
  have h_ts : to_size axis = axis.toNat := to_size_of_nonneg axis h_axis.1 (by omega)
  have h_lt : to_size axis < perm.length := by
    rw [h_ts, hlen]
    omega
  have h_pre : 0 ≤ perm.getD (to_size axis) 0 ∧ perm.getD (to_size axis) 0 < n := by
    apply (mem_iota n _).mp
    apply h_perm.mem_iff.mp
    rw [List.getD_eq_getElem _ _ h_lt]
    exact List.getElem_mem _
  have hp := new_perm_perm n perm _ h_perm h_pre
  refine ⟨hp, ?_, h_pre, rfl, ?_⟩
  · rw [hp.length_eq, iota_length]
  · unfold find_transpose_slice.new_perm
    rw [List.getD_cons_succ, List.getD_eq_getElem _ _ (by simpa using h_lt), List.getElem_map]
    have h_get : perm[to_size axis] = perm.getD (to_size axis) 0 :=
      (List.getD_eq_getElem _ _ h_lt).symm
    rw [h_get, if_pos (le_refl _)]

theorem C34_new_transpose_permutation_witness :
    [1, 2, 0].Perm (iota 3) ∧ find_transpose_slice.new_perm [1, 2, 0] 2 = [2, 1, 3, 0]
      ∧ [2, 1, 3, 0].Perm (iota 4) ∧ ([2, 1, 3, 0] : List Int).getD 2 0 = 3 := by
  have h : ([1, 2, 0] : List Int).Perm (iota 3) := by decide
  have h1 := C34_new_transpose_permutation 3 [1, 2, 0] 1 h (by decide) (by norm_num)
  have e : ([1, 2, 0] : List Int).getD (to_size 1) 0 = 2 := by
    rw [to_size_of_nonneg 1 (by decide) (by norm_num)]
    rfl
  rw [e] at h1
  have e2 : find_transpose_slice.new_perm [1, 2, 0] 2 = [2, 1, 3, 0] := by decide
  rw [e2] at h1
  exact ⟨h, e2, h1.1, by decide⟩

/-! ## The reshape and broadcast lengths of find_resize -/

theorem find_resize.part_broadcast (l : List (Nat × Nat)) :
    List.Forall₂ (fun i o => i = o ∨ i = 1) (l.flatMap find_resize.in_part)
      (l.flatMap find_resize.out_part) := by
  induction l with
  | nil => exact List.Forall₂.nil
  | cons p rest ih =>
    rw [List.flatMap_cons, List.flatMap_cons]
    apply List.rel_append _ ih
    unfold find_resize.in_part find_resize.out_part
    by_cases h : p.1 = 1 ∨ p.2 = 1
    · rw [if_pos h, if_pos h]
      refine List.Forall₂.cons ?_ List.Forall₂.nil
      rcases h with h | h
      · exact Or.inr h
      · left
        rw [h, Nat.mul_one]
    · rw [if_neg h, if_neg h]
      exact List.Forall₂.cons (Or.inl rfl) (List.Forall₂.cons (Or.inr rfl) List.Forall₂.nil)

theorem find_resize.part_pos (l : List (Nat × Nat)) (h : ∀ p ∈ l, 0 < p.1 ∧ 0 < p.2) :
    (∀ x ∈ l.flatMap find_resize.in_part, 0 < x)
      ∧ ∀ x ∈ l.flatMap find_resize.out_part, 0 < x := by
  constructor
  · intro x hx
    rw [List.mem_flatMap] at hx
    obtain ⟨p, hp, hxp⟩ := hx
    have := h p hp
    unfold find_resize.in_part at hxp
    split_ifs at hxp <;> simp at hxp <;> omega
  · intro x hx
    rw [List.mem_flatMap] at hx
    obtain ⟨p, hp, hxp⟩ := hx
    have := h p hp
    unfold find_resize.out_part at hxp
    split_ifs at hxp
    · simp at hxp
      rw [hxp]
      exact Nat.mul_pos this.1 this.2
    · simp at hxp
      omega

/-- C32: for input and output lengths `find_resize::apply` accepts (equal rank, positive
lengths, every output length a multiple of the input length) the vectors `in_dims` and
`out_dims` it builds have the same size, the product of `in_dims` is the number of input
elements and the product of `out_dims` the number of output elements, `in_dims` broadcasts
to `out_dims` position by position (`in_dims[j] = out_dims[j]` or `in_dims[j] = 1`), all
their entries are positive, and there is one scale `out_len / in_len` per axis, each at
least 1, so the modulo by the scale in the index check never divides by zero. -/
theorem C32_find_resize_dims_invariants (in_lens out_lens : List Nat)
    (h_rank : in_lens.length = out_lens.length)
    (h_in : ∀ d ∈ in_lens, 0 < d) (h_out : ∀ d ∈ out_lens, 0 < d)
    (h_multi : (find_resize.is_multi in_lens out_lens).all (fun b => b) = true) :
    (find_resize.dims (find_resize.dim_scales in_lens out_lens)).1.length
        = (find_resize.dims (find_resize.dim_scales in_lens out_lens)).2.length
      ∧ (find_resize.dims (find_resize.dim_scales in_lens out_lens)).1.prod = in_lens.prod
      ∧ (find_resize.dims (find_resize.dim_scales in_lens out_lens)).2.prod = out_lens.prod
      ∧ List.Forall₂ (fun i o => i = o ∨ i = 1)
          (find_resize.dims (find_resize.dim_scales in_lens out_lens)).1
          (find_resize.dims (find_resize.dim_scales in_lens out_lens)).2
      ∧ (∀ x ∈ (find_resize.dims (find_resize.dim_scales in_lens out_lens)).1, 0 < x)
      ∧ (∀ x ∈ (find_resize.dims (find_resize.dim_scales in_lens out_lens)).2, 0 < x)
      ∧ (find_resize.scales in_lens out_lens).length = in_lens.length
      ∧ ∀ s ∈ find_resize.scales in_lens out_lens, 1 ≤ s := by
  obtain ⟨e1, e2, e3⟩ := find_resize.dim_scales_props in_lens out_lens h_rank h_multi
  have h_sp := find_resize.scales_pos in_lens out_lens h_rank h_out h_multi
  have h_pp : ∀ p ∈ find_resize.dim_scales in_lens out_lens, 0 < p.1 ∧ 0 < p.2 := by
    intro p hp
    refine ⟨?_, h_sp p hp⟩
    apply h_in
    rw [← e1]
    exact List.mem_map_of_mem _ hp
  rw [find_resize.dims_eq]
  refine ⟨(find_resize.part_length _).symm, ?_, ?_, find_resize.part_broadcast _,
    (find_resize.part_pos _ h_pp).1, (find_resize.part_pos _ h_pp).2, ?_, ?_⟩
  · rw [find_resize.in_part_prod, e1]
  · rw [find_resize.out_part_prod, e2]
  · simp [find_resize.scales, h_rank]
  · intro s hs
    rw [← e3, List.mem_map] at hs
    obtain ⟨p, hp, rfl⟩ := hs
    exact h_sp p hp

theorem C32_find_resize_dims_invariants_witness :
    find_resize.dims (find_resize.dim_scales [1, 2, 3] [4, 2, 6])
        = ([1, 2, 3, 1], [4, 2, 3, 2])
      ∧ find_resize.scales [1, 2, 3] [4, 2, 6] = [4, 1, 2]
      ∧ List.Forall₂ (fun i o => i = o ∨ i = 1)
          (find_resize.dims (find_resize.dim_scales [1, 2, 3] [4, 2, 6])).1
          (find_resize.dims (find_resize.dim_scales [1, 2, 3] [4, 2, 6])).2 :=
  ⟨by decide, by decide,
    (C32_find_resize_dims_invariants [1, 2, 3] [4, 2, 6] rfl (by decide) (by decide)
      (by decide)).2.2.2.1⟩

/-! ## The ranges of the rewritten slices of find_transpose_slice -/

theorem to_int64_of_lt (n : Nat) (h : n < 2 ^ 63) : to_int64 n = Int.ofNat n := by
  unfold to_int64
  have h1 : n % 2 ^ 64 = n := Nat.mod_eq_of_lt (by omega)
  rw [h1, if_pos h]

theorem tdiv_add_self (st d : Int) (h_d : 0 < d) (h_st : 0 ≤ st) :
    Int.tdiv (st + d) d = Int.tdiv st d + 1 ∧ 0 ≤ Int.tdiv st d := by
  rw [Int.tdiv_eq_ediv (by omega) h_d.le, Int.tdiv_eq_ediv h_st h_d.le]
  constructor
  · rw [Int.add_ediv_of_dvd_right (dvd_refl d), Int.ediv_self (by omega)]
  · exact Int.ediv_nonneg h_st h_d.le

/-- C33: in `find_transpose_slice::apply`, for a sliced axis of transposed length `L`, a
distance `d > 0` that divides `L`, and a slice of that axis with `0 <= start` and
`end = start + d <= L`, the unsqueeze gets the single step count `L / d` with
`(L / d) * d = L`, and the rewritten slice is a slice of axis 0 with the range
`[start / d, start / d + 1)`: one index, which lies within `[0, L / d)`. -/
theorem C33_rewritten_slice_selects_one_step (lens : List Nat) (axis d st en : Int)
    (op : operation)
    (h_d : 0 < d) (h_div : d ∣ Int.ofNat (lens.getD (to_size axis) 0))
    (h_st : 0 ≤ st) (h_en : en = st + d)
    (h_le : en ≤ Int.ofNat (lens.getD (to_size axis) 0))
    (h_L : lens.getD (to_size axis) 0 < 2 ^ 63) :
    find_transpose_slice.steps lens [axis] [d]
        = [Int.ofNat (lens.getD (to_size axis) 0) / d]
      ∧ Int.ofNat (lens.getD (to_size axis) 0) / d * d = Int.ofNat (lens.getD (to_size axis) 0)
      ∧ (find_transpose_slice.slice_op op st en d).axes = [0]
      ∧ (find_transpose_slice.slice_op op st en d).starts = [Int.tdiv st d]
      ∧ (find_transpose_slice.slice_op op st en d).ends = [Int.tdiv st d + 1]
      ∧ 0 ≤ Int.tdiv st d
      ∧ Int.tdiv st d + 1 ≤ Int.ofNat (lens.getD (to_size axis) 0) / d := by
  unfold find_transpose_slice.steps
  rw [List.zipWith_cons_cons, List.zipWith_nil_left]
  generalize lens.getD (to_size axis) 0 = L at *
  obtain ⟨e1, e2⟩ := tdiv_add_self st d h_d h_st
  have h_ts : to_size d = d.toNat := by
    apply to_size_of_nonneg d h_d.le
    have : (Int.ofNat L) < 2 ^ 63 := by
      simp only [Int.ofNat_eq_coe]
      exact_mod_cast h_L
    omega
  have h_q : Int.ofNat (L / d.toNat) = Int.ofNat L / d := by
    simp only [Int.ofNat_eq_coe]
    rw [Int.natCast_div, Int.toNat_of_nonneg h_d.le]
  refine ⟨?_, Int.ediv_mul_cancel h_div, rfl, rfl, ?_, e2, ?_⟩
  · rw [h_ts, to_int64_of_lt _ (lt_of_le_of_lt (Nat.div_le_self _ _) h_L), h_q]
  · show [Int.tdiv en d] = [Int.tdiv st d + 1]
    rw [h_en, e1]
  · rw [← e1, ← h_en, Int.tdiv_eq_ediv (by omega) h_d.le]
    exact Int.ediv_le_ediv h_d h_le

theorem C33_rewritten_slice_selects_one_step_witness :
    find_transpose_slice.steps [2, 6] [1] [2] = [3]
      ∧ (find_transpose_slice.slice_op (make_op "slice") 4 6 2).axes = [0]
      ∧ (find_transpose_slice.slice_op (make_op "slice") 4 6 2).starts = [2]
      ∧ (find_transpose_slice.slice_op (make_op "slice") 4 6 2).ends = [3] := by
  have e : ([2, 6] : List Nat).getD (to_size 1) 0 = 6 := by
    rw [to_size_of_nonneg 1 (by decide) (by norm_num)]
    rfl
  have h := C33_rewritten_slice_selects_one_step [2, 6] 1 2 4 6 (make_op "slice") (by decide)
    (by rw [e]; decide) (by decide) (by decide) (by rw [e]; decide) (by rw [e]; norm_num)
  rw [e] at h
  exact ⟨h.1, h.2.2.1, h.2.2.2.1, h.2.2.2.2.1⟩

/-! ## Instructions under insertion and replacement -/

theorem insert_before_keys (pos : Nat) (e : Nat × instruction) (l : List (Nat × instruction))
    (x : Nat) :
    x ∈ (insert_before pos e l).map Prod.fst ↔ x = e.1 ∨ x ∈ l.map Prod.fst := by
  induction l with
  | nil => simp [insert_before]
  | cons p rest ih =>
    obtain ⟨r, i⟩ := p
    unfold insert_before
    by_cases h : r = pos
    · rw [if_pos h]
      simp
    · rw [if_neg h, List.map_cons, List.mem_cons, ih, List.map_cons, List.mem_cons]
      tauto

theorem lookup_insert_before_ne (pos k : Nat) (e : Nat × instruction)
    (l : List (Nat × instruction)) (h : k ≠ e.1) :
    List.lookup k (insert_before pos e l) = List.lookup k l := by
  induction l with
  | nil =>
    unfold insert_before
    rw [lookup_cons_ite, if_neg h]
  | cons p rest ih =>
    obtain ⟨r, i⟩ := p
    unfold insert_before
    by_cases hr : r = pos
    · rw [if_pos hr, lookup_cons_ite, if_neg h]
    · rw [if_neg hr, lookup_cons_ite, lookup_cons_ite, ih]

theorem lookup_insert_before_self (pos : Nat) (e : Nat × instruction)
    (l : List (Nat × instruction)) (h : e.1 ∉ l.map Prod.fst) :
    List.lookup e.1 (insert_before pos e l) = some e.2 := by
  induction l with
  | nil =>
    unfold insert_before
    rw [lookup_cons_ite, if_pos rfl]
  | cons p rest ih =>
    obtain ⟨r, i⟩ := p
    rw [List.map_cons, List.mem_cons, not_or] at h
    unfold insert_before
    by_cases hr : r = pos
    · rw [if_pos hr, lookup_cons_ite, if_pos rfl]
    · rw [if_neg hr, lookup_cons_ite, if_neg h.1, ih h.2]

theorem mem_add_output (outs : List instruction_ref) (c x : instruction_ref) (h : x ∈ outs) :
    x ∈ add_output outs c := by
  unfold add_output
  split_ifs
  · exact h
  · exact List.mem_append_left _ h

theorem module.insert_instruction_spec (compute_shape : operation → List shape → Option shape)
    (m m1 : module) (pos : instruction_ref) (op : operation) (args : List instruction_ref)
    (r : instruction_ref)
    (h : m.insert_instruction compute_shape pos op args = .ok (m1, r))
    (h_next : ∀ k ∈ m.instructions.map Prod.fst, k < m.next) :
    r = m.next ∧ m1.next = m.next + 1 ∧ m1.returns = m.returns
      ∧ (∀ k ∈ m1.instructions.map Prod.fst, k < m1.next)
      ∧ m1.get_operator r = op ∧ m1.inputs r = args
      ∧ m1.has_instruction r = true
      ∧ ∀ k, k ≠ r →
          m1.get_operator k = m.get_operator k ∧ m1.inputs k = m.inputs k
            ∧ m1.get_shape k = m.get_shape k ∧ m1.has_instruction k = m.has_instruction k
            ∧ ∀ c ∈ m.outputs k, c ∈ m1.outputs k := by
  unfold module.insert_instruction at h
  split_ifs at h with h_args
  cases h_cs : compute_shape op (args.map m.get_shape) with
  | none =>
    rw [h_cs] at h
    cases h
  | some s =>
    rw [h_cs] at h
    simp only [Except.ok.injEq, Prod.mk.injEq] at h
    obtain ⟨hm, hr⟩ := h
    subst hr
    have h_fun : (fun p : instruction_ref × instruction =>
          if p.1 ∈ args then (p.1, { p.2 with outputs := add_output p.2.outputs m.next }) else p)
        = fun p => (p.1, if p.1 ∈ args then { p.2 with outputs := add_output p.2.outputs m.next }
            else p.2) := by
      funext p
      split_ifs <;> rfl
    rw [h_fun] at hm
    have h_keys : (m.instructions.map fun p : instruction_ref × instruction =>
          (p.1, if p.1 ∈ args then { p.2 with outputs := add_output p.2.outputs m.next }
            else p.2)).map Prod.fst = m.instructions.map Prod.fst := by
      rw [List.map_map]
      rfl
    have h_fresh : m.next ∉ m.instructions.map Prod.fst := fun hc =>
      absurd (h_next _ hc) (lt_irrefl _)
    have h_get_r : m1.get m.next
        = some { op := op, get_shape := s, inputs := args, outputs := [] } := by
      rw [← hm]
      exact lookup_insert_before_self pos (m.next, _) _ (by rw [h_keys]; exact h_fresh)
    have h_get_k : ∀ k, k ≠ m.next → m1.get k = (m.get k).map fun v =>
        if k ∈ args then { v with outputs := add_output v.outputs m.next } else v := by
      intro k hk
      rw [← hm]
      show List.lookup k (insert_before pos (m.next, _) _) = _
      rw [lookup_insert_before_ne pos k (m.next, _) _ hk]
      exact lookup_map_entry _ _ _
    refine ⟨rfl, by rw [← hm], by rw [← hm], ?_, ?_, ?_, ?_, ?_⟩
    · intro k hk
      rw [← hm] at hk ⊢
      rw [insert_before_keys, h_keys] at hk
      show k < m.next + 1
      rcases hk with hk | hk
      · exact Nat.lt_succ_of_le (le_of_eq hk)
      · exact Nat.lt_succ_of_lt (h_next k hk)
    · simp only [module.get_operator, h_get_r]
    · simp only [module.inputs, h_get_r]
    · simp only [module.has_instruction, h_get_r, Option.isSome_some]
    · intro k hk
      have hg := h_get_k k hk
      simp only [module.get_operator, module.inputs, module.get_shape, module.has_instruction,
        module.outputs, hg]
      cases m.get k with
      | none => simp
      | some v =>
        simp only [Option.map_some', Option.isSome_some]
        split_ifs
        · exact ⟨rfl, rfl, rfl, trivial, fun c hc => mem_add_output _ _ _ hc⟩
        · exact ⟨rfl, rfl, rfl, trivial, fun c hc => hc⟩

theorem map_replace_of_not_mem (l : List instruction_ref) (old new : instruction_ref)
    (h : old ∉ l) : (l.map fun a => if a = old then new else a) = l := by
  induction l with
  | nil => rfl
  | cons a rest ih =>
    rw [List.mem_cons, not_or] at h
    rw [List.map_cons, ih h.2, if_neg (fun hc => h.1 hc.symm)]

theorem module.replace_instruction_spec (m m1 : module) (old new : instruction_ref)
    (h : m.replace_instruction old new = .ok m1) :
    m1.returns = (m.returns.map fun a => if a = old then new else a)
      ∧ (∀ c, m1.get_operator c = m.get_operator c)
      ∧ (∀ c, c ∈ m.outputs old →
          m1.inputs c = (m.inputs c).map fun a => if a = old then new else a)
      ∧ ∀ c, old ∉ m.inputs c → m1.inputs c = m.inputs c := by
  unfold module.replace_instruction at h
  cases h_old : m.get old with
  | none =>
    rw [h_old] at h
    cases h
  | some io =>
    cases h_new : m.get new with
    | none =>
      rw [h_old, h_new] at h
      cases h
    | some inew =>
      rw [h_old, h_new] at h
      simp only at h
      split_ifs at h with h_shape
      simp only [Except.ok.injEq] at h
      have h_in : ∀ c, m1.inputs c = if c ∈ io.outputs
          then (m.inputs c).map fun a => if a = old then new else a else m.inputs c := by
        intro c
        rw [← h]
        simp only [module.inputs, module.get, lookup_map_entry]
        cases List.lookup c m.instructions with
        | none => simp
        | some i =>
          simp only [Option.map_some']
          split_ifs <;> rfl
      refine ⟨by rw [← h], ?_, ?_, ?_⟩
      · intro c
        rw [← h]
        simp only [module.get_operator, module.get, lookup_map_entry]
        cases List.lookup c m.instructions with
        | none => rfl
        | some i =>
          simp only [Option.map_some']
          split_ifs <;> rfl
      · intro c hc
        have hc1 : c ∈ io.outputs := by
          simpa only [module.outputs, h_old] using hc
        rw [h_in c, if_pos hc1]
      · intro c hc
        rw [h_in c]
        split_ifs
        · exact map_replace_of_not_mem _ _ _ hc
        · rfl

theorem find_reshape_cont.collect_spec (compute_shape : operation → List shape → Option shape)
    (ins in_ins cont_input : instruction_ref) (dims : List Int) (l : List instruction_ref)
    (m m1 : module) (inputs : List instruction_ref)
    (h : find_reshape_cont.collect compute_shape ins in_ins cont_input dims m l
      = .ok (m1, inputs))
    (h_next : ∀ k ∈ m.instructions.map Prod.fst, k < m.next) :
    (∀ k ∈ m1.instructions.map Prod.fst, k < m1.next)
      ∧ m.next ≤ m1.next ∧ m1.returns = m.returns
      ∧ (∀ k : Nat, k < m.next →
          m1.get_operator k = m.get_operator k ∧ m1.inputs k = m.inputs k
            ∧ m1.get_shape k = m.get_shape k ∧ m1.has_instruction k = m.has_instruction k
            ∧ ∀ c ∈ m.outputs k, c ∈ m1.outputs k)
      ∧ List.Forall₂
          (fun orig new => (orig = in_ins ∧ new = cont_input)
            ∨ (orig ≠ in_ins ∧ m.next ≤ new ∧ new < m1.next
                ∧ m1.get_operator new = { name := "reshape", dims := dims }
                ∧ m1.inputs new = [orig]))
          l inputs := by
  induction l generalizing m inputs with
  | nil =>
    unfold find_reshape_cont.collect at h
    simp only [Except.ok.injEq, Prod.mk.injEq] at h
    obtain ⟨rfl, rfl⟩ := h
    exact ⟨h_next, le_refl _, rfl, fun k _ => ⟨rfl, rfl, rfl, rfl, fun c hc => hc⟩,
      List.Forall₂.nil⟩
  | cons i rest ih =>
    unfold find_reshape_cont.collect at h
    by_cases hi : i = in_ins
    · rw [if_pos hi] at h
      cases hc : find_reshape_cont.collect compute_shape ins in_ins cont_input dims m rest with
      | error e =>
        rw [hc] at h
        cases h
      | ok res =>
        obtain ⟨m2, inputs2⟩ := res
        rw [hc] at h
        simp only [Except.ok.injEq, Prod.mk.injEq] at h
        obtain ⟨rfl, rfl⟩ := h
        obtain ⟨a1, a2, a3, a4, a5⟩ := ih m inputs2 hc h_next
        exact ⟨a1, a2, a3, a4, List.Forall₂.cons (Or.inl ⟨hi, rfl⟩) a5⟩
    · rw [if_neg hi] at h
      cases hins : m.insert_instruction compute_shape ins { name := "reshape", dims := dims }
          [i] with
      | error e =>
        rw [hins] at h
        cases h
      | ok res1 =>
        obtain ⟨m2, r⟩ := res1
        rw [hins] at h
        simp only at h
        cases hc : find_reshape_cont.collect compute_shape ins in_ins cont_input dims m2
            rest with
        | error e =>
          rw [hc] at h
          cases h
        | ok res =>
          obtain ⟨m3, inputs3⟩ := res
          rw [hc] at h
          simp only [Except.ok.injEq, Prod.mk.injEq] at h
          obtain ⟨rfl, rfl⟩ := h
          obtain ⟨b1, b2, b3, b4, b5, b6, b7, b8⟩ :=
            module.insert_instruction_spec compute_shape m m2 ins _ _ r hins h_next
          obtain ⟨a1, a2, a3, a4, a5⟩ := ih m2 inputs3 hc b4
          have hb1 : @Eq Nat r m.next := b1
          have hb2 : @Eq Nat m2.next (m.next + 1) := b2
          have ha2 : @LE.le Nat _ m2.next m3.next := a2
          have hr_lt : @LT.lt Nat _ r m2.next := by omega
          refine ⟨a1, show @LE.le Nat _ m.next m3.next by omega, by rw [a3, b3], ?_, ?_⟩
          · intro k hk
            have hk0 : @LT.lt Nat _ k m.next := hk
            have hk1 : k ≠ r := by omega
            obtain ⟨c1, c2, c3, c4, c5⟩ := b8 k hk1
            obtain ⟨d1, d2, d3, d4, d5⟩ := a4 k (show @LT.lt Nat _ k m2.next by omega)
            exact ⟨by rw [d1, c1], by rw [d2, c2], by rw [d3, c3], by rw [d4, c4],
              fun c hc => d5 c (c5 c hc)⟩
          · refine List.Forall₂.cons (Or.inr ⟨hi, show @LE.le Nat _ m.next r by omega,
              show @LT.lt Nat _ r m3.next by omega, ?_, ?_⟩) ?_
            · rw [(a4 r hr_lt).1, b5]
            · rw [(a4 r hr_lt).2.1, b6]
            · apply a5.imp
              intro orig new hon
              rcases hon with hon | ⟨e1, e2, e3, e4, e5⟩
              · exact Or.inl hon
              · have he2 : @LE.le Nat _ m2.next new := e2
                exact Or.inr ⟨e1, show @LE.le Nat _ m.next new by omega, e3, e4, e5⟩

theorem forall₂_mem_right {α β : Type} (R : α → β → Prop) (l1 : List α) (l2 : List β)
    (h : List.Forall₂ R l1 l2) (y : β) (hy : y ∈ l2) : ∃ x ∈ l1, R x y := by
  induction h with
  | nil => cases hy
  | @cons a b as bs hab _ ih =>
    rcases List.mem_cons.mp hy with hy | hy
    · exact ⟨a, List.mem_cons_self _ _, hy ▸ hab⟩
    · obtain ⟨x, hx, hr⟩ := ih hy
      exact ⟨x, List.mem_cons_of_mem _ hx, hr⟩

/-- C31: when `find_reshape_cont::apply` rewrites (the shape of the matched reshape equals
the output shape of the pointwise instruction and every operand is standard) and its
insertions succeed, the operands keep their positions: the new pointwise instruction
`out` has as many operands as the matched one, its `i`-th operand is the input `X` of
the contiguous where the original `i`-th operand is the matched reshape and otherwise a
new instruction `reshape(dims = lengths of X)` of the original `i`-th operand; `out` has
the operator of the matched instruction; and the matched instruction is replaced by a
new `reshape` of `out` to the original output lengths, which takes its place in the
returns and in the operands of its consumers. -/
theorem C31_reshape_cont_operand_positions
    (compute_shape : operation → List shape → Option shape) (m m1 : module)
    (r : matcher_result) (ins_cont in_ins cont_input : instruction_ref)
    (rest : List instruction_ref)
    (h_cont : r.at_name "cont" = .ok ins_cont) (h_rsp : r.at_name "rsp" = .ok in_ins)
    (h_in : m.inputs ins_cont = cont_input :: rest)
    (h_shape : m.get_shape in_ins = m.get_shape r.result)
    (h_std : ∀ i ∈ m.inputs r.result, (m.get_shape i).standard = true)
    (h_next : ∀ k ∈ m.instructions.map Prod.fst, k < m.next)
    (h_ins : m.has_instruction r.result = true)
    (h_self : r.result ∉ m.inputs r.result) (h_X : cont_input ≠ r.result)
    (h : find_reshape_cont.apply compute_shape m r = .ok m1) :
    ∃ (inputs : List instruction_ref) (out rsp : instruction_ref),
      List.Forall₂
          (fun orig new => (orig = in_ins ∧ new = cont_input)
            ∨ (orig ≠ in_ins ∧ m.has_instruction new = false
                ∧ m1.get_operator new
                    = { name := "reshape", dims := (m.get_shape cont_input).lens.map Int.ofNat }
                ∧ m1.inputs new = [orig]))
          (m.inputs r.result) inputs
        ∧ inputs.length = (m.inputs r.result).length
        ∧ m.has_instruction out = false ∧ m.has_instruction rsp = false ∧ out ≠ rsp
        ∧ m1.get_operator out = m.get_operator r.result ∧ m1.inputs out = inputs
        ∧ m1.get_operator rsp
            = { name := "reshape", dims := (m.get_shape r.result).lens.map Int.ofNat }
        ∧ m1.inputs rsp = [out]
        ∧ m1.returns = (m.returns.map fun a => if a = r.result then rsp else a)
        ∧ ∀ c, m.has_instruction c = true → c ∈ m.outputs r.result →
            m1.inputs c = (m.inputs c).map fun a => if a = r.result then rsp else a := by
  rw [find_reshape_cont_rewrites compute_shape m r ins_cont in_ins cont_input rest h_cont h_rsp
    h_in h_shape h_std] at h
  unfold find_reshape_cont.rewrite at h
  simp only at h
  have h_absent : ∀ k : Nat, m.next ≤ k → m.has_instruction k = false := by
    intro k hk
    cases hh : m.has_instruction k with
    | false => rfl
    | true =>
      exact absurd (h_next k ((module.has_instruction_iff m k).mp hh)) (not_lt.mpr hk)
  have h_ins_lt : @LT.lt Nat _ r.result m.next :=
    h_next _ ((module.has_instruction_iff m _).mp h_ins)
  cases hc : find_reshape_cont.collect compute_shape r.result in_ins cont_input
      ((m.get_shape cont_input).lens.map Int.ofNat) m (m.inputs r.result) with
  | error e =>
    rw [hc] at h
    cases h
  | ok res =>
    obtain ⟨m2, inputs⟩ := res
    rw [hc] at h
    simp only at h
    obtain ⟨a1, a2, a3, a4, a5⟩ := find_reshape_cont.collect_spec compute_shape r.result in_ins
      cont_input _ _ m m2 inputs hc h_next
    cases ho : m2.insert_instruction compute_shape r.result (m.get_operator r.result) inputs with
    | error e =>
      rw [ho] at h
      cases h
    | ok res2 =>
      obtain ⟨m3, out⟩ := res2
      rw [ho] at h
      simp only at h
      obtain ⟨b1, b2, b3, b4, b5, b6, b7, b8⟩ :=
        module.insert_instruction_spec compute_shape m2 m3 r.result _ _ out ho a1
      unfold module.replace_instruction_op at h
      cases hr : m3.insert_instruction compute_shape r.result
          { name := "reshape", dims := (m.get_shape r.result).lens.map Int.ofNat } [out] with
      | error e =>
        rw [hr] at h
        cases h
      | ok res3 =>
        obtain ⟨m4, rsp⟩ := res3
        rw [hr] at h
        simp only at h
        obtain ⟨c1, c2, c3, c4, c5, c6, c7, c8⟩ :=
          module.insert_instruction_spec compute_shape m3 m4 r.result _ _ rsp hr b4
        obtain ⟨d1, d2, d3, d4⟩ := module.replace_instruction_spec m4 m1 r.result rsp h
        have ha2 : @LE.le Nat _ m.next m2.next := a2
        have hb1 : @Eq Nat out m2.next := b1
        have hb2 : @Eq Nat m3.next (m2.next + 1) := b2
        have hc1 : @Eq Nat rsp m3.next := c1
        have h_out_rsp : out ≠ rsp := fun hh => by
          have hh1 : @Eq Nat out rsp := hh
          omega
        have h_out_ins : out ≠ r.result := fun hh => by
          have hh1 : @Eq Nat out r.result := hh
          omega
        have h_ins_rsp : r.result ≠ rsp := fun hh => by
          have hh1 : @Eq Nat r.result rsp := hh
          omega
        have h_ins_out : r.result ≠ out := fun hh => h_out_ins hh.symm
        have h_keep : ∀ k : Nat, k < m2.next →
            m4.get_operator k = m2.get_operator k ∧ m4.inputs k = m2.inputs k := by
          intro k hk
          have hk1 : k ≠ out := by omega
          have hk2 : k ≠ rsp := by omega
          exact ⟨by rw [(c8 k hk2).1, (b8 k hk1).1], by rw [(c8 k hk2).2.1, (b8 k hk1).2.1]⟩
        have h_rel : List.Forall₂
            (fun orig new => (orig = in_ins ∧ new = cont_input)
              ∨ (orig ≠ in_ins ∧ m.has_instruction new = false
                  ∧ m1.get_operator new
                      = { name := "reshape",
                          dims := (m.get_shape cont_input).lens.map Int.ofNat }
                  ∧ m1.inputs new = [orig]))
            (m.inputs r.result) inputs := by
          have a5m := List.forall₂_iff_zip.mp a5
          apply List.forall₂_iff_zip.mpr
          refine ⟨a5m.1, ?_⟩
          intro orig new hz
          rcases a5m.2 hz with hon | ⟨e1, e2, e3, e4, e5⟩
          · exact Or.inl hon
          · have he3 : @LT.lt Nat _ new m2.next := e3
            have h_orig : orig ∈ m.inputs r.result := (List.of_mem_zip hz).1
            have h_ne : r.result ∉ m4.inputs new := by
              rw [(h_keep new he3).2, e5, List.mem_singleton]
              intro hcontra
              exact h_self (hcontra ▸ h_orig)
            refine Or.inr ⟨e1, h_absent new e2, ?_, ?_⟩
            · rw [d2 new, (h_keep new he3).1, e4]
            · rw [d4 new h_ne, (h_keep new he3).2, e5]
        have h_ins_inputs : r.result ∉ inputs := by
          intro hmem
          obtain ⟨orig, _, hrel⟩ := forall₂_mem_right _ _ _ a5 r.result hmem
          rcases hrel with ⟨_, e⟩ | ⟨_, e2, _⟩
          · exact h_X e.symm
          · have he2 : @LE.le Nat _ m.next r.result := e2
            omega
        refine ⟨inputs, out, rsp, h_rel, (List.forall₂_iff_zip.mp a5).1.symm,
          h_absent out (show @LE.le Nat _ m.next out by omega),
          h_absent rsp (show @LE.le Nat _ m.next rsp by omega), h_out_rsp, ?_, ?_, ?_, ?_, ?_, ?_⟩
        · rw [d2 out, (c8 out h_out_rsp).1, b5]
        · rw [d4 out (by rw [(c8 out h_out_rsp).2.1, b6]; exact h_ins_inputs),
            (c8 out h_out_rsp).2.1, b6]
        · rw [d2 rsp, c5]
        · rw [d4 rsp (by rw [c6, List.mem_singleton]; exact h_ins_out), c6]
        · rw [d1, c3, b3, a3]
        · intro c hc_in hc_out
          have hc_lt : @LT.lt Nat _ c m.next :=
            h_next _ ((module.has_instruction_iff m _).mp hc_in)
          have hc2 : @LT.lt Nat _ c m2.next := by omega
          have k1 := (h_keep c hc2).2
          have k2 := (a4 c hc_lt).2.1
          have o1 : c ∈ m4.outputs r.result := by
            apply (c8 r.result h_ins_rsp).2.2.2.2
            apply (b8 r.result h_ins_out).2.2.2.2
            exact (a4 r.result h_ins_lt).2.2.2.2 c hc_out
          rw [d3 c o1, k1, k2]

theorem C31_reshape_cont_operand_positions_witness :
    (find_reshape_cont.apply op_compute_shape reshape_cont_second_module
          (reshape_cont_match 4)).map
        (fun m1 => (m1.inputs 6, m1.get_operator 6, m1.get_operator 5, m1.inputs 5,
          m1.get_operator 7, m1.inputs 7, m1.returns))
      = .ok ([5, 0], { name := "add" }, { name := "reshape", dims := [2, 3] }, [3],
          { name := "reshape", dims := [6] }, [6], [7])
    ∧ ∃ m1, find_reshape_cont.apply op_compute_shape reshape_cont_second_module
          (reshape_cont_match 4) = .ok m1
        ∧ ∃ (inputs : List instruction_ref) (out rsp : instruction_ref),
          List.Forall₂
              (fun orig new => (orig = 2 ∧ new = 0)
                ∨ (orig ≠ 2 ∧ reshape_cont_second_module.has_instruction new = false
                    ∧ m1.get_operator new
                        = { name := "reshape",
                            dims := (reshape_cont_second_module.get_shape 0).lens.map
                              Int.ofNat }
                    ∧ m1.inputs new = [orig]))
              (reshape_cont_second_module.inputs 4) inputs
            ∧ m1.get_operator out = reshape_cont_second_module.get_operator 4
            ∧ m1.inputs out = inputs ∧ m1.inputs rsp = [out] := by
  refine ⟨by rfl, ?_⟩
  cases h : find_reshape_cont.apply op_compute_shape reshape_cont_second_module
      (reshape_cont_match 4) with
  | error e =>
    have e1 : (find_reshape_cont.apply op_compute_shape reshape_cont_second_module
        (reshape_cont_match 4)).toBool = true := by rfl
    rw [h] at e1
    cases e1
  | ok m1 =>
    obtain ⟨inputs, out, rsp, a1, -, -, -, -, a2, a3, -, a4, -⟩ :=
      C31_reshape_cont_operand_positions op_compute_shape reshape_cont_second_module m1
        (reshape_cont_match 4) 1 2 0 [] rfl rfl rfl (by decide) (by decide) (by decide)
        (by decide) (by decide) (by decide) h
    exact ⟨m1, rfl, inputs, out, rsp, a1, a2, a3, a4⟩


end migraphx
